import Mathlib

namespace Kanzi

/-! ## Machine integers

Go `byte` values are `Fin 256`. Go `uint`/`uint64` values are natural numbers reduced
modulo `2 ^ 64` wherever an operation can leave the range, Go `int8` values are integers
wrapped into `[-128, 127]`, and Go `int` values are integers taken at 64 bits: in the
decoder, where the count of zero bits and its shift can leave the range, every operation
wraps into `[-2 ^ 63, 2 ^ 63 - 1]`; in the transform the `int` values are lengths, counters
and indexes of a 256-node list, which are proved to stay below 256. -/

/-- A Go `byte`. -/
abbrev Byte := Fin 256

/-- The Go conversion `byte(x)` of an integer: the low eight bits. -/
def byteOfInt (x : Int) : Byte := ⟨(x % 256).toNat, by omega⟩

/-- The Go conversion `byte(x)` of an unsigned integer. -/
def byteOfNat (x : Nat) : Byte := ⟨x % 256, Nat.mod_lt _ (by decide)⟩

/-- Reduction of a natural number to a Go `uint` / `uint64` (taken at 64 bits). -/
def u64 (x : Nat) : Nat := x % 2 ^ 64

/-- Wrap an integer into the range of a Go `int8`. -/
def toInt8 (x : Int) : Int := (x + 128) % 256 - 128

/-- Wrap an integer into the range of a 64-bit Go `int`: the conversion `int(x)` of a
`uint64`. -/
def toInt64 (x : Int) : Int :=
  (x + 9223372036854775808) % 18446744073709551616 - 9223372036854775808

/-- The Go conversion `int8(b)` of a byte. -/
def int8OfByte (b : Byte) : Int := toInt8 (b.val : Int)

/-! ## `transform/MTFT.go` -/

/-- The constant `RESET_THRESHOLD`. -/
def RESET_THRESHOLD : Int := 64

/-- The type `Payload`. A `*Payload` is `none` (nil) or the address of a cell. -/
structure Payload where
  previous : Option Nat
  next : Option Nat
  value : Byte

/-- The type `MTFT`, together with the memory `nodes` that holds the `Payload` cells its
pointers refer to (address to contents). -/
structure MTFT where
  size : Nat
  lengths : List Int
  buckets : List Byte
  heads : List (Option Nat)
  nodes : Nat → Payload

/-- Why a run stopped without returning: a Go run-time panic, or the fuel of the model. -/
inductive Stop where
  | nilDereference
  | indexOutOfRange
  | outOfFuel
deriving DecidableEq, Repr

/-- The slice store `l[i] = v`; `none` when `i` is out of range. -/
def storeAt {α : Type} (l : List α) (i : Nat) (v : α) : Option (List α) :=
  if i < l.length then some (l.set i v) else none

/-- The store `p.previous = x`. -/
def setPrevious (nodes : Nat → Payload) (p : Nat) (x : Option Nat) : Nat → Payload :=
  fun a => if a = p then { nodes p with previous := x } else nodes a

/-- The store `p.next = x`. -/
def setNext (nodes : Nat → Payload) (p : Nat) (x : Option Nat) : Nat → Payload :=
  fun a => if a = p then { nodes p with next := x } else nodes a

/-- The store `p.value = x`. -/
def setValue (nodes : Nat → Payload) (p : Nat) (x : Byte) : Nat → Payload :=
  fun a => if a = p then { nodes p with value := x } else nodes a

/-- The loop `for i := 1; i < 256; i++` of `NewMTFT`, with `count` rounds left. The cell
allocated in round `i` has address `i`. -/
def NewMTFT.loop : Nat → Nat → MTFT → Nat → Nat → Option MTFT
  | 0, _, this, _, _ => some this
  | count + 1, i, this, previous, listIdx =>
    let current := i
    let nodes := fun a => if a = current then
      { previous := none, next := none, value := byteOfNat i } else this.nodes a
    let this := { this with nodes := nodes }
    let r : Option (MTFT × Nat) :=
      if (i - 1) % 17 = 0 then
        let listIdx := (listIdx + 1) % 256
        match storeAt this.heads listIdx (some current) with
        | none => none
        | some heads =>
          match storeAt this.lengths listIdx (17 : Int) with
          | none => none
          | some lengths => some ({ this with heads := heads, lengths := lengths }, listIdx)
      else some (this, listIdx)
    match r with
    | none => none
    | some (this, listIdx) =>
      match storeAt this.buckets i (byteOfNat listIdx) with
      | none => none
      | some buckets =>
        let this := { this with buckets := buckets }
        let this := { this with nodes := setNext this.nodes previous (some current) }
        let this := { this with nodes := setPrevious this.nodes current (some previous) }
        NewMTFT.loop count (i + 1) this current listIdx

/-- The function `NewMTFT`. The first cell has address `0`. The result is `none` on a
run-time panic. -/
def NewMTFT (sz : Nat) : Option MTFT :=
  let this : MTFT :=
    { size := sz
      heads := List.replicate 16 none
      lengths := List.replicate 16 0
      buckets := List.replicate 256 0
      nodes := fun _ => { previous := none, next := none, value := 0 } }
  let previous := 0
  match storeAt this.heads 0 (some previous) with
  | none => none
  | some heads =>
    match storeAt this.lengths 0 (1 : Int) with
    | none => none
    | some lengths =>
      match storeAt this.buckets 0 0 with
      | none => none
      | some buckets =>
        NewMTFT.loop 255 1 { this with heads := heads, lengths := lengths, buckets := buckets }
          previous 0

/-- The loop `for i := 1; i < 256; i++` of `balanceLists`, with `count` rounds left. -/
def balanceLists.loop (resetValues : Bool) :
    Nat → Nat → MTFT → Nat → Option Nat → Int → Except (Stop × MTFT) MTFT
  | 0, _, this, _, _, _ => .ok this
  | count + 1, i, this, listIdx, p, n =>
    match p with
    | none => .error (.nilDereference, this)
    | some pa =>
      let this :=
        if resetValues = true then { this with nodes := setValue this.nodes pa (byteOfNat i) }
        else this
      let r : Except (Stop × MTFT) (MTFT × Nat) :=
        if n = 0 then
          let listIdx := (listIdx + 1) % 256
          match storeAt this.heads listIdx (some pa) with
          | none => .error (.indexOutOfRange, this)
          | some heads =>
            let this := { this with heads := heads }
            match storeAt this.lengths listIdx (17 : Int) with
            | none => .error (.indexOutOfRange, this)
            | some lengths => .ok ({ this with lengths := lengths }, listIdx)
        else .ok (this, listIdx)
      match r with
      | .error e => .error e
      | .ok (this, listIdx) =>
        match storeAt this.buckets ((this.nodes pa).value.val &&& 0xFF)
            (byteOfNat listIdx) with
        | none => .error (.indexOutOfRange, this)
        | some buckets =>
          let this := { this with buckets := buckets }
          let p := (this.nodes pa).next
          let n := n + 1
          let n := if n > 16 then 0 else n
          balanceLists.loop resetValues count (i + 1) this listIdx p n

/-- The method `MTFT.balanceLists`. -/
def MTFT.balanceLists (this : MTFT) (resetValues : Bool) : Except (Stop × MTFT) MTFT :=
  match storeAt this.lengths 0 (1 : Int) with
  | none => .error (.indexOutOfRange, this)
  | some lengths =>
    let this := { this with lengths := lengths }
    let listIdx := 0
    match this.heads[0]? with
    | none => .error (.indexOutOfRange, this)
    | some none => .error (.nilDereference, this)
    | some (some h0) =>
      let p := (this.nodes h0).next
      let r : Except (Stop × MTFT) MTFT :=
        if resetValues = true then
          let this := { this with nodes := setValue this.nodes h0 0 }
          match storeAt this.buckets 0 0 with
          | none => .error (.indexOutOfRange, this)
          | some buckets => .ok { this with buckets := buckets }
        else .ok this
      match r with
      | .error e => .error e
      | .ok this => balanceLists.loop resetValues 255 1 this listIdx p 0

/-- The loop `for i := 0; i < listIdx; i++ { idx += this.lengths[i] }` of `moveToFront`,
with `count` rounds left; `none` when an index is out of range. -/
def sumLengths (lengths : List Int) : Nat → Nat → Int → Option Int
  | 0, _, idx => some idx
  | count + 1, i, idx =>
    match lengths[i]? with
    | none => none
    | some l => sumLengths lengths count (i + 1) (idx + l)

/-- The loop `for p.value != current { p = p.next; idx++ }` of `moveToFront`: the node found
and the index reached. Each round costs one unit of fuel. -/
def findNode (nodes : Nat → Payload) (current : Byte) :
    Nat → Option Nat → Int → Except Stop (Nat × Int)
  | fuel, p, idx =>
    match p with
    | none => .error .nilDereference
    | some pa =>
      if (nodes pa).value ≠ current then
        match fuel with
        | 0 => .error .outOfFuel
        | fuel + 1 => findNode nodes current fuel (nodes pa).next (idx + 1)
      else .ok (pa, idx)

/-- The lines of `moveToFront` that find the list index, the head of that list and the
index of the node carrying `current`: the list index, the node and its index. -/
def moveToFront.find (fuel : Nat) (this : MTFT) (current : Byte) :
    Except Stop (Nat × Nat × Int) :=
  match this.buckets[current.val &&& 0xFF]? with
  | none => .error .indexOutOfRange
  | some b =>
    let listIdx : Nat := b.val
    match this.heads[listIdx]? with
    | none => .error .indexOutOfRange
    | some p =>
      match sumLengths this.lengths listIdx 0 0 with
      | none => .error .indexOutOfRange
      | some idx =>
        match findNode this.nodes current fuel p idx with
        | .error e => .error e
        | .ok (p, idx) => .ok (listIdx, p, idx)

/-- The lines `// Unlink` and `// Update head if needed` of `moveToFront`. The search has
read `heads[listIdx]` before, so that index is in range here. -/
def moveToFront.unlink (this : MTFT) (listIdx p : Nat) : MTFT :=
  let this :=
    match (this.nodes p).previous with
    | some pp => { this with nodes := setNext this.nodes pp (this.nodes p).next }
    | none => this
  let this :=
    match (this.nodes p).next with
    | some pn => { this with nodes := setPrevious this.nodes pn (this.nodes p).previous }
    | none => this
  if this.heads[listIdx]? = some (some p) then
    { this with heads := this.heads.set listIdx (this.nodes p).next }
  else this

/-- The lines `// Add to head of first list` of `moveToFront`. -/
def moveToFront.addToHead (this : MTFT) (p : Nat) : Except (Stop × MTFT) MTFT :=
  match this.heads[0]? with
  | none => .error (.indexOutOfRange, this)
  | some none => .error (.nilDereference, this)
  | some (some q) =>
    let this := { this with nodes := setPrevious this.nodes q (some p) }
    let this := { this with nodes := setNext this.nodes p (some q) }
    .ok { this with heads := this.heads.set 0 (some p) }

/-- The lines `// Update list information` of `moveToFront`. The test of the lengths reads
back the two values just stored, `l0 + 1` at index 0 and `l - 1` at index `listIdx`. -/
def moveToFront.updateLists (this : MTFT) (listIdx : Nat) (current : Byte) :
    Except (Stop × MTFT) MTFT :=
  if listIdx ≠ 0 then
    match this.lengths[listIdx]? with
    | none => .error (.indexOutOfRange, this)
    | some l =>
      let this := { this with lengths := this.lengths.set listIdx (l - 1) }
      match this.lengths[0]? with
      | none => .error (.indexOutOfRange, this)
      | some l0 =>
        let this := { this with lengths := this.lengths.set 0 (l0 + 1) }
        match storeAt this.buckets (current.val &&& 0xFF) (0 : Byte) with
        | none => .error (.indexOutOfRange, this)
        | some buckets =>
          let this := { this with buckets := buckets }
          if l0 + 1 > RESET_THRESHOLD ∨ l - 1 = 0 then
            this.balanceLists false
          else .ok this
  else .ok this

/-- One round of the loop of `moveToFront`, after the test `ii < end`: the receiver, the
buffer and `previous` afterwards. -/
def moveToFront.step (fuel : Nat) (this : MTFT) (values : List Byte) (previous : Byte)
    (ii : Nat) : Except (Stop × MTFT × List Byte) (MTFT × List Byte × Byte) :=
  match values[ii]? with
  | none => .error (.indexOutOfRange, this, values)
  | some current =>
    if current = previous then
      .ok (this, values.set ii 0, previous)
    else
      match moveToFront.find fuel this current with
      | .error e => .error (e, this, values)
      | .ok (listIdx, p, idx) =>
        let values := values.set ii (byteOfInt idx)
        let this := moveToFront.unlink this listIdx p
        match moveToFront.addToHead this p with
        | .error (e, this) => .error (e, this, values)
        | .ok this =>
          match moveToFront.updateLists this listIdx current with
          | .error (e, this) => .error (e, this, values)
          | .ok this => .ok (this, values, current)

/-- The loop `for ii := uint(0); ii < end; ii++` of `moveToFront`, with `count` rounds
left. -/
def moveToFront.loop (fuel : Nat) :
    Nat → Nat → MTFT → List Byte → Byte → Except (Stop × MTFT × List Byte) (MTFT × List Byte)
  | 0, _, this, values, _ => .ok (this, values)
  | count + 1, ii, this, values, previous =>
    match moveToFront.step fuel this values previous ii with
    | .error e => .error e
    | .ok (this, values, previous) => moveToFront.loop fuel count (ii + 1) this values previous

/-- The method `MTFT.moveToFront`. -/
def MTFT.moveToFront (fuel : Nat) (this : MTFT) (values : List Byte) (end_ : Nat) :
    Except (Stop × MTFT × List Byte) (MTFT × List Byte) :=
  match this.heads[0]? with
  | none => .error (.indexOutOfRange, this, values)
  | some none => .error (.nilDereference, this, values)
  | some (some h0) =>
    let previous := (this.nodes h0).value
    moveToFront.loop fuel end_ 0 this values previous

/-- The method `MTFT.Forward`. -/
def MTFT.Forward (fuel : Nat) (this : MTFT) (input : List Byte) :
    Except (Stop × MTFT × List Byte) (MTFT × List Byte) :=
  match this.balanceLists true with
  | .error (e, this) => .error (e, this, input)
  | .ok this =>
    let end_ := input.length
    let end_ := if this.size ≠ 0 then this.size else end_
    this.moveToFront fuel input end_

/-- The loop of `MTFT.Inverse`, with `count` rounds left. -/
def Inverse.loop :
    Nat → Nat → List Byte → List Byte → Except (Stop × List Byte × List Byte) (List Byte × List Byte)
  | 0, _, indexes, input => .ok (indexes, input)
  | count + 1, i, indexes, input =>
    match input[i]? with
    | none => .error (.indexOutOfRange, indexes, input)
    | some idx =>
      match indexes[idx.val]? with
      | none => .error (.indexOutOfRange, indexes, input)
      | some value =>
        let input := input.set i value
        let indexes :=
          if idx ≠ 0 then
            -- copy(indexes[1:], indexes[0:idx])
            let src := indexes.take idx.val
            let k := min (indexes.length - 1) src.length
            let indexes := indexes.take 1 ++ src.take k ++ indexes.drop (1 + k)
            indexes.set 0 value
          else indexes
        Inverse.loop count (i + 1) indexes input

/-- The method `MTFT.Inverse`. -/
def MTFT.Inverse (this : MTFT) (input : List Byte) :
    Except (Stop × MTFT × List Byte) (MTFT × List Byte) :=
  let indexes := (List.range this.buckets.length).map byteOfNat
  let end_ := input.length
  let end_ := if this.size ≠ 0 then this.size else end_
  match Inverse.loop end_ 0 indexes input with
  | .error (e, indexes, input) => .error (e, { this with buckets := indexes }, input)
  | .ok (indexes, input) => .ok ({ this with buckets := indexes }, input)

/-! ## Bit channels (package `kanzi`, consumed through its interfaces) -/

/-- The interface `kanzi.OutputBitStream` as far as the codec uses it: `WriteBits s value n`
returns the number of bits written, the error (if any) and the next state of the stream. -/
structure OutputBitStream (σ ε : Type) where
  WriteBits : σ → Nat → Nat → (Nat × Option ε) × σ

/-- The interface `kanzi.InputBitStream` as far as the codec uses it: each call returns the
value read or an error, and the next state of the stream. -/
structure InputBitStream (σ ε : Type) where
  ReadBit : σ → Except ε Int × σ
  ReadBits : σ → Nat → Except ε Nat × σ

/-- The `n` low bits of `value`, most significant first. -/
def bitsMSB (value : Nat) : Nat → List Bool
  | 0 => []
  | n + 1 => value.testBit n :: bitsMSB value n

/-- The number spelled by a list of bits, most significant first. -/
def valueOfBits (bits : List Bool) : Nat :=
  bits.foldl (fun acc b => 2 * acc + b.toNat) 0

/-- The only failure of the in-memory bit channel. -/
inductive StreamError where
  | endOfStream
deriving DecidableEq, Repr

/-- Modelled from the spec: the bit channel (`kanzi.OutputBitStream`) is an external
collaborator whose implementation is not part of the sources; the spec gives
`writeBits(value, n)` as an ordered sink that accepts any bit count. This in-memory sink
appends the `n` low bits of the 64-bit word `value`, most significant first (bits above
bit 63 are zero), and never fails. -/
def listOutput : OutputBitStream (List Bool) StreamError where
  WriteBits := fun s value n => ((n, none), s ++ bitsMSB (u64 value) n)

/-- Modelled from the spec: the bit channel (`kanzi.InputBitStream`) is an external
collaborator whose implementation is not part of the sources; the spec gives `readBit()`
and `readBits(n)` as an ordered source of bits whose calls may fail. This in-memory source
hands out the bits of a list in order and fails, consuming nothing, when the list holds
fewer bits than requested. -/
def listInput : InputBitStream (List Bool) StreamError where
  ReadBit := fun s =>
    match s with
    | [] => (.error .endOfStream, [])
    | b :: rest => (.ok (b.toNat : Int), rest)
  ReadBits := fun s n =>
    if n ≤ s.length then (.ok (valueOfBits (s.take n)), s.drop n)
    else (.error .endOfStream, s)

/-- One call issued on an input bit channel. -/
inductive ReadCall where
  | readBit
  | readBits (n : Nat)
deriving DecidableEq, Repr

/-- An input channel that behaves as `bs` and records, oldest first, every call issued on
it together with the outcome of the call. -/
def loggedInput {σ ε : Type} (bs : InputBitStream σ ε) :
    InputBitStream (σ × List (ReadCall × Except ε Int)) ε where
  ReadBit := fun s =>
    let r := bs.ReadBit s.1
    (r.1, (r.2, s.2 ++ [(ReadCall.readBit, r.1)]))
  ReadBits := fun s n =>
    let r := bs.ReadBits s.1 n
    (r.1, (r.2, s.2 ++ [(ReadCall.readBits n, r.1.map (fun v => (v : Int)))]))

/-- An output channel that behaves as `bs` and records, oldest first, every `WriteBits`
call issued on it: the value, the bit count and the error returned. -/
def loggedOutput {σ ε : Type} (bs : OutputBitStream σ ε) :
    OutputBitStream (σ × List (Nat × Nat × Option ε)) ε where
  WriteBits := fun s value n =>
    let r := bs.WriteBits s.1 value n
    (r.1, (r.2, s.2 ++ [(value, n, r.1.2)]))

/-! ## `entropy/RiceGolombCodec.go` -/

/-- The type `RiceGolombEncoder`; `bitstream` is the state of the channel it writes to. -/
structure RiceGolombEncoder (σ : Type) where
  signed : Bool
  logBase : Nat
  base : Nat
  bitstream : σ

/-- The type `RiceGolombDecoder`; `bitstream` is the state of the channel it reads from. -/
structure RiceGolombDecoder (σ : Type) where
  signed : Bool
  logBase : Nat
  bitstream : σ

/-- The function `NewRiceGolombEncoder`; a nil bit stream is `none`. -/
def NewRiceGolombEncoder {σ : Type} (bs : Option σ) (sgn : Bool) (logBase : Nat) :
    Except String (RiceGolombEncoder σ) :=
  match bs with
  | none => .error "Bit stream parameter cannot be null"
  | some s =>
    if logBase ≤ 0 ∨ logBase ≥ 8 then
      .error "Invalid logBase value (must be in [1..7])"
    else
      .ok { signed := sgn, bitstream := s, logBase := logBase, base := u64 (1 <<< logBase) }

/-- The function `NewRiceGolombDecoder`; a nil bit stream is `none`. -/
def NewRiceGolombDecoder {σ : Type} (bs : Option σ) (sgn : Bool) (logBase : Nat) :
    Except String (RiceGolombDecoder σ) :=
  match bs with
  | none => .error "Bit stream parameter cannot be null"
  | some s =>
    if logBase ≤ 0 ∨ logBase ≥ 8 then
      .error "Invalid logBase value (must be in [1..7])"
    else
      .ok { signed := sgn, bitstream := s, logBase := logBase }

/-- The magnitude byte `val2` of `EncodeByte`: in signed mode
`byte((sVal + (sVal >> 7)) ^ (sVal >> 7))` in wrapping `int8` arithmetic, else `val`. -/
def magnitude (signed : Bool) (val : Byte) : Byte :=
  if signed = true then
    let sVal := int8OfByte val
    byteOfInt (toInt8 (Int.xor (toInt8 (sVal + (sVal >>> 7))) (sVal >>> 7)))
  else
    val

/-- The method `RiceGolombEncoder.EncodeByte`: the returned pair is the error of the call
and the encoder afterwards. -/
def RiceGolombEncoder.EncodeByte {σ ε : Type} (bs : OutputBitStream σ ε)
    (this : RiceGolombEncoder σ) (val : Byte) : Option ε × RiceGolombEncoder σ :=
  if val = 0 then
    let r := bs.WriteBits this.bitstream (u64 this.base) (u64 (this.logBase + 1))
    (r.1.2, { this with bitstream := r.2 })
  else
    let val2 := magnitude this.signed val
    -- quotient is unary encoded, rest is binary encoded
    let emit := u64 (this.base ||| (val2.val &&& u64 (this.base + 2 ^ 64 - 1)))
    let n := u64 (u64 (1 + (val2.val >>> this.logBase)) + this.logBase)
    if this.signed = true then
      let n := u64 (n + 1)
      let emit := u64 (u64 (emit <<< 1) ||| ((val.val >>> 7) &&& 1))
      let r := bs.WriteBits this.bitstream emit n
      (r.1.2, { this with bitstream := r.2 })
    else
      let r := bs.WriteBits this.bitstream emit n
      (r.1.2, { this with bitstream := r.2 })

/-- Repeated application of `EncodeByte` across a buffer in order, stopping at the first
error: the way the block-level entry point `Encode` is defined. -/
def encodeAll {σ ε : Type} (bs : OutputBitStream σ ε) :
    RiceGolombEncoder σ → List Byte → Option ε × RiceGolombEncoder σ
  | this, [] => (none, this)
  | this, b :: rest =>
    match RiceGolombEncoder.EncodeByte bs this b with
    | (none, this1) => encodeAll bs this1 rest
    | (some e, this1) => (some e, this1)

/-- The loop `for bit == 0` of `DecodeByte`, entered with the bit just read. Each round
costs one unit of `fuel`; the result is `none` when the fuel runs out, else the count `q`
or the error of the failing read. The increment `q++` wraps as a 64-bit `int`. -/
def unaryLoop {σ ε : Type} (bs : InputBitStream σ ε) :
    Nat → Int → Int → σ → Option (Except ε Int) × σ
  | fuel, q, bit, s =>
    if bit = 0 then
      match fuel with
      | 0 => (none, s)
      | fuel + 1 =>
        match bs.ReadBit s with
        | (.error err, s1) => (some (.error err), s1)
        | (.ok bit1, s1) => unaryLoop bs fuel (toInt64 (q + 1)) bit1 s1
    else
      (some (.ok q), s)

/-- The method `RiceGolombDecoder.DecodeByte`. The result is `none` when `fuel` rounds of
the unary loop did not reach its end, else the returned pair of byte and error; the decoder
afterwards comes with it. The shift `q << logBase` and the negation `-res` wrap as 64-bit
`int` operations. -/
def RiceGolombDecoder.DecodeByte {σ ε : Type} (bs : InputBitStream σ ε) (fuel : Nat)
    (this : RiceGolombDecoder σ) : Option (Byte × Option ε) × RiceGolombDecoder σ :=
  match bs.ReadBit this.bitstream with
  | (.error err, s1) => (some (0, some err), { this with bitstream := s1 })
  | (.ok bit, s1) =>
    match unaryLoop bs fuel 0 bit s1 with
    | (none, s2) => (none, { this with bitstream := s2 })
    | (some (.error err), s2) => (some (0, some err), { this with bitstream := s2 })
    | (some (.ok q), s2) =>
      match bs.ReadBits s2 this.logBase with
      | (.error err2, s3) => (some (0, some err2), { this with bitstream := s3 })
      | (.ok r, s3) =>
        let res : Int := Int.lor (toInt64 (q * 2 ^ this.logBase)) (toInt64 (r : Int))
        if res ≠ 0 ∧ this.signed = true then
          match bs.ReadBit s3 with
          | (.error err, s4) => (some (byteOfInt res, some err), { this with bitstream := s4 })
          | (.ok bit, s4) =>
            if bit = 1 then
              (some (byteOfInt (toInt8 (toInt64 (-res))), none), { this with bitstream := s4 })
            else
              (some (byteOfInt res, none), { this with bitstream := s4 })
        else
          (some (byteOfInt res, none), { this with bitstream := s3 })

/-- Repeated application of `DecodeByte`, `count` times in order, stopping at the first call
that fails or does not end: the way the block-level entry point `Decode` is defined. -/
def decodeAll {σ ε : Type} (bs : InputBitStream σ ε) (fuel : Nat) :
    Nat → RiceGolombDecoder σ → Option (List Byte) × RiceGolombDecoder σ
  | 0, this => (some [], this)
  | count + 1, this =>
    match RiceGolombDecoder.DecodeByte bs fuel this with
    | (some (b, none), this1) =>
      match decodeAll bs fuel count this1 with
      | (some out, this2) => (some (b :: out), this2)
      | (none, this2) => (none, this2)
    | (_, this1) => (none, this1)

/-- Sum of the first `i` bucket lengths: the global position at which bucket `i` starts. -/
def off (L : Nat → Nat) : Nat → Nat
  | 0 => 0
  | i + 1 => off L i + L i

/-- The bucket lengths right after a rebalance: 1, then 17 for every other bucket. -/
def canonL (i : Nat) : Nat := if i = 0 then 1 else 17

/-- The bucket that holds global position `k` right after a rebalance. -/
def canonBucket (k : Nat) : Nat := if k = 0 then 0 else (k - 1) / 17 + 1

/-- The list structure of an `MTFT`: `ord k` is the address of the node at global position
`k`; the 256 nodes are chained by `next` and `previous` from `heads[0]`, and the three
slices have their sizes. -/
structure Chain (m : MTFT) (ord : Nat → Nat) : Prop where
  inj : ∀ a b, a < 256 → b < 256 → ord a = ord b → a = b
  next_ok : ∀ k, k < 256 →
    (m.nodes (ord k)).next = if k + 1 < 256 then some (ord (k + 1)) else none
  prev_ok : ∀ k, k + 1 < 256 → (m.nodes (ord (k + 1))).previous = some (ord k)
  head0 : m.heads[0]? = some (some (ord 0))
  heads_len : m.heads.length = 16
  lengths_len : m.lengths.length = 16
  buckets_len : m.buckets.length = 256

/-- The rank structure of an `MTFT`: the chain `ord` carries 256 distinct values and is cut
into 16 non-empty buckets of lengths `L`, the first of at most 64 nodes and the others of
at most 17, with `heads`, `lengths` and `buckets` describing that partition. -/
structure Rep (m : MTFT) (ord : Nat → Nat) (L : Nat → Nat) extends Chain m ord : Prop where
  val_inj : ∀ a b, a < 256 → b < 256 →
    (m.nodes (ord a)).value = (m.nodes (ord b)).value → a = b
  L_pos : ∀ i, i < 16 → 1 ≤ L i
  L_zero : L 0 ≤ 64
  L_le : ∀ i, 1 ≤ i → i < 16 → L i ≤ 17
  L_sum : off L 16 = 256
  lengths_ok : ∀ i, i < 16 → m.lengths[i]? = some (L i : Int)
  heads_ok : ∀ i, i < 16 → m.heads[i]? = some (some (ord (off L i)))
  buckets_ok : ∀ k, k < 256 → ∃ i, i < 16 ∧
    m.buckets[((m.nodes (ord k)).value).val]? = some (byteOfNat i) ∧
    off L i ≤ k ∧ k < off L (i + 1)

/-- The values a rebalance leaves in the nodes, by global position. -/
def balValue (reset : Bool) (m0 : MTFT) (ord : Nat → Nat) (k : Nat) : Byte :=
  if reset = true then byteOfNat k else (m0.nodes (ord k)).value

/-- The state of the loop of `balanceLists` at the start of round `i`. -/
structure BalInv (reset : Bool) (m0 : MTFT) (ord : Nat → Nat) (i : Nat) (m : MTFT)
    (listIdx : Nat) (p : Option Nat) (n : Int) : Prop where
  size_eq : m.size = m0.size
  next_eq : ∀ a, (m.nodes a).next = (m0.nodes a).next
  prev_eq : ∀ a, (m.nodes a).previous = (m0.nodes a).previous
  val_done : ∀ k, k < i → (m.nodes (ord k)).value = balValue reset m0 ord k
  val_rest : reset = false → ∀ a, (m.nodes a).value = (m0.nodes a).value
  p_eq : p = if i < 256 then some (ord i) else none
  idx_eq : listIdx = canonBucket (i - 1)
  n_eq : n = ((i - 1) % 17 : Nat)
  heads_len : m.heads.length = 16
  lengths_len : m.lengths.length = 16
  buckets_len : m.buckets.length = 256
  head0 : m.heads[0]? = some (some (ord 0))
  heads_ok : ∀ b, 1 ≤ b → 17 * (b - 1) + 1 < i →
    m.heads[b]? = some (some (ord (17 * (b - 1) + 1)))
  len0 : m.lengths[0]? = some 1
  lens_ok : ∀ b, 1 ≤ b → 17 * (b - 1) + 1 < i → m.lengths[b]? = some 17
  buckets_ok : ∀ k, k < i →
    m.buckets[(balValue reset m0 ord k).val]? = some (byteOfNat (canonBucket k))

/-- The chain after the node at position `j` has moved to the front. -/
def moved (ord : Nat → Nat) (j : Nat) (k : Nat) : Nat :=
  if k = 0 then ord j else if k ≤ j then ord (k - 1) else ord k

/-- The bucket lengths after a node has left bucket `i` for bucket 0. -/
def bump (L : Nat → Nat) (i : Nat) (t : Nat) : Nat :=
  if t = 0 then L 0 + 1 else if t = i then L i - 1 else L t

/-- The reference list of values in front-to-back order. -/
def table (m : MTFT) (ord : Nat → Nat) : List Byte :=
  (List.range 256).map (fun k => (m.nodes (ord k)).value)

/-- The reference move-to-front transform, as the specification words it: the rank of each
symbol is its zero-based position in the current list, after which the symbol is moved to
the front of the list. -/
def mtfRanks : List Byte → List Byte → List Nat
  | _, [] => []
  | t, b :: rest => t.indexOf b :: mtfRanks (b :: t.erase b) rest

/-- The ordered list 0, 1, ..., 255 the reference transform starts from. -/
def identityList : List Byte := (List.range 256).map byteOfNat

/-- The extent `end` that `Forward` and `Inverse` compute. -/
def extent (size : Nat) (input : List Byte) : Nat :=
  if size ≠ 0 then size else input.length

/-- The state of the loop of `NewMTFT` at the start of round `i`. -/
structure NewInv (sz i : Nat) (m : MTFT) (previous listIdx : Nat) : Prop where
  size_eq : m.size = sz
  next_done : ∀ k, k + 1 < i → (m.nodes k).next = some (k + 1)
  next_rest : ∀ k, i ≤ k + 1 → (m.nodes k).next = none
  prev_done : ∀ k, k + 1 < i → (m.nodes (k + 1)).previous = some k
  val_done : ∀ k, k < i → (m.nodes k).value = byteOfNat k
  prev_eq : previous = i - 1
  idx_eq : listIdx = canonBucket (i - 1)
  heads_len : m.heads.length = 16
  lengths_len : m.lengths.length = 16
  buckets_len : m.buckets.length = 256
  head0 : m.heads[0]? = some (some 0)
  heads_ok : ∀ b, 1 ≤ b → 17 * (b - 1) + 1 < i → m.heads[b]? = some (some (17 * (b - 1) + 1))
  len0 : m.lengths[0]? = some 1
  lens_ok : ∀ b, 1 ≤ b → 17 * (b - 1) + 1 < i → m.lengths[b]? = some 17
  buckets_ok : ∀ k, k < i → m.buckets[k]? = some (byteOfNat (canonBucket k))

/-- The reference inverse transform, as the specification words it: each rank is replaced
by the value currently at that rank, after which that value is moved to the front. -/
def mtfDecode : List Byte → List Byte → List Byte
  | _, [] => []
  | t, r :: rest =>
    let v := t.getD r.val 0
    v :: mtfDecode (v :: t.eraseIdx r.val) rest

/-- A list that holds every byte, in 256 places. -/
def Full (t : List Byte) : Prop := t.length = 256 ∧ ∀ b : Byte, b ∈ t

/-- The word `base | (val2 & (base - 1))` of `EncodeByte` for `base = 2 ^ lb`. -/
def emitU (lb m : Nat) : Nat := u64 (2 ^ lb ||| (m &&& u64 (2 ^ lb + 2 ^ 64 - 1)))

/-- The codeword of a byte as the specification words it: for zero a one bit and `lb` zero
bits; else `q` zero bits, a one bit, the `lb` bits of the remainder and, in signed mode, the
high bit of the byte. -/
def codeword (signed : Bool) (lb : Nat) (v : Byte) : List Bool :=
  if v = 0 then true :: List.replicate lb false
  else
    List.replicate ((magnitude signed v).val >>> lb) false ++ [true] ++
      bitsMSB ((magnitude signed v).val &&& (2 ^ lb - 1)) lb ++
      (if signed = true then [decide (128 ≤ v.val)] else [])

/-- The codewords of the bytes of a buffer, one after the other. -/
def codewords (signed : Bool) (lb : Nat) : List Byte → List Bool
  | [] => []
  | b :: rest => codeword signed lb b ++ codewords signed lb rest

/-- The value `res = (q << logBase) | int(r)` that `DecodeByte` holds after `q` rounds of
`q++` and a remainder `r`, in the wrapping arithmetic of a 64-bit `int`. -/
def decodedMagnitude (lb q r : Nat) : Int :=
  Int.lor (toInt64 (toInt64 (q : Int) * 2 ^ lb)) (toInt64 (r : Int))

/-- Every recorded read succeeded. -/
def AllOk {ε : Type} (l : List (ReadCall × Except ε Int)) : Prop :=
  ∀ x ∈ l, ∃ v, x.2 = .ok v

/-- The bit counts of the `WriteBits` calls that one `EncodeByte` issues, oldest first. -/
def requestedBits {σ ε : Type} (bs : OutputBitStream σ ε) (this : RiceGolombEncoder σ)
    (val : Byte) : List Nat :=
  ((RiceGolombEncoder.EncodeByte (loggedOutput bs)
    ⟨this.signed, this.logBase, this.base, (this.bitstream, [])⟩ val).2.bitstream.2).map
    (fun c => c.2.1)

/-- The first `count` rounds of the loop of `moveToFront`, started at index `ii`: the
receiver, the buffer and `previous` with which the next round starts. -/
def moveToFront.run (fuel : Nat) :
    Nat → Nat → MTFT → List Byte → Byte →
      Except (Stop × MTFT × List Byte) (MTFT × List Byte × Byte)
  | 0, _, this, values, previous => .ok (this, values, previous)
  | count + 1, ii, this, values, previous =>
    match moveToFront.step fuel this values previous ii with
    | .error e => .error e
    | .ok (this, values, previous) => moveToFront.run fuel count (ii + 1) this values previous

/-- The state of `Forward` after `k` symbols: the receiver, the buffer and `previous` with
which round `k` of the loop of `moveToFront` starts. -/
def MTFT.ForwardState (fuel : Nat) (this : MTFT) (input : List Byte) (k : Nat) :
    Except (Stop × MTFT × List Byte) (MTFT × List Byte × Byte) :=
  match this.balanceLists true with
  | .error (e, this) => .error (e, this, input)
  | .ok this =>
    match this.heads[0]? with
    | none => .error (.indexOutOfRange, this, input)
    | some none => .error (.nilDereference, this, input)
    | some (some h0) =>
      let previous := (this.nodes h0).value
      moveToFront.run fuel k 0 this input previous

/-- The addresses met by following `next` links from `p`, at most `n` of them. -/
def chainFrom (nodes : Nat → Payload) : Nat → Option Nat → List Nat
  | 0, _ => []
  | _ + 1, none => []
  | n + 1, some a => a :: chainFrom nodes n (nodes a).next

/-- The chain of `next` links from `heads[0]`, followed for at most 257 nodes. -/
def MTFT.chain (m : MTFT) : List Nat :=
  chainFrom m.nodes 257 ((m.heads[0]?).getD none)

/-- The nodes of bucket `i`: the `lengths[i]` nodes met from `heads[i]` on. -/
def MTFT.bucket (m : MTFT) (i : Nat) : List Nat :=
  chainFrom m.nodes ((m.lengths[i]?).getD 0).toNat ((m.heads[i]?).getD none)

/-- The invariant of the rank structure, on the fields of the `MTFT` alone. -/
structure Invariant (m : MTFT) : Prop where
  lengths_len : m.lengths.length = 16
  lengths_sum : m.lengths.sum = 256
  chain_len : m.chain.length = 256
  chain_nodup : m.chain.Nodup
  values_perm : (m.chain.map (fun a => (m.nodes a).value)).Perm identityList
  segment : ∀ i, i < 16 → ∃ l : Nat, m.lengths[i]? = some (l : Int) ∧ 1 ≤ l ∧
    (m.bucket i).length = l ∧
    m.bucket i = (m.chain.drop ((m.lengths.take i).sum).toNat).take l
  bucket_of : ∀ (v : Byte) (i : Nat), i < 16 →
    (m.buckets[v.val]? = some (byteOfNat i) ↔ ∃ a ∈ m.bucket i, (m.nodes a).value = v)

/-- The states of an `MTFT` that a program reaches with `NewMTFT` and `Forward`: the result
of `NewMTFT`, the receiver after a call of `Forward` that returns, the receiver inside
`Forward` after any number of symbols, and the receiver a call of `Forward` leaves behind
when it stops on a run-time panic. The fuel 63 is enough for every search of the list. -/
inductive Reach : MTFT → Prop
  | new (s : Nat) (m : MTFT) : NewMTFT s = some m → Reach m
  | forward (fuel : Nat) (m : MTFT) (input : List Byte) (m1 : MTFT) (out : List Byte) :
      Reach m → 63 ≤ fuel → m.Forward fuel input = .ok (m1, out) → Reach m1
  | symbol (fuel : Nat) (m : MTFT) (input : List Byte) (k : Nat) (mk : MTFT)
      (vk : List Byte) (pk : Byte) :
      Reach m → 63 ≤ fuel → m.ForwardState fuel input k = .ok (mk, vk, pk) → Reach mk
  | stopped (fuel : Nat) (m : MTFT) (input : List Byte) (e : Stop) (m1 : MTFT)
      (out : List Byte) :
      Reach m → 63 ≤ fuel → m.Forward fuel input = .error (e, m1, out) → Reach m1

/-- The states of an `MTFT` that a program reaches with `NewMTFT`, `Forward` and `Inverse`,
whether a call returns or stops on a run-time panic. -/
inductive Used : MTFT → Prop
  | new (s : Nat) (m : MTFT) : NewMTFT s = some m → Used m
  | forward (fuel : Nat) (m : MTFT) (input : List Byte) (m1 : MTFT) (out : List Byte) :
      Used m → 63 ≤ fuel → m.Forward fuel input = .ok (m1, out) → Used m1
  | inverse (m : MTFT) (input : List Byte) (m1 : MTFT) (out : List Byte) :
      Used m → m.Inverse input = .ok (m1, out) → Used m1
  | forwardStopped (fuel : Nat) (m : MTFT) (input : List Byte) (e : Stop) (m1 : MTFT)
      (out : List Byte) :
      Used m → 63 ≤ fuel → m.Forward fuel input = .error (e, m1, out) → Used m1
  | inverseStopped (m : MTFT) (input : List Byte) (e : Stop) (m1 : MTFT) (out : List Byte) :
      Used m → m.Inverse input = .error (e, m1, out) → Used m1

/-- The layout a rebalance leaves: lengths 1, 17, ..., 17; `heads[k]` the node at position
`1 + 17 (k - 1)` of the chain for `k ≥ 1` and the first node for `k = 0`; the value at
position `j` filed under bucket 0 for `j = 0` and under `1 + (j - 1) / 17` otherwise. -/
def Canonical (m : MTFT) : Prop :=
  m.lengths = 1 :: List.replicate 15 17 ∧
  (∀ k, k < 16 → m.heads[k]? = some (m.chain[if k = 0 then 0 else 1 + 17 * (k - 1)]?)) ∧
  (∀ j, j < 256 → ∃ a, m.chain[j]? = some a ∧
    m.buckets[((m.nodes a).value).val]? =
      some (byteOfNat (if j = 0 then 0 else 1 + (j - 1) / 17)))

/-! ## Proofs -/

@[simp] theorem setNext_next (nodes : Nat → Payload) (p : Nat) (x : Option Nat) (a : Nat) :
    (setNext nodes p x a).next = if a = p then x else (nodes a).next := by
  unfold setNext; split <;> simp_all

@[simp] theorem setNext_previous (nodes : Nat → Payload) (p : Nat) (x : Option Nat) (a : Nat) :
    (setNext nodes p x a).previous = (nodes a).previous := by
  unfold setNext; split <;> simp_all

@[simp] theorem setNext_value (nodes : Nat → Payload) (p : Nat) (x : Option Nat) (a : Nat) :
    (setNext nodes p x a).value = (nodes a).value := by
  unfold setNext; split <;> simp_all

@[simp] theorem setPrevious_next (nodes : Nat → Payload) (p : Nat) (x : Option Nat) (a : Nat) :
    (setPrevious nodes p x a).next = (nodes a).next := by
  unfold setPrevious; split <;> simp_all

@[simp] theorem setPrevious_previous (nodes : Nat → Payload) (p : Nat) (x : Option Nat)
    (a : Nat) :
    (setPrevious nodes p x a).previous = if a = p then x else (nodes a).previous := by
  unfold setPrevious; split <;> simp_all

@[simp] theorem setPrevious_value (nodes : Nat → Payload) (p : Nat) (x : Option Nat) (a : Nat) :
    (setPrevious nodes p x a).value = (nodes a).value := by
  unfold setPrevious; split <;> simp_all

@[simp] theorem setValue_next (nodes : Nat → Payload) (p : Nat) (x : Byte) (a : Nat) :
    (setValue nodes p x a).next = (nodes a).next := by
  unfold setValue; split <;> simp_all

@[simp] theorem setValue_previous (nodes : Nat → Payload) (p : Nat) (x : Byte) (a : Nat) :
    (setValue nodes p x a).previous = (nodes a).previous := by
  unfold setValue; split <;> simp_all

@[simp] theorem setValue_value (nodes : Nat → Payload) (p : Nat) (x : Byte) (a : Nat) :
    (setValue nodes p x a).value = if a = p then x else (nodes a).value := by
  unfold setValue; split <;> simp_all

theorem and_ff (x : Nat) (h : x < 256) : x &&& 0xFF = x := by
  have := Nat.and_pow_two_sub_one_eq_mod x 8
  simpa [Nat.mod_eq_of_lt h] using this

theorem byte_and_ff (b : Byte) : b.val &&& 0xFF = b.val := and_ff _ b.isLt

theorem storeAt_eq {α : Type} (l : List α) (i : Nat) (v : α) (h : i < l.length) :
    storeAt l i v = some (l.set i v) := by
  simp [storeAt, h]

theorem byteOfNat_val (k : Nat) (h : k < 256) : (byteOfNat k).val = k := by
  simp [byteOfNat, Nat.mod_eq_of_lt h]

theorem byteOfNat_inj (a b : Nat) (ha : a < 256) (hb : b < 256)
    (h : byteOfNat a = byteOfNat b) : a = b := by
  have := congrArg Fin.val h
  rwa [byteOfNat_val a ha, byteOfNat_val b hb] at this

theorem balValue_inj (reset : Bool) (m0 : MTFT) (ord : Nat → Nat)
    (hv : reset = false → ∀ a b, a < 256 → b < 256 →
      (m0.nodes (ord a)).value = (m0.nodes (ord b)).value → a = b)
    (a b : Nat) (ha : a < 256) (hb : b < 256)
    (h : balValue reset m0 ord a = balValue reset m0 ord b) : a = b := by
  unfold balValue at h
  cases reset with
  | true => simp at h; exact byteOfNat_inj a b ha hb h
  | false => simp at h; exact hv rfl a b ha hb h

theorem canonBucket_lt (k : Nat) (h : k < 256) : canonBucket k < 16 := by
  unfold canonBucket; split <;> omega

/-- One round of the loop of `balanceLists` keeps the loop invariant. -/
theorem balanceLists_round (reset : Bool) (m0 : MTFT) (ord : Nat → Nat)
    (hinj : ∀ a b, a < 256 → b < 256 → ord a = ord b → a = b)
    (hv : reset = false → ∀ a b, a < 256 → b < 256 →
      (m0.nodes (ord a)).value = (m0.nodes (ord b)).value → a = b)
    (hnext : ∀ k, k < 256 →
      (m0.nodes (ord k)).next = if k + 1 < 256 then some (ord (k + 1)) else none)
    (count i : Nat) (m : MTFT) (listIdx : Nat) (p : Option Nat) (n : Int)
    (hi1 : 1 ≤ i) (hi : i < 256)
    (inv : BalInv reset m0 ord i m listIdx p n) :
    ∃ m1 listIdx1 p1 n1, BalInv reset m0 ord (i + 1) m1 listIdx1 p1 n1 ∧
      balanceLists.loop reset (count + 1) i m listIdx p n =
        balanceLists.loop reset count (i + 1) m1 listIdx1 p1 n1 := by
  obtain ⟨hsz, hnx, hpv, hvd, hvr, hp, hidx, hn, hhl, hll, hbl, hh0, hho, hl0, hlo, hbo⟩ := inv
  have hp1 : p = some (ord i) := by rw [hp]; simp [hi]
  subst hp1
  subst hidx
  -- the node after the value store
  let mA : MTFT :=
    if reset = true then { m with nodes := setValue m.nodes (ord i) (byteOfNat i) } else m
  have hA_val : (mA.nodes (ord i)).value = balValue reset m0 ord i := by
    cases reset with
    | true => simp [mA, balValue]
    | false => simp [mA, balValue, hvr rfl]
  have hA_valk : ∀ k, k < i → (mA.nodes (ord k)).value = balValue reset m0 ord k := by
    intro k hk
    cases reset with
    | true =>
      have : ord k ≠ ord i := fun h => by have := hinj k i (by omega) hi h; omega
      simp [mA, this, hvd k hk]
    | false => simp [mA, hvd k hk]
  have hA_next : ∀ a, (mA.nodes a).next = (m0.nodes a).next := by
    intro a; cases reset <;> simp [mA, hnx]
  have hA_prev : ∀ a, (mA.nodes a).previous = (m0.nodes a).previous := by
    intro a; cases reset <;> simp [mA, hpv]
  have hA_rest : reset = false → ∀ a, (mA.nodes a).value = (m0.nodes a).value := by
    intro h a; subst h; simp [mA, hvr rfl]
  have hA_heads : mA.heads = m.heads := by cases reset <;> simp [mA]
  have hA_lengths : mA.lengths = m.lengths := by cases reset <;> simp [mA]
  have hA_buckets : mA.buckets = m.buckets := by cases reset <;> simp [mA]
  have hA_size : mA.size = m.size := by cases reset <;> simp [mA]
  have hcb : canonBucket i < 16 := canonBucket_lt i hi
  have hvi : (balValue reset m0 ord i).val < 256 := (balValue reset m0 ord i).isLt
  by_cases hn0 : (i - 1) % 17 = 0
  · -- a new list starts here
    have hcbi : canonBucket i = canonBucket (i - 1) + 1 := by
      unfold canonBucket; split <;> split <;> omega
    refine ⟨{ mA with
        heads := mA.heads.set (canonBucket i) (some (ord i))
        lengths := mA.lengths.set (canonBucket i) 17
        buckets := mA.buckets.set (balValue reset m0 ord i).val (byteOfNat (canonBucket i)) },
      canonBucket i, (m0.nodes (ord i)).next, (if n + 1 > 16 then 0 else n + 1), ?_, ?_⟩
    · refine ⟨by simp [hA_size, hsz], by simpa using hA_next, by simpa using hA_prev, ?_,
        by simpa using hA_rest, ?_, by simp, ?_, by simp [hA_heads, hhl],
        by simp [hA_lengths, hll], by simp [hA_buckets, hbl], ?_, ?_, ?_, ?_, ?_⟩
      · intro k hk
        rcases Nat.lt_succ_iff_lt_or_eq.mp hk with h | h
        · simpa using hA_valk k h
        · subst h; simpa using hA_val
      · rw [hnext i hi]
      · rw [hn]; simp; split <;> omega
      · have : canonBucket i ≠ 0 := by omega
        simp [hA_heads, List.getElem?_set_ne this, hh0]
      · intro b hb1 hb
        simp only [hA_heads]
        by_cases hbe : canonBucket i = b
        · have : 17 * (b - 1) + 1 = i := by
            rw [← hbe]; unfold canonBucket; split <;> omega
          rw [hbe, List.getElem?_set_self (by omega), this]
        · rw [List.getElem?_set_ne hbe]
          apply hho b hb1
          have : 17 * (b - 1) + 1 ≠ i := by
            intro h; apply hbe; rw [← h]; unfold canonBucket; split <;> omega
          omega
      · have : canonBucket i ≠ 0 := by omega
        simp [hA_lengths, List.getElem?_set_ne this, hl0]
      · intro b hb1 hb
        simp only [hA_lengths]
        by_cases hbe : canonBucket i = b
        · rw [hbe, List.getElem?_set_self (by omega)]
        · rw [List.getElem?_set_ne hbe]
          apply hlo b hb1
          have : 17 * (b - 1) + 1 ≠ i := by
            intro h; apply hbe; rw [← h]; unfold canonBucket; split <;> omega
          omega
      · intro k hk
        simp only [hA_buckets]
        rcases Nat.lt_succ_iff_lt_or_eq.mp hk with h | h
        · have hne : (balValue reset m0 ord i).val ≠ (balValue reset m0 ord k).val := by
            intro he
            have := balValue_inj reset m0 ord hv i k hi (by omega) (Fin.ext he)
            omega
          rw [List.getElem?_set_ne hne]; exact hbo k h
        · subst h; rw [List.getElem?_set_self (by omega)]
    · have hn' : n = 0 := by rw [hn, hn0]; rfl
      have hli : (canonBucket (i - 1) + 1) % 256 = canonBucket i := by rw [hcbi]; omega
      rw [balanceLists.loop]
      simp only [hn', hli]
      have e1 : storeAt mA.heads (canonBucket i) (some (ord i)) =
          some (mA.heads.set (canonBucket i) (some (ord i))) :=
        storeAt_eq _ _ _ (by rw [hA_heads, hhl]; exact hcb)
      have e2 : storeAt mA.lengths (canonBucket i) (17 : Int) =
          some (mA.lengths.set (canonBucket i) 17) :=
        storeAt_eq _ _ _ (by rw [hA_lengths, hll]; exact hcb)
      have e3 : storeAt mA.buckets ((mA.nodes (ord i)).value.val &&& 0xFF)
          (byteOfNat (canonBucket i)) =
          some (mA.buckets.set (balValue reset m0 ord i).val (byteOfNat (canonBucket i))) := by
        rw [byte_and_ff, hA_val]
        exact storeAt_eq _ _ _ (by rw [hA_buckets, hbl]; exact hvi)
      simp [mA] at e1 e2 e3 hA_next ⊢
      simp [e1, e2, e3, hA_next]
  · -- the current list goes on
    have hcbi : canonBucket i = canonBucket (i - 1) := by
      unfold canonBucket; split <;> split <;> omega
    refine ⟨{ mA with
        buckets := mA.buckets.set (balValue reset m0 ord i).val (byteOfNat (canonBucket i)) },
      canonBucket i, (m0.nodes (ord i)).next, (if n + 1 > 16 then 0 else n + 1), ?_, ?_⟩
    · refine ⟨by simp [hA_size, hsz], by simpa using hA_next, by simpa using hA_prev, ?_,
        by simpa using hA_rest, ?_, by simp, ?_, by simp [hA_heads, hhl],
        by simp [hA_lengths, hll], by simp [hA_buckets, hbl], ?_, ?_, ?_, ?_, ?_⟩
      · intro k hk
        rcases Nat.lt_succ_iff_lt_or_eq.mp hk with h | h
        · simpa using hA_valk k h
        · subst h; simpa using hA_val
      · rw [hnext i hi]
      · rw [hn]; simp; split <;> omega
      · simp [hA_heads, hh0]
      · intro b hb1 hb
        simp only [hA_heads]
        apply hho b hb1
        have : 17 * (b - 1) + 1 ≠ i := by omega
        omega
      · simp [hA_lengths, hl0]
      · intro b hb1 hb
        simp only [hA_lengths]
        apply hlo b hb1
        have : 17 * (b - 1) + 1 ≠ i := by omega
        omega
      · intro k hk
        simp only [hA_buckets]
        rcases Nat.lt_succ_iff_lt_or_eq.mp hk with h | h
        · have hne : (balValue reset m0 ord i).val ≠ (balValue reset m0 ord k).val := by
            intro he
            have := balValue_inj reset m0 ord hv i k hi (by omega) (Fin.ext he)
            omega
          rw [List.getElem?_set_ne hne]; exact hbo k h
        · subst h; rw [List.getElem?_set_self (by omega)]
    · have hn' : n ≠ 0 := by rw [hn]; omega
      rw [balanceLists.loop]
      simp only [hn', if_false]
      have e3 : storeAt mA.buckets ((mA.nodes (ord i)).value.val &&& 0xFF)
          (byteOfNat (canonBucket (i - 1))) =
          some (mA.buckets.set (balValue reset m0 ord i).val (byteOfNat (canonBucket i))) := by
        rw [byte_and_ff, hA_val, ← hcbi]
        exact storeAt_eq _ _ _ (by rw [hA_buckets, hbl]; exact hvi)
      simp [mA] at e3 hA_next ⊢
      simp [e3, hA_next, hcbi]

/-- The loop of `balanceLists` runs to its end and reaches the invariant at round 256. -/
theorem balanceLists_loop (reset : Bool) (m0 : MTFT) (ord : Nat → Nat)
    (hinj : ∀ a b, a < 256 → b < 256 → ord a = ord b → a = b)
    (hv : reset = false → ∀ a b, a < 256 → b < 256 →
      (m0.nodes (ord a)).value = (m0.nodes (ord b)).value → a = b)
    (hnext : ∀ k, k < 256 →
      (m0.nodes (ord k)).next = if k + 1 < 256 then some (ord (k + 1)) else none) :
    ∀ (count i : Nat) (m : MTFT) (listIdx : Nat) (p : Option Nat) (n : Int),
      1 ≤ i → i + count = 256 → BalInv reset m0 ord i m listIdx p n →
      ∃ m1 listIdx1 p1 n1, BalInv reset m0 ord 256 m1 listIdx1 p1 n1 ∧
        balanceLists.loop reset count i m listIdx p n = .ok m1 := by
  intro count
  induction count with
  | zero =>
    intro i m listIdx p n _ hic inv
    have : i = 256 := by omega
    subst this
    exact ⟨m, listIdx, p, n, inv, by rw [balanceLists.loop]⟩
  | succ c ih =>
    intro i m listIdx p n hi1 hic inv
    obtain ⟨m1, l1, p1, n1, inv1, e⟩ :=
      balanceLists_round reset m0 ord hinj hv hnext c i m listIdx p n hi1 (by omega) inv
    obtain ⟨m2, l2, p2, n2, inv2, e2⟩ := ih (i + 1) m1 l1 p1 n1 (by omega) (by omega) inv1
    exact ⟨m2, l2, p2, n2, inv2, by rw [e, e2]⟩

theorem off_canonL (i : Nat) : off canonL i = if i = 0 then 0 else 17 * (i - 1) + 1 := by
  induction i with
  | zero => rfl
  | succ k ih =>
    rw [off, ih]
    unfold canonL
    split <;> split <;> omega

/-- The invariant at round 256 is the rank structure with the canonical partition. -/
theorem BalInv.toRep (reset : Bool) (m0 : MTFT) (ord : Nat → Nat)
    (hinj : ∀ a b, a < 256 → b < 256 → ord a = ord b → a = b)
    (hv : reset = false → ∀ a b, a < 256 → b < 256 →
      (m0.nodes (ord a)).value = (m0.nodes (ord b)).value → a = b)
    (hnext : ∀ k, k < 256 →
      (m0.nodes (ord k)).next = if k + 1 < 256 then some (ord (k + 1)) else none)
    (hprev : ∀ k, k + 1 < 256 → (m0.nodes (ord (k + 1))).previous = some (ord k))
    (m : MTFT) (listIdx : Nat) (p : Option Nat) (n : Int)
    (inv : BalInv reset m0 ord 256 m listIdx p n) : Rep m ord canonL := by
  obtain ⟨_, hnx, hpv, hvd, _, _, _, _, hhl, hll, hbl, hh0, hho, hl0, hlo, hbo⟩ := inv
  refine { inj := hinj, next_ok := ?_, prev_ok := ?_, head0 := hh0, heads_len := hhl,
           lengths_len := hll, buckets_len := hbl, val_inj := ?_, L_pos := ?_, L_zero := ?_,
           L_le := ?_, L_sum := ?_, lengths_ok := ?_, heads_ok := ?_, buckets_ok := ?_ }
  · intro k hk; rw [hnx, hnext k hk]
  · intro k hk; rw [hpv, hprev k hk]
  · intro a b ha hb h
    rw [hvd a ha, hvd b hb] at h
    exact balValue_inj reset m0 ord hv a b ha hb h
  · intro i _; unfold canonL; split <;> omega
  · simp [canonL]
  · intro i h1 _; unfold canonL; split <;> omega
  · rw [off_canonL]; rfl
  · intro i hi
    unfold canonL
    split
    · next h => subst h; simpa using hl0
    · next h => simpa using hlo i (by omega) (by omega)
  · intro i hi
    rw [off_canonL]
    split
    · next h => subst h; exact hh0
    · next h => exact hho i (by omega) (by omega)
  · intro k hk
    refine ⟨canonBucket k, canonBucket_lt k hk, ?_, ?_, ?_⟩
    · rw [hvd k hk]; exact hbo k hk
    · rw [off_canonL]; unfold canonBucket; split <;> split <;> omega
    · rw [off_canonL]; unfold canonBucket; split <;> split <;> omega

/-- What `balanceLists` needs and what it gives: on a chained list (for a call without
value reset: carrying distinct values, the front value filed under bucket 0) it returns,
leaves the node order alone, and rebuilds the canonical partition. -/
theorem balanceLists_ok (reset : Bool) (m : MTFT) (ord : Nat → Nat) (hc : Chain m ord)
    (hv : reset = false → ∀ a b, a < 256 → b < 256 →
      (m.nodes (ord a)).value = (m.nodes (ord b)).value → a = b)
    (hb0 : reset = false → m.buckets[((m.nodes (ord 0)).value).val]? = some 0) :
    ∃ m1, m.balanceLists reset = .ok m1 ∧ Rep m1 ord canonL ∧ m1.size = m.size ∧
      ∀ k, k < 256 → (m1.nodes (ord k)).value = balValue reset m ord k := by
  obtain ⟨hinj, hnext, hprev, hh0, hhl, hll, hbl⟩ := hc
  have e0 : storeAt m.lengths 0 (1 : Int) = some (m.lengths.set 0 1) :=
    storeAt_eq _ _ _ (by omega)
  have eb : storeAt m.buckets 0 (0 : Byte) = some (m.buckets.set 0 0) :=
    storeAt_eq _ _ _ (by omega)
  let mI : MTFT :=
    if reset = true then
      { m with lengths := m.lengths.set 0 1, nodes := setValue m.nodes (ord 0) 0,
               buckets := m.buckets.set 0 0 }
    else { m with lengths := m.lengths.set 0 1 }
  have hstart : m.balanceLists reset =
      balanceLists.loop reset 255 1 mI 0 (m.nodes (ord 0)).next 0 := by
    unfold MTFT.balanceLists
    cases reset <;> simp [e0, eb, hh0, mI]
  have inv1 : BalInv reset m ord 1 mI 0 (m.nodes (ord 0)).next 0 := by
    refine ⟨?_, ?_, ?_, ?_, ?_, ?_, by simp [canonBucket], by simp, ?_, ?_, ?_, ?_, ?_, ?_, ?_, ?_⟩
    · cases reset <;> simp [mI]
    · intro a; cases reset <;> simp [mI]
    · intro a; cases reset <;> simp [mI]
    · intro k hk
      have : k = 0 := by omega
      subst this
      cases reset <;> simp [mI, balValue, byteOfNat]
    · intro h a; subst h; simp [mI]
    · rw [hnext 0 (by omega)]
    · cases reset <;> simp [mI, hhl]
    · cases reset <;> simp [mI, hll]
    · cases reset <;> simp [mI, hbl]
    · cases reset <;> simp [mI, hh0]
    · intro b hb1 hb; omega
    · have : 0 < m.lengths.length := by omega
      cases reset <;> simp [mI, this]
    · intro b hb1 hb; omega
    · intro k hk
      have : k = 0 := by omega
      subst this
      cases reset with
      | true =>
        have : 0 < m.buckets.length := by omega
        simp [mI, balValue, byteOfNat, canonBucket, this]
      | false =>
        have := hb0 rfl
        simp [mI, balValue, byteOfNat, canonBucket, this]
  obtain ⟨m1, l1, p1, n1, inv, e⟩ :=
    balanceLists_loop reset m ord hinj hv hnext 255 1 mI 0 _ 0 (by omega) (by omega) inv1
  refine ⟨m1, by rw [hstart, e], ?_, ?_, ?_⟩
  · exact BalInv.toRep reset m ord hinj hv hnext hprev m1 l1 p1 n1 inv
  · exact inv.size_eq
  · intro k hk; exact inv.val_done k hk

theorem off_mono (L : Nat → Nat) (a b : Nat) (h : a ≤ b) : off L a ≤ off L b := by
  induction b with
  | zero => have : a = 0 := by omega
            subst this; exact Nat.le_refl _
  | succ k ih =>
    rcases Nat.lt_or_ge a (k + 1) with h1 | h1
    · have := ih (by omega); rw [off]; omega
    · have : a = k + 1 := by omega
      subst this; exact Nat.le_refl _

theorem off_bump (L : Nat → Nat) (i : Nat) (hi : 1 ≤ i) (hL : 1 ≤ L i) (k : Nat) :
    off (bump L i) k = if k = 0 then 0 else if k ≤ i then off L k + 1 else off L k := by
  induction k with
  | zero => rfl
  | succ k ih =>
    rw [off, ih, off]
    unfold bump
    by_cases h0 : k = 0
    · subst h0; simp [off]; split <;> omega
    · by_cases h1 : k = i
      · subst h1; simp [h0]; omega
      · simp [h0, h1]; split <;> split <;> omega

theorem sumLengths_eq (lengths : List Int) (L : Nat → Nat)
    (h : ∀ i, i < 16 → lengths[i]? = some (L i : Int)) :
    ∀ (count s : Nat) (idx : Int), s + count ≤ 16 →
      sumLengths lengths count s idx =
        some (idx + ((off L (s + count) : Nat) : Int) - ((off L s : Nat) : Int)) := by
  intro count
  induction count with
  | zero => intro s idx _; simp [sumLengths]
  | succ c ih =>
    intro s idx hs
    rw [sumLengths, h s (by omega)]
    simp only
    rw [ih (s + 1) _ (by omega)]
    have : s + (c + 1) = s + 1 + c := by omega
    rw [this, off]
    congr 1
    push_cast
    omega

theorem findNode_eq (nodes : Nat → Payload) (ord : Nat → Nat) (c : Byte) (j : Nat)
    (hj : j < 256)
    (hnext : ∀ k, k < 256 →
      (nodes (ord k)).next = if k + 1 < 256 then some (ord (k + 1)) else none)
    (hc : (nodes (ord j)).value = c) :
    ∀ (d s fuel : Nat) (idx : Int), s + d = j → d ≤ fuel →
      (∀ k, s ≤ k → k < j → (nodes (ord k)).value ≠ c) →
      findNode nodes c fuel (some (ord s)) idx = .ok (ord j, idx + d) := by
  intro d
  induction d with
  | zero =>
    intro s fuel idx hs _ _
    have : s = j := by omega
    subst this
    rw [findNode.eq_def]; simp [hc]
  | succ d ih =>
    intro s fuel idx hs hf hne
    rw [findNode.eq_def]
    have h1 : (nodes (ord s)).value ≠ c := hne s (Nat.le_refl _) (by omega)
    simp only [h1, ne_eq, not_false_eq_true, if_true]
    obtain ⟨f, rfl⟩ : ∃ f, fuel = f + 1 := ⟨fuel - 1, by omega⟩
    simp only
    rw [hnext s (by omega)]
    have : s + 1 < 256 := by omega
    simp only [this, if_true]
    rw [ih (s + 1) f (idx + 1) (by omega) (by omega)
      (fun k hk hkj => hne k (by omega) hkj)]
    congr 2
    push_cast
    omega

theorem exists_pos (m : MTFT) (ord : Nat → Nat)
    (hv : ∀ a b, a < 256 → b < 256 →
      (m.nodes (ord a)).value = (m.nodes (ord b)).value → a = b) (c : Byte) :
    ∃ j, j < 256 ∧ (m.nodes (ord j)).value = c := by
  let f : Fin 256 → Fin 256 := fun k => (m.nodes (ord k.val)).value
  have hf : Function.Injective f := by
    intro a b h
    exact Fin.ext (hv a.val b.val a.isLt b.isLt h)
  obtain ⟨k, hk⟩ := Finite.surjective_of_injective hf c
  exact ⟨k.val, k.isLt, hk⟩

/-- The search of `moveToFront` finds the node that carries `current`, at its global
position, within 63 steps of the head of its bucket. -/
theorem find_ok (m : MTFT) (ord L : Nat → Nat) (hR : Rep m ord L) (fuel : Nat)
    (hfuel : 63 ≤ fuel) (c : Byte) (hc0 : c ≠ (m.nodes (ord 0)).value) :
    ∃ i j, i < 16 ∧ 1 ≤ j ∧ j < 256 ∧ (m.nodes (ord j)).value = c ∧
      off L i ≤ j ∧ j < off L (i + 1) ∧
      moveToFront.find fuel m c = .ok (i, ord j, (j : Int)) := by
  obtain ⟨j, hj, hjc⟩ := exists_pos m ord hR.val_inj c
  have hj1 : 1 ≤ j := by
    rcases Nat.eq_zero_or_pos j with h | h
    · subst h; exact absurd hjc.symm hc0
    · exact h
  obtain ⟨i, hi, hb, hlo, hhi⟩ := hR.buckets_ok j hj
  refine ⟨i, j, hi, hj1, hj, hjc, hlo, hhi, ?_⟩
  unfold moveToFront.find
  rw [byte_and_ff, ← hjc, hb]
  simp only
  rw [byteOfNat_val i (by omega), hR.heads_ok i hi]
  simp only
  rw [sumLengths_eq m.lengths L hR.lengths_ok i 0 0 (by omega)]
  simp only [off, Nat.zero_add, Int.zero_add, Nat.cast_zero, Int.sub_zero]
  have hLi : L i ≤ 64 := by
    rcases Nat.eq_zero_or_pos i with h | h
    · subst h; exact hR.L_zero
    · have := hR.L_le i h hi; omega
  have hoff : off L (i + 1) = off L i + L i := rfl
  rw [findNode_eq m.nodes ord (m.nodes (ord j)).value j hj hR.next_ok rfl (j - off L i)
    (off L i) fuel _ (by omega) (by omega)]
  · simp only
    congr 3
    omega
  · intro k hk1 hk2 h
    have := hR.val_inj k j (by omega) hj h
    omega

/-- The unlinking of the node at position `j` and its insertion before the head of the
first list, field by field. -/
theorem relink_ok (m : MTFT) (ord L : Nat → Nat) (hR : Rep m ord L) (i j : Nat)
    (hi : i < 16) (hj1 : 1 ≤ j) (hj : j < 256) (hlo : off L i ≤ j) :
    ∃ m4, moveToFront.addToHead (moveToFront.unlink m i (ord j)) (ord j) = .ok m4 ∧
      m4.size = m.size ∧ m4.lengths = m.lengths ∧ m4.buckets = m.buckets ∧
      m4.heads = (if off L i = j then m.heads.set i (m.nodes (ord j)).next
        else m.heads).set 0 (some (ord j)) ∧
      (∀ a, (m4.nodes a).next = if a = ord j then some (ord 0)
        else if a = ord (j - 1) then (m.nodes (ord j)).next else (m.nodes a).next) ∧
      (∀ a, (m4.nodes a).previous = if a = ord 0 then some (ord j)
        else if j + 1 < 256 ∧ a = ord (j + 1) then some (ord (j - 1))
        else (m.nodes a).previous) ∧
      (∀ a, (m4.nodes a).value = (m.nodes a).value) := by
  have hp : (m.nodes (ord j)).previous = some (ord (j - 1)) := by
    have := hR.prev_ok (j - 1) (by omega)
    rwa [show j - 1 + 1 = j by omega] at this
  have hn := hR.next_ok j hj
  have hne1 : ord j ≠ ord (j - 1) := fun h => by
    have := hR.inj j (j - 1) hj (by omega) h; omega
  have hhead : m.heads[i]? = some (some (ord (off L i))) := hR.heads_ok i hi
  have hcond : (m.heads[i]? = some (some (ord j))) ↔ off L i = j := by
    rw [hhead]
    constructor
    · intro h
      have h' : ord (off L i) = ord j := by simpa using h
      exact hR.inj _ _ (by omega) hj h'
    · intro h; rw [h]
  have h0 : ((if off L i = j then m.heads.set i (m.nodes (ord j)).next
      else m.heads))[0]? = some (some (ord 0)) := by
    split
    · next h =>
      have : i ≠ 0 := by
        intro h0; subst h0; simp [off] at h; omega
      rw [List.getElem?_set_ne this]; exact hR.head0
    · exact hR.head0
  by_cases hlast : j + 1 < 256
  · have hne2 : ord j ≠ ord (j + 1) := fun h => by
      have := hR.inj j (j + 1) hj hlast h; omega
    simp only [hlast, if_true] at hn
    unfold moveToFront.unlink moveToFront.addToHead
    simp only [hp, hn, setNext_next, setNext_previous, setPrevious_next, hne1, hne2, if_false,
      hcond]
    by_cases hh : off L i = j
    · simp only [hh, if_true, hn] at h0 ⊢
      simp only [h0]
      refine ⟨_, rfl, rfl, rfl, rfl, rfl, ?_, ?_, ?_⟩
      · intro a; simp only [setNext_next, setPrevious_next]
      · intro a; simp only [setNext_previous, setPrevious_previous, hlast, true_and]
      · intro a; simp only [setNext_value, setPrevious_value]
    · simp only [hh, if_false] at h0 ⊢
      simp only [h0]
      refine ⟨_, rfl, rfl, rfl, rfl, rfl, ?_, ?_, ?_⟩
      · intro a; simp only [setNext_next, setPrevious_next]
      · intro a; simp only [setNext_previous, setPrevious_previous, hlast, true_and]
      · intro a; simp only [setNext_value, setPrevious_value]
  · simp only [hlast, if_false] at hn
    unfold moveToFront.unlink moveToFront.addToHead
    simp only [hp, hn, setNext_next, setNext_previous, setPrevious_next, hne1, if_false,
      hcond]
    by_cases hh : off L i = j
    · simp only [hh, if_true, hn] at h0 ⊢
      simp only [h0]
      refine ⟨_, rfl, rfl, rfl, rfl, rfl, ?_, ?_, ?_⟩
      · intro a; simp only [setNext_next, setPrevious_next]
      · intro a; simp only [setNext_previous, setPrevious_previous, hlast, false_and, if_false]
      · intro a; simp only [setNext_value, setPrevious_value]
    · simp only [hh, if_false] at h0 ⊢
      simp only [h0]
      refine ⟨_, rfl, rfl, rfl, rfl, rfl, ?_, ?_, ?_⟩
      · intro a; simp only [setNext_next, setPrevious_next]
      · intro a; simp only [setNext_previous, setPrevious_previous, hlast, false_and, if_false]
      · intro a; simp only [setNext_value, setPrevious_value]

theorem moved_zero (ord : Nat → Nat) (j : Nat) : moved ord j 0 = ord j := by simp [moved]

theorem moved_le (ord : Nat → Nat) (j k : Nat) (h1 : 1 ≤ k) (h2 : k ≤ j) :
    moved ord j k = ord (k - 1) := by
  unfold moved
  rw [if_neg (by omega), if_pos h2]

theorem moved_gt (ord : Nat → Nat) (j k : Nat) (h : j < k) : moved ord j k = ord k := by
  unfold moved
  rw [if_neg (by omega), if_neg (by omega)]

theorem moved_inj (ord : Nat → Nat) (j : Nat) (hj : j < 256)
    (hinj : ∀ a b, a < 256 → b < 256 → ord a = ord b → a = b) :
    ∀ a b, a < 256 → b < 256 → moved ord j a = moved ord j b → a = b := by
  intro a b ha hb h
  unfold moved at h
  split_ifs at h <;> first
    | omega
    | (have hx := hinj _ _ (by omega) (by omega) h
       omega)

theorem moved_val_inj (f : Nat → Byte) (ord : Nat → Nat) (j : Nat) (hj : j < 256)
    (hv : ∀ a b, a < 256 → b < 256 → f (ord a) = f (ord b) → a = b) :
    ∀ a b, a < 256 → b < 256 → f (moved ord j a) = f (moved ord j b) → a = b := by
  intro a b ha hb h
  unfold moved at h
  split_ifs at h <;> first
    | omega
    | (have hx := hv _ _ (by omega) (by omega) h
       omega)

/-- After unlinking and relinking, the nodes are chained in the moved order. -/
theorem relink_chain (m m4 : MTFT) (ord L : Nat → Nat) (hR : Rep m ord L) (i j : Nat)
    (hj1 : 1 ≤ j) (hj : j < 256)
    (hheads : m4.heads = (if off L i = j then m.heads.set i (m.nodes (ord j)).next
        else m.heads).set 0 (some (ord j)))
    (hnx : ∀ a, (m4.nodes a).next = if a = ord j then some (ord 0)
        else if a = ord (j - 1) then (m.nodes (ord j)).next else (m.nodes a).next)
    (hpv : ∀ a, (m4.nodes a).previous = if a = ord 0 then some (ord j)
        else if j + 1 < 256 ∧ a = ord (j + 1) then some (ord (j - 1))
        else (m.nodes a).previous)
    (hlen : m4.lengths.length = 16) (hbl : m4.buckets.length = 256) :
    Chain m4 (moved ord j) := by
  have E : ∀ x y, x < 256 → y < 256 → (ord x = ord y ↔ x = y) :=
    fun x y hx hy => ⟨hR.inj x y hx hy, fun h => h ▸ rfl⟩
  refine ⟨moved_inj ord j hj hR.inj, ?_, ?_, ?_, ?_, hlen, hbl⟩
  · intro k hk
    rw [hnx]
    rcases Nat.eq_zero_or_pos k with h0 | h0
    · subst h0
      rw [moved_zero, if_pos rfl, if_pos (by omega), moved_le ord j 1 (by omega) hj1]
    · rcases Nat.lt_or_ge j k with h1 | h1
      · rw [moved_gt ord j k h1, if_neg (by rw [E k j hk hj]; omega),
          if_neg (by rw [E k (j - 1) hk (by omega)]; omega), hR.next_ok k hk]
        split
        · rw [moved_gt ord j (k + 1) (by omega)]
        · rfl
      · rw [moved_le ord j k h0 h1, if_neg (by rw [E (k - 1) j (by omega) hj]; omega)]
        rcases Nat.lt_or_ge k j with h2 | h2
        · rw [if_neg (by rw [E (k - 1) (j - 1) (by omega) (by omega)]; omega),
            hR.next_ok (k - 1) (by omega), if_pos (by omega), if_pos (by omega),
            moved_le ord j (k + 1) (by omega) (by omega)]
          congr 2
          omega
        · have : k = j := by omega
          subst this
          rw [if_pos rfl, hR.next_ok k hk]
          split
          · rw [moved_gt ord k (k + 1) (by omega)]
          · rfl
  · intro k hk
    rw [hpv]
    rcases Nat.lt_or_ge k j with h1 | h1
    · rw [moved_le ord j (k + 1) (by omega) (by omega)]
      rcases Nat.eq_zero_or_pos k with h0 | h0
      · subst h0; rw [if_pos rfl, moved_zero]
      · rw [if_neg (by rw [E (k + 1 - 1) 0 (by omega) (by omega)]; omega),
          if_neg (by
            intro h
            have := (E (k + 1 - 1) (j + 1) (by omega) h.1).mp h.2
            omega),
          moved_le ord j k h0 (by omega)]
        have := hR.prev_ok (k - 1) (by omega)
        rw [show k - 1 + 1 = k from by omega] at this
        rw [show k + 1 - 1 = k from by omega, this]
    · rw [moved_gt ord j (k + 1) (by omega),
        if_neg (by rw [E (k + 1) 0 hk (by omega)]; omega)]
      rcases Nat.lt_or_ge j k with h2 | h2
      · rw [if_neg (by
            intro h
            have := (E (k + 1) (j + 1) hk h.1).mp h.2
            omega), moved_gt ord j k h2, hR.prev_ok k hk]
      · have : k = j := by omega
        subst this
        rw [if_pos ⟨hk, rfl⟩, moved_le ord k k hj1 (Nat.le_refl _)]
  · rw [hheads, moved_zero]
    apply List.getElem?_set_self
    split
    · rw [List.length_set, hR.heads_len]; omega
    · rw [hR.heads_len]; omega
  · rw [hheads]
    split <;> simp [hR.heads_len]

theorem table_get (m : MTFT) (ord : Nat → Nat) (k : Nat) :
    (table m ord)[k]? = if k < 256 then some (m.nodes (ord k)).value else none := by
  unfold table
  rw [List.getElem?_map]
  split
  · next h => rw [List.getElem?_range h]; rfl
  · next h => rw [List.getElem?_eq_none (by simpa using h)]; rfl

theorem indexOf_eq {α : Type} [DecidableEq α] (c : α) :
    ∀ (t : List α) (j : Nat), t[j]? = some c → (∀ k, k < j → t[k]? ≠ some c) →
      t.indexOf c = j := by
  intro t
  induction t with
  | nil => intro j h; simp at h
  | cons x xs ih =>
    intro j hj hne
    rw [List.indexOf_cons]
    cases j with
    | zero =>
      have : x = c := by simpa using hj
      simp [this]
    | succ j =>
      have hx : x ≠ c := by
        have := hne 0 (by omega)
        simpa using this
      have := ih j (by simpa using hj) (fun k hk => by
        have := hne (k + 1) (by omega)
        simpa using this)
      have hb : (x == c) = false := by simpa using hx
      rw [hb, this]; rfl

theorem table_indexOf (m : MTFT) (ord : Nat → Nat)
    (hv : ∀ a b, a < 256 → b < 256 →
      (m.nodes (ord a)).value = (m.nodes (ord b)).value → a = b)
    (j : Nat) (hj : j < 256) : (table m ord).indexOf (m.nodes (ord j)).value = j := by
  apply indexOf_eq
  · rw [table_get, if_pos hj]
  · intro k hk
    rw [table_get, if_pos (by omega)]
    intro h
    have := hv k j (by omega) hj (by simpa using h)
    omega

theorem table_moved (m m1 : MTFT) (ord ord1 : Nat → Nat) (j : Nat) (hj : j < 256)
    (h : ∀ k, k < 256 → (m1.nodes (ord1 k)).value = (m.nodes (moved ord j k)).value) :
    table m1 ord1 = (m.nodes (ord j)).value :: (table m ord).eraseIdx j := by
  apply List.ext_getElem?
  intro k
  rw [table_get]
  cases k with
  | zero => simp [h 0 (by omega), moved_zero]
  | succ k =>
    simp only [List.getElem?_cons_succ, List.getElem?_eraseIdx, table_get]
    by_cases hk : k + 1 < 256
    · rw [if_pos hk, h (k + 1) hk]
      split
      · next h1 => rw [moved_le ord j (k + 1) (by omega) (by omega), if_pos (by omega)]; rfl
      · next h1 => rw [moved_gt ord j (k + 1) (by omega)]
    · rw [if_neg hk]
      split
      · omega
      · rfl

theorem bucket_le (L : Nat → Nat) (a b x : Nat) (h1 : off L a ≤ x) (h2 : x < off L (b + 1)) :
    a ≤ b := by
  by_contra h
  have := off_mono L (b + 1) a (by omega)
  omega

/-- The bookkeeping of `moveToFront` after a node has moved to the front, possibly followed
by a rebalance, gives the rank structure of the moved order. -/
theorem updateLists_ok (m m4 : MTFT) (ord L : Nat → Nat) (hR : Rep m ord L) (i j : Nat)
    (hi : i < 16) (hj1 : 1 ≤ j) (hj : j < 256) (hlo : off L i ≤ j) (hhi : j < off L (i + 1))
    (hc4 : Chain m4 (moved ord j))
    (hval : ∀ a, (m4.nodes a).value = (m.nodes a).value)
    (hheads : m4.heads = (if off L i = j then m.heads.set i (m.nodes (ord j)).next
        else m.heads).set 0 (some (ord j)))
    (hlen : m4.lengths = m.lengths) (hbuck : m4.buckets = m.buckets)
    (hsize : m4.size = m.size) :
    ∃ m1 L1, moveToFront.updateLists m4 i (m.nodes (ord j)).value = .ok m1 ∧
      Rep m1 (moved ord j) L1 ∧ m1.size = m.size ∧
      ∀ k, k < 256 → (m1.nodes (moved ord j k)).value = (m.nodes (moved ord j k)).value := by
  have hvi : ∀ a b, a < 256 → b < 256 →
      (m4.nodes (moved ord j a)).value = (m4.nodes (moved ord j b)).value → a = b := by
    intro a b ha hb h
    rw [hval, hval] at h
    exact moved_val_inj (fun a => (m.nodes a).value) ord j hj hR.val_inj a b ha hb h
  have hoffi : off L (i + 1) = off L i + L i := rfl
  rcases Nat.eq_zero_or_pos i with hi0 | hi0
  · -- the node was in the first list already
    subst hi0
    have hoff0 : off L 0 = 0 := rfl
    have hoff1 : off L 1 = L 0 := by simp [off]
    have hh : m4.heads = m.heads.set 0 (some (ord j)) := by
      rw [hheads, if_neg (by omega)]
    refine ⟨m4, L, by simp [moveToFront.updateLists], ?_, hsize, fun k _ => hval _⟩
    refine { toChain := hc4, val_inj := hvi, L_pos := hR.L_pos, L_zero := hR.L_zero,
             L_le := hR.L_le, L_sum := hR.L_sum, lengths_ok := ?_, heads_ok := ?_,
             buckets_ok := ?_ }
    · intro t ht; rw [hlen]; exact hR.lengths_ok t ht
    · intro t ht
      rcases Nat.eq_zero_or_pos t with h0 | h0
      · subst h0; rw [hoff0]; exact hc4.head0
      · have := off_mono L 1 t h0
        rw [hh, List.getElem?_set_ne (by omega), hR.heads_ok t ht,
          moved_gt ord j _ (by omega)]
    · intro k hk
      rw [hval, hbuck]
      rcases Nat.eq_zero_or_pos k with h0 | h0
      · subst h0
        rw [moved_zero]
        obtain ⟨ix, hix, hb, lo, hi2⟩ := hR.buckets_ok j hj
        have : ix ≤ 0 := bucket_le L ix 0 j lo hhi
        have : ix = 0 := by omega
        subst this
        exact ⟨0, by omega, hb, by omega, by omega⟩
      · rcases Nat.lt_or_ge j k with h1 | h1
        · rw [moved_gt ord j k h1]
          exact hR.buckets_ok k hk
        · rw [moved_le ord j k h0 h1]
          obtain ⟨ix, hix, hb, lo, hi2⟩ := hR.buckets_ok (k - 1) (by omega)
          have := off_mono L 1 (ix + 1) (by omega)
          exact ⟨ix, hix, hb, by omega, by omega⟩
  · -- the node has left list `i`
    have hLi : 1 ≤ L i := hR.L_pos i hi
    have e1 : m4.lengths[i]? = some (L i : Int) := by rw [hlen]; exact hR.lengths_ok i hi
    have e2 : (m4.lengths.set i ((L i : Int) - 1))[0]? = some (L 0 : Int) := by
      rw [List.getElem?_set_ne (by omega), hlen]; exact hR.lengths_ok 0 (by omega)
    have hcv : (m.nodes (ord j)).value.val < m4.buckets.length := by
      rw [hc4.buckets_len]; exact (m.nodes (ord j)).value.isLt
    have e3 : storeAt m4.buckets ((m.nodes (ord j)).value.val &&& 0xFF) (0 : Byte) =
        some (m4.buckets.set (m.nodes (ord j)).value.val 0) := by
      rw [byte_and_ff]; exact storeAt_eq _ _ _ hcv
    let m5 : MTFT :=
      { m4 with lengths := (m4.lengths.set i ((L i : Int) - 1)).set 0 ((L 0 : Int) + 1)
                buckets := m4.buckets.set (m.nodes (ord j)).value.val 0 }
    have hc5 : Chain m5 (moved ord j) :=
      ⟨hc4.inj, hc4.next_ok, hc4.prev_ok, hc4.head0, hc4.heads_len,
        by simp [m5, hc4.lengths_len], by simp [m5, hc4.buckets_len]⟩
    have hb5 : m5.buckets[((m5.nodes (moved ord j 0)).value).val]? = some 0 := by
      show (m4.buckets.set _ 0)[((m4.nodes (moved ord j 0)).value).val]? = some 0
      rw [hval, moved_zero]
      exact List.getElem?_set_self hcv
    by_cases hcond : (L 0 : Int) + 1 > RESET_THRESHOLD ∨ (L i : Int) - 1 = 0
    · -- rebalance
      obtain ⟨m6, e6, hR6, hs6, hv6⟩ :=
        balanceLists_ok false m5 (moved ord j) hc5 (fun _ => hvi) (fun _ => hb5)
      refine ⟨m6, canonL, ?_, hR6, by rw [hs6]; exact hsize, ?_⟩
      · unfold moveToFront.updateLists
        rw [if_pos (by omega)]
        simp only [e1, e2, e3, hcond, if_true]
        exact e6
      · intro k hk
        rw [hv6 k hk]
        simp only [balValue, Bool.false_eq_true, if_false]
        exact hval _
    · -- no rebalance
      have hRT : RESET_THRESHOLD = 64 := rfl
      have hc1 : L 0 + 1 ≤ 64 := by
        have h := hcond
        rw [hRT] at h
        omega
      have hc2 : 2 ≤ L i := by omega
      refine ⟨m5, bump L i, ?_, ?_, hsize, fun k _ => hval _⟩
      · unfold moveToFront.updateLists
        rw [if_pos (by omega)]
        simp only [e1, e2, e3, hcond, if_false]
      refine { toChain := hc5, val_inj := hvi, L_pos := ?_, L_zero := ?_,
               L_le := ?_, L_sum := ?_, lengths_ok := ?_, heads_ok := ?_,
               buckets_ok := ?_ }
      · intro t ht
        have := hR.L_pos t ht
        unfold bump; split_ifs <;> omega
      · unfold bump; simp; omega
      · intro t ht1 ht
        have := hR.L_le t ht1 ht
        have := hR.L_le i hi0 hi
        unfold bump; split_ifs <;> omega
      · rw [off_bump L i hi0 hLi, if_neg (by omega), if_neg (by omega)]; exact hR.L_sum
      · intro t ht
        show ((m4.lengths.set i ((L i : Int) - 1)).set 0 ((L 0 : Int) + 1))[t]? = _
        unfold bump
        rcases Nat.eq_zero_or_pos t with h0 | h0
        · subst h0
          rw [List.getElem?_set_self (by simp [hc4.lengths_len]), if_pos rfl]
          push_cast; rfl
        · rw [List.getElem?_set_ne (by omega), if_neg (by omega)]
          by_cases hti : t = i
          · subst hti
            rw [List.getElem?_set_self (by rw [hc4.lengths_len]; exact hi), if_pos rfl]
            congr 1; omega
          · rw [List.getElem?_set_ne (fun h => hti h.symm), if_neg hti, hlen]
            exact hR.lengths_ok t ht
      · intro t ht
        show m4.heads[t]? = _
        rw [off_bump L i hi0 hLi]
        rcases Nat.eq_zero_or_pos t with h0 | h0
        · subst h0; rw [if_pos rfl]; exact hc4.head0
        · rw [if_neg (by omega), hheads, List.getElem?_set_ne (by omega)]
          by_cases hti : t ≤ i
          · rw [if_pos hti]
            by_cases hoj : off L i = j
            · rw [if_pos hoj]
              by_cases he : t = i
              · subst he
                have hjn : j + 1 < 256 := by
                  have := off_mono L (t + 1) 16 (by omega)
                  have := hR.L_sum
                  omega
                rw [List.getElem?_set_self (by rw [hR.heads_len]; exact hi),
                  hR.next_ok j hj, if_pos hjn, hoj, moved_gt ord j (j + 1) (by omega)]
              · have h1 := off_mono L (t + 1) i (by omega)
                have h2 : off L (t + 1) = off L t + L t := rfl
                have h3 := hR.L_pos t ht
                rw [List.getElem?_set_ne (fun h => he h.symm), hR.heads_ok t ht,
                  moved_le ord j _ (by omega) (by omega)]
                rfl
            · rw [if_neg hoj, hR.heads_ok t ht]
              have h1 := off_mono L t i hti
              rw [moved_le ord j _ (by omega) (by
                by_cases he : t = i
                · subst he; omega
                · have h1 := off_mono L (t + 1) i (by omega)
                  have h2 : off L (t + 1) = off L t + L t := rfl
                  have h3 := hR.L_pos t ht
                  omega)]
              rfl
          · rw [if_neg hti]
            have h1 := off_mono L (i + 1) t (by omega)
            have : (if off L i = j then m.heads.set i (m.nodes (ord j)).next
                else m.heads)[t]? = m.heads[t]? := by
              split
              · rw [List.getElem?_set_ne (by omega)]
              · rfl
            rw [this, hR.heads_ok t ht, moved_gt ord j _ (by omega)]
      · intro k hk
        show ∃ ix, ix < 16 ∧
          (m4.buckets.set (m.nodes (ord j)).value.val 0)[((m4.nodes (moved ord j k)).value).val]?
            = some (byteOfNat ix) ∧ off (bump L i) ix ≤ k ∧ k < off (bump L i) (ix + 1)
        rw [hval, hbuck]
        rcases Nat.eq_zero_or_pos k with h0 | h0
        · subst h0
          rw [moved_zero]
          refine ⟨0, by omega, ?_, by simp [off], ?_⟩
          · rw [List.getElem?_set_self (by rw [← hbuck]; exact hcv)]; rfl
          · have := hR.L_pos 0 (by omega)
            simp [off, bump]
        · have key : ∀ x, x < 256 → x ≠ j →
              (m.buckets.set (m.nodes (ord j)).value.val 0)[((m.nodes (ord x)).value).val]? =
                m.buckets[((m.nodes (ord x)).value).val]? := by
            intro x hx hxj
            apply List.getElem?_set_ne
            intro h
            exact hxj (hR.val_inj x j hx hj (Fin.ext h.symm))
          rcases Nat.lt_or_ge j k with h1 | h1
          · rw [moved_gt ord j k h1, key k hk (by omega)]
            obtain ⟨ix, hix, hb, lo, hi2⟩ := hR.buckets_ok k hk
            have hle : i ≤ ix := bucket_le L i ix k (by omega) hi2
            refine ⟨ix, hix, hb, ?_, ?_⟩
            · rw [off_bump L i hi0 hLi, if_neg (by omega)]
              by_cases hxi : ix ≤ i
              · rw [if_pos hxi]
                have : ix = i := by omega
                subst this; omega
              · rw [if_neg hxi]; exact lo
            · rw [off_bump L i hi0 hLi, if_neg (by omega), if_neg (by omega)]; exact hi2
          · rw [moved_le ord j k h0 h1, key (k - 1) (by omega) (by omega)]
            obtain ⟨ix, hix, hb, lo, hi2⟩ := hR.buckets_ok (k - 1) (by omega)
            have hle : ix ≤ i := bucket_le L ix i (k - 1) lo (by omega)
            refine ⟨ix, hix, hb, ?_, ?_⟩
            · rw [off_bump L i hi0 hLi]
              by_cases hx0 : ix = 0
              · rw [if_pos hx0]; omega
              · rw [if_neg hx0, if_pos hle]; omega
            · rw [off_bump L i hi0 hLi, if_neg (by omega)]
              by_cases hxi : ix + 1 ≤ i
              · rw [if_pos hxi]; omega
              · rw [if_neg hxi]
                have : ix = i := by omega
                subst this; omega

theorem byteOfInt_natCast (j : Nat) : byteOfInt (j : Int) = byteOfNat j := by
  apply Fin.ext
  simp only [byteOfInt, byteOfNat]
  omega

theorem moved_self (ord : Nat → Nat) (k : Nat) : moved ord 0 k = ord k := by
  unfold moved
  split
  · next h => rw [h]
  · rw [if_neg (by omega)]

/-- One round of the loop of `moveToFront` writes the rank of the symbol and moves the
symbol to the front. -/
theorem step_ok (m : MTFT) (ord L : Nat → Nat) (hR : Rep m ord L) (fuel : Nat)
    (hfuel : 63 ≤ fuel) (values : List Byte) (ii : Nat) (c previous : Byte)
    (hii : values[ii]? = some c) (hprev : previous = (m.nodes (ord 0)).value) :
    ∃ m1 ord1 L1, moveToFront.step fuel m values previous ii =
        .ok (m1, values.set ii (byteOfNat ((table m ord).indexOf c)), c) ∧
      (table m ord).indexOf c < 256 ∧ Rep m1 ord1 L1 ∧
      table m1 ord1 = c :: (table m ord).erase c ∧ m1.size = m.size := by
  by_cases hc : c = previous
  · subst hprev
    subst hc
    have hidx := table_indexOf m ord hR.val_inj 0 (by omega)
    refine ⟨m, ord, L, ?_, by omega, hR, ?_, rfl⟩
    · unfold moveToFront.step
      simp only [hii, if_true, hidx]
      rfl
    · rw [← List.eraseIdx_indexOf_eq_erase, hidx]
      exact table_moved m m ord ord 0 (by omega) (fun k _ => by rw [moved_self])
  · subst hprev
    obtain ⟨i, j, hi, hj1, hj, hjc, hlo, hhi, hfind⟩ := find_ok m ord L hR fuel hfuel c hc
    subst hjc
    obtain ⟨m4, e4, hs4, hl4, hb4, hh4, hn4, hp4, hv4⟩ := relink_ok m ord L hR i j hi hj1 hj hlo
    have hc4 : Chain m4 (moved ord j) :=
      relink_chain m m4 ord L hR i j hj1 hj hh4 hn4 hp4 (by rw [hl4, hR.lengths_len])
        (by rw [hb4, hR.buckets_len])
    obtain ⟨m1, L1, e1, hR1, hs1, hv1⟩ :=
      updateLists_ok m m4 ord L hR i j hi hj1 hj hlo hhi hc4 hv4 hh4 hl4 hb4 hs4
    have hidx := table_indexOf m ord hR.val_inj j hj
    refine ⟨m1, moved ord j, L1, ?_, by omega, hR1, ?_, hs1⟩
    · unfold moveToFront.step
      simp only [hii, hc, if_false, hfind, e4, e1, hidx, byteOfInt_natCast]
    · rw [← List.eraseIdx_indexOf_eq_erase, hidx]
      exact table_moved m m1 ord (moved ord j) j hj hv1

theorem get_mid {α : Type} (pre : List α) (c : α) (rest : List α) :
    (pre ++ c :: rest)[pre.length]? = some c := by
  rw [List.getElem?_append_right (Nat.le_refl _)]
  simp

theorem set_mid {α : Type} (pre : List α) (c x : α) (rest : List α) :
    (pre ++ c :: rest).set pre.length x = pre ++ x :: rest := by
  simp

/-- The loop of `moveToFront` over the middle part of a buffer replaces it with the
reference ranks and leaves the parts before and after it alone. -/
theorem loop_ok (fuel : Nat) (hfuel : 63 ≤ fuel) :
    ∀ (mid pre post : List Byte) (m : MTFT) (ord L : Nat → Nat) (previous : Byte),
      Rep m ord L → previous = (m.nodes (ord 0)).value →
      ∃ m1 ord1 L1, moveToFront.loop fuel mid.length pre.length m (pre ++ mid ++ post) previous =
          .ok (m1, pre ++ (mtfRanks (table m ord) mid).map byteOfNat ++ post) ∧
        Rep m1 ord1 L1 ∧ m1.size = m.size ∧ ∀ r ∈ mtfRanks (table m ord) mid, r < 256 := by
  intro mid
  induction mid with
  | nil =>
    intro pre post m ord L previous hR _
    exact ⟨m, ord, L, by simp [moveToFront.loop, mtfRanks], hR, rfl, by simp [mtfRanks]⟩
  | cons c mid ih =>
    intro pre post m ord L previous hR hprev
    have hget : (pre ++ c :: mid ++ post)[pre.length]? = some c := by
      rw [List.append_assoc]; exact get_mid pre c (mid ++ post)
    obtain ⟨m1, ord1, L1, e1, hlt, hR1, ht1, hs1⟩ :=
      step_ok m ord L hR fuel hfuel (pre ++ c :: mid ++ post) pre.length c previous hget hprev
    have hset : (pre ++ c :: mid ++ post).set pre.length
        (byteOfNat ((table m ord).indexOf c)) =
        (pre ++ [byteOfNat ((table m ord).indexOf c)]) ++ mid ++ post := by
      rw [List.append_assoc, List.cons_append, set_mid]; simp
    have hprev1 : c = (m1.nodes (ord1 0)).value := by
      have := table_get m1 ord1 0
      rw [ht1] at this
      simpa using this
    obtain ⟨m2, ord2, L2, e2, hR2, hs2, hr2⟩ :=
      ih (pre ++ [byteOfNat ((table m ord).indexOf c)]) post m1 ord1 L1 c hR1 hprev1
    refine ⟨m2, ord2, L2, ?_, hR2, by rw [hs2, hs1], ?_⟩
    · rw [List.length_cons, moveToFront.loop, e1]
      simp only
      rw [hset]
      have : (pre ++ [byteOfNat ((table m ord).indexOf c)]).length = pre.length + 1 := by simp
      rw [← this, e2, ht1]
      simp [mtfRanks]
    · intro r hr
      simp only [mtfRanks, List.mem_cons] at hr
      rcases hr with h | h
      · omega
      · rw [← ht1] at h; exact hr2 r h

theorem table_identity (m : MTFT) (ord : Nat → Nat)
    (h : ∀ k, k < 256 → (m.nodes (ord k)).value = byteOfNat k) :
    table m ord = identityList := by
  unfold table identityList
  apply List.map_congr_left
  intro k hk
  exact h k (by simpa using hk)

/-- On a chained list, `Forward` returns; it replaces the first `end` elements of the
buffer with their reference ranks, leaves the rest alone, and leaves a chained list. -/
theorem Forward_ok (m : MTFT) (ord : Nat → Nat) (hc : Chain m ord) (fuel : Nat)
    (hfuel : 63 ≤ fuel) (input : List Byte) (hsz : m.size ≤ input.length) :
    ∃ m1 ord1 L1, m.Forward fuel input =
        .ok (m1, (mtfRanks identityList (input.take (extent m.size input))).map byteOfNat ++
          input.drop (extent m.size input)) ∧
      Rep m1 ord1 L1 ∧ m1.size = m.size ∧
      ∀ r ∈ mtfRanks identityList (input.take (extent m.size input)), r < 256 := by
  obtain ⟨m0, e0, hR0, hs0, hv0⟩ :=
    balanceLists_ok true m ord hc (fun h => by simp at h) (fun h => by simp at h)
  have htab : table m0 ord = identityList :=
    table_identity m0 ord (fun k hk => by rw [hv0 k hk]; simp [balValue])
  have hext : extent m.size input ≤ input.length := by
    unfold extent; split <;> omega
  obtain ⟨m1, ord1, L1, e1, hR1, hs1, hr1⟩ :=
    loop_ok fuel hfuel (input.take (extent m.size input)) [] (input.drop (extent m.size input))
      m0 ord canonL (m0.nodes (ord 0)).value hR0 rfl
  refine ⟨m1, ord1, L1, ?_, hR1, by rw [hs1, hs0], by rw [← htab]; exact hr1⟩
  unfold MTFT.Forward
  rw [e0]
  simp only
  unfold MTFT.moveToFront
  rw [hR0.head0]
  simp only
  have hlen : (input.take (extent m.size input)).length = extent m.size input := by
    rw [List.length_take]; omega
  have hcat : [] ++ input.take (extent m.size input) ++ input.drop (extent m.size input) =
      input := by simp
  rw [hlen, hcat, htab] at e1
  have : (if m0.size ≠ 0 then m0.size else input.length) = extent m.size input := by
    rw [hs0]; rfl
  rw [this]
  simpa using e1

/-- One round of the loop of `NewMTFT` keeps the loop invariant. -/
theorem NewMTFT_round (sz count i : Nat) (m : MTFT) (previous listIdx : Nat)
    (hi1 : 1 ≤ i) (hi : i < 256) (inv : NewInv sz i m previous listIdx) :
    ∃ m1 previous1 listIdx1, NewInv sz (i + 1) m1 previous1 listIdx1 ∧
      NewMTFT.loop (count + 1) i m previous listIdx =
        NewMTFT.loop count (i + 1) m1 previous1 listIdx1 := by
  obtain ⟨hsz, hnd, hnr, hpd, hvd, hpe, hidx, hhl, hll, hbl, hh0, hho, hl0, hlo, hbo⟩ := inv
  subst hpe
  subst hidx
  have hcb : canonBucket i < 16 := canonBucket_lt i hi
  let nodes2 : Nat → Payload :=
    setPrevious (setNext (fun a => if a = i then
      { previous := none, next := none, value := byteOfNat i } else m.nodes a)
      (i - 1) (some i)) i (some (i - 1))
  have hN : ∀ k, (nodes2 k).next =
      if k = i - 1 then some i else if k = i then none else (m.nodes k).next := by
    intro k
    simp only [nodes2, setPrevious_next, setNext_next]
    split
    · rfl
    · split <;> rfl
  have hP : ∀ k, (nodes2 k).previous =
      if k = i then some (i - 1) else (m.nodes k).previous := by
    intro k
    simp only [nodes2, setPrevious_previous, setNext_previous]
    split
    · rfl
    · next h => simp [h]
  have hV : ∀ k, (nodes2 k).value = if k = i then byteOfNat i else (m.nodes k).value := by
    intro k
    simp only [nodes2, setPrevious_value, setNext_value]
    split <;> rfl
  have hnd' : ∀ k, k + 1 < i + 1 → (nodes2 k).next = some (k + 1) := by
    intro k hk
    rw [hN]
    by_cases h : k = i - 1
    · rw [if_pos h]; congr 1; omega
    · rw [if_neg h, if_neg (by omega)]; exact hnd k (by omega)
  have hnr' : ∀ k, i + 1 ≤ k + 1 → (nodes2 k).next = none := by
    intro k hk
    rw [hN, if_neg (by omega)]
    split
    · rfl
    · exact hnr k (by omega)
  have hpd' : ∀ k, k + 1 < i + 1 → (nodes2 (k + 1)).previous = some k := by
    intro k hk
    rw [hP]
    by_cases h : k + 1 = i
    · rw [if_pos h]; congr 1; omega
    · rw [if_neg h]; exact hpd k (by omega)
  have hvd' : ∀ k, k < i + 1 → (nodes2 k).value = byteOfNat k := by
    intro k hk
    rw [hV]
    by_cases h : k = i
    · rw [if_pos h, h]
    · rw [if_neg h]; exact hvd k (by omega)
  have hbo' : ∀ k, k < i + 1 →
      (m.buckets.set i (byteOfNat (canonBucket i)))[k]? = some (byteOfNat (canonBucket k)) := by
    intro k hk
    by_cases h : i = k
    · subst h; exact List.getElem?_set_self (by omega)
    · rw [List.getElem?_set_ne h]; exact hbo k (by omega)
  have e3 : storeAt m.buckets i (byteOfNat (canonBucket i)) =
      some (m.buckets.set i (byteOfNat (canonBucket i))) := storeAt_eq _ _ _ (by omega)
  by_cases hn0 : (i - 1) % 17 = 0
  · have hcbi : canonBucket i = canonBucket (i - 1) + 1 := by
      unfold canonBucket; split <;> split <;> omega
    have hli : (canonBucket (i - 1) + 1) % 256 = canonBucket i := by rw [hcbi]; omega
    have e1 : storeAt m.heads (canonBucket i) (some i) =
        some (m.heads.set (canonBucket i) (some i)) := storeAt_eq _ _ _ (by omega)
    have e2 : storeAt m.lengths (canonBucket i) (17 : Int) =
        some (m.lengths.set (canonBucket i) 17) := storeAt_eq _ _ _ (by omega)
    refine ⟨{ size := m.size, heads := m.heads.set (canonBucket i) (some i),
              lengths := m.lengths.set (canonBucket i) 17,
              buckets := m.buckets.set i (byteOfNat (canonBucket i)), nodes := nodes2 },
      i, canonBucket i, ?_, ?_⟩
    · refine ⟨hsz, hnd', hnr', hpd', hvd', by simp, by simp, by simp [hhl], by simp [hll],
        by simp [hbl], ?_, ?_, ?_, ?_, hbo'⟩
      · show (m.heads.set (canonBucket i) (some i))[0]? = _
        rw [List.getElem?_set_ne (by omega)]; exact hh0
      · intro b hb1 hb
        show (m.heads.set (canonBucket i) (some i))[b]? = _
        by_cases hbe : canonBucket i = b
        · have : 17 * (b - 1) + 1 = i := by
            rw [← hbe]; unfold canonBucket; split <;> omega
          rw [hbe, List.getElem?_set_self (by omega), this]
        · rw [List.getElem?_set_ne hbe]
          apply hho b hb1
          have : 17 * (b - 1) + 1 ≠ i := by
            intro h; apply hbe; rw [← h]; unfold canonBucket; split <;> omega
          omega
      · show (m.lengths.set (canonBucket i) 17)[0]? = _
        rw [List.getElem?_set_ne (by omega)]; exact hl0
      · intro b hb1 hb
        show (m.lengths.set (canonBucket i) 17)[b]? = _
        by_cases hbe : canonBucket i = b
        · rw [hbe, List.getElem?_set_self (by omega)]
        · rw [List.getElem?_set_ne hbe]
          apply hlo b hb1
          have : 17 * (b - 1) + 1 ≠ i := by
            intro h; apply hbe; rw [← h]; unfold canonBucket; split <;> omega
          omega
    · rw [NewMTFT.loop]
      simp only [hn0, if_true, hli, e1, e2, e3]
  · have hcbi : canonBucket i = canonBucket (i - 1) := by
      unfold canonBucket; split <;> split <;> omega
    refine ⟨{ size := m.size, heads := m.heads, lengths := m.lengths,
              buckets := m.buckets.set i (byteOfNat (canonBucket i)), nodes := nodes2 },
      i, canonBucket i, ?_, ?_⟩
    · refine ⟨hsz, hnd', hnr', hpd', hvd', by simp, by simp, hhl, hll,
        by simp [hbl], hh0, ?_, hl0, ?_, hbo'⟩
      · intro b hb1 hb
        apply hho b hb1
        have : 17 * (b - 1) + 1 ≠ i := by omega
        omega
      · intro b hb1 hb
        apply hlo b hb1
        have : 17 * (b - 1) + 1 ≠ i := by omega
        omega
    · rw [NewMTFT.loop]
      simp only [hn0, if_false, ← hcbi, e3]

/-- The loop of `NewMTFT` runs to its end and reaches the invariant at round 256. -/
theorem NewMTFT_loop (sz : Nat) :
    ∀ (count i : Nat) (m : MTFT) (previous listIdx : Nat),
      1 ≤ i → i + count = 256 → NewInv sz i m previous listIdx →
      ∃ m1 previous1 listIdx1, NewInv sz 256 m1 previous1 listIdx1 ∧
        NewMTFT.loop count i m previous listIdx = some m1 := by
  intro count
  induction count with
  | zero =>
    intro i m previous listIdx _ hic inv
    have : i = 256 := by omega
    subst this
    exact ⟨m, previous, listIdx, inv, by rw [NewMTFT.loop]⟩
  | succ c ih =>
    intro i m previous listIdx hi1 hic inv
    obtain ⟨m1, p1, l1, inv1, e⟩ := NewMTFT_round sz c i m previous listIdx hi1 (by omega) inv
    obtain ⟨m2, p2, l2, inv2, e2⟩ := ih (i + 1) m1 p1 l1 (by omega) (by omega) inv1
    exact ⟨m2, p2, l2, inv2, by rw [e, e2]⟩

/-- `NewMTFT` returns, and returns the canonical rank structure: the nodes in allocation
order, node `k` carrying the value `k`, one node in the first list and 17 in each other. -/
theorem NewMTFT_ok (sz : Nat) :
    ∃ m, NewMTFT sz = some m ∧ Rep m (fun k => k) canonL ∧ m.size = sz ∧
      ∀ k, k < 256 → (m.nodes k).value = byteOfNat k := by
  let m0 : MTFT :=
    { size := sz
      heads := (List.replicate 16 none).set 0 (some 0)
      lengths := (List.replicate 16 (0 : Int)).set 0 1
      buckets := (List.replicate 256 (0 : Byte)).set 0 0
      nodes := fun _ => { previous := none, next := none, value := 0 } }
  have inv1 : NewInv sz 1 m0 0 0 := by
    refine ⟨rfl, ?_, ?_, ?_, ?_, rfl, by simp [canonBucket],
      by simp only [m0, List.length_set, List.length_replicate],
      by simp only [m0, List.length_set, List.length_replicate],
      by simp only [m0, List.length_set, List.length_replicate],
      List.getElem?_set_self (by rw [List.length_replicate]; omega), ?_,
      List.getElem?_set_self (by rw [List.length_replicate]; omega), ?_, ?_⟩
    · intro k hk; omega
    · intro k _; rfl
    · intro k hk; omega
    · intro k hk
      have : k = 0 := by omega
      subst this; rfl
    · intro b hb1 hb; omega
    · intro b hb1 hb; omega
    · intro k hk
      have : k = 0 := by omega
      subst this
      exact List.getElem?_set_self (by rw [List.length_replicate]; omega)
  obtain ⟨m, p, l, inv, e⟩ := NewMTFT_loop sz 255 1 m0 0 0 (by omega) (by omega) inv1
  have hstart : NewMTFT sz = NewMTFT.loop 255 1 m0 0 0 := by
    have a1 : storeAt (List.replicate 16 (none : Option Nat)) 0 (some 0) =
        some ((List.replicate 16 none).set 0 (some 0)) :=
      storeAt_eq _ _ _ (by rw [List.length_replicate]; omega)
    have a2 : storeAt (List.replicate 16 (0 : Int)) 0 1 =
        some ((List.replicate 16 0).set 0 1) :=
      storeAt_eq _ _ _ (by rw [List.length_replicate]; omega)
    have a3 : storeAt (List.replicate 256 (0 : Byte)) 0 0 =
        some ((List.replicate 256 0).set 0 0) :=
      storeAt_eq _ _ _ (by rw [List.length_replicate]; omega)
    unfold NewMTFT
    dsimp only
    rw [a1]
    dsimp only
    rw [a2]
    dsimp only
    rw [a3]
  have hnext : ∀ k, k < 256 →
      (m.nodes k).next = if k + 1 < 256 then some (k + 1) else none := by
    intro k hk
    split
    · next h => exact inv.next_done k h
    · next h => exact inv.next_rest k (by omega)
  have hB : BalInv true m (fun k => k) 256 m (canonBucket 255) none ((255 % 17 : Nat) : Int) := by
    refine ⟨rfl, fun _ => rfl, fun _ => rfl, ?_, fun h => by simp at h, by simp, by simp,
      by simp, inv.heads_len, inv.lengths_len, inv.buckets_len, inv.head0, inv.heads_ok,
      inv.len0, inv.lens_ok, ?_⟩
    · intro k hk; simp only [balValue, if_true]; exact inv.val_done k hk
    · intro k hk
      simp only [balValue, if_true]
      rw [byteOfNat_val k hk]; exact inv.buckets_ok k hk
  refine ⟨m, by rw [hstart, e], ?_, inv.size_eq, inv.val_done⟩
  exact BalInv.toRep true m (fun k => k) (fun a b _ _ h => h) (fun h => by simp at h) hnext
    (fun k hk => inv.prev_done k hk) m _ _ _ hB

/-- The shift `copy(indexes[1:], indexes[0:idx]); indexes[0] = value` is the move of the
value at `idx` to the front. -/
theorem shift_eq (t : List Byte) (r : Nat) (v : Byte) (hv : t[r]? = some v) :
    (t.take 1 ++ (t.take r).take (min (t.length - 1) (t.take r).length) ++
      t.drop (1 + min (t.length - 1) (t.take r).length)).set 0 v = v :: t.eraseIdx r := by
  have hr : r < t.length := by
    by_contra h
    rw [List.getElem?_eq_none (by omega)] at hv
    simp at hv
  have hk : min (t.length - 1) (t.take r).length = r := by
    rw [List.length_take]; omega
  rw [hk, List.eraseIdx_eq_take_drop_succ]
  cases t with
  | nil => simp at hr
  | cons x xs =>
    have : (x :: xs).take r = (x :: xs).take r := rfl
    rw [List.take_take, Nat.min_self, show 1 + r = r + 1 by omega]
    simp

/-- The loop of `Inverse` over the middle part of a buffer replaces it with the decoded
symbols and leaves the parts before and after it alone. -/
theorem Inverse_loop_ok :
    ∀ (mid pre post indexes : List Byte), indexes.length = 256 →
      ∃ indexes1, indexes1.length = 256 ∧
        Inverse.loop mid.length pre.length indexes (pre ++ mid ++ post) =
          .ok (indexes1, pre ++ mtfDecode indexes mid ++ post) := by
  intro mid
  induction mid with
  | nil =>
    intro pre post indexes h
    exact ⟨indexes, h, by simp [Inverse.loop, mtfDecode]⟩
  | cons r mid ih =>
    intro pre post indexes h
    have hget : (pre ++ r :: mid ++ post)[pre.length]? = some r := by
      rw [List.append_assoc]; exact get_mid pre r (mid ++ post)
    have hr : r.val < indexes.length := by rw [h]; exact r.isLt
    have hv : indexes[r.val]? = some (indexes.getD r.val 0) := by
      rw [List.getD_eq_getElem?_getD, List.getElem?_eq_getElem hr]; rfl
    have hnew : (if r ≠ 0 then
          (indexes.take 1 ++ (indexes.take r.val).take
            (min (indexes.length - 1) (indexes.take r.val).length) ++
            indexes.drop (1 + min (indexes.length - 1) (indexes.take r.val).length)).set 0
              (indexes.getD r.val 0)
        else indexes) = indexes.getD r.val 0 :: indexes.eraseIdx r.val := by
      by_cases h0 : r = 0
      · subst h0
        rw [if_neg (by simp)]
        cases indexes with
        | nil => simp at h
        | cons x xs => simp
      · rw [if_pos h0]
        exact shift_eq indexes r.val _ hv
    have hlen : (indexes.getD r.val 0 :: indexes.eraseIdx r.val).length = 256 := by
      rw [List.length_cons, List.length_eraseIdx_of_lt hr, h]
    obtain ⟨idx1, hl1, e1⟩ := ih (pre ++ [indexes.getD r.val 0]) post _ hlen
    refine ⟨idx1, hl1, ?_⟩
    rw [List.length_cons, Inverse.loop, hget]
    simp only [hv, hnew]
    have hset : (pre ++ r :: mid ++ post).set pre.length (indexes.getD r.val 0) =
        (pre ++ [indexes.getD r.val 0]) ++ mid ++ post := by
      rw [List.append_assoc, List.cons_append, set_mid]; simp
    have : (pre ++ [indexes.getD r.val 0]).length = pre.length + 1 := by simp
    rw [hset, ← this, e1]
    simp [mtfDecode]

/-- With a 256-entry table, `Inverse` returns; it replaces the first `end` elements of the
buffer with the decoded symbols, leaves the rest alone, and touches only `buckets`. -/
theorem Inverse_ok (m : MTFT) (hb : m.buckets.length = 256) (input : List Byte)
    (hsz : m.size ≤ input.length) :
    ∃ indexes1, indexes1.length = 256 ∧
      m.Inverse input = .ok ({ m with buckets := indexes1 },
        mtfDecode identityList (input.take (extent m.size input)) ++
          input.drop (extent m.size input)) := by
  have hext : extent m.size input ≤ input.length := by
    unfold extent; split <;> omega
  have hid : ((List.range m.buckets.length).map byteOfNat) = identityList := by
    rw [hb]; rfl
  have hidl : identityList.length = 256 := by simp [identityList]
  obtain ⟨idx1, hl1, e1⟩ := Inverse_loop_ok (input.take (extent m.size input)) []
    (input.drop (extent m.size input)) identityList hidl
  have hlen : (input.take (extent m.size input)).length = extent m.size input := by
    rw [List.length_take]; omega
  have hcat : [] ++ input.take (extent m.size input) ++ input.drop (extent m.size input) =
      input := by simp
  rw [hlen, hcat] at e1
  refine ⟨idx1, hl1, ?_⟩
  unfold MTFT.Inverse
  simp only [hid]
  have : (if m.size ≠ 0 then m.size else input.length) = extent m.size input := rfl
  rw [this]
  simp only [List.length_nil] at e1
  rw [e1]
  simp

theorem Full_identity : Full identityList := by
  refine ⟨by simp [identityList], ?_⟩
  intro b
  unfold identityList
  rw [List.mem_map]
  exact ⟨b.val, by simp, Fin.ext (byteOfNat_val b.val b.isLt)⟩

theorem Full_move (t : List Byte) (b : Byte) (h : Full t) : Full (b :: t.erase b) := by
  refine ⟨?_, ?_⟩
  · rw [List.length_cons, List.length_erase_of_mem (h.2 b), h.1]
  · intro x
    by_cases hx : x = b
    · subst hx; exact List.mem_cons_self _ _
    · exact List.mem_cons_of_mem _ ((List.mem_erase_of_ne hx).mpr (h.2 x))

/-- The reference inverse undoes the reference transform on any list of all bytes. -/
theorem mtfDecode_ranks :
    ∀ (B t : List Byte), Full t → mtfDecode t ((mtfRanks t B).map byteOfNat) = B := by
  intro B
  induction B with
  | nil => intro t _; rfl
  | cons b rest ih =>
    intro t ht
    have hlt : t.indexOf b < 256 := by
      have h1 := List.indexOf_lt_length.mpr (ht.2 b)
      have h2 := ht.1
      omega
    have hget : t.getD (t.indexOf b) 0 = b := by
      rw [List.getD_eq_getElem?_getD, List.getElem?_indexOf (ht.2 b)]; rfl
    simp only [mtfRanks, List.map_cons, mtfDecode, byteOfNat_val _ hlt, hget,
      List.eraseIdx_indexOf_eq_erase]
    rw [ih _ (Full_move t b ht)]

theorem map_val_byteOfNat (rs : List Nat) (h : ∀ r ∈ rs, r < 256) :
    (rs.map byteOfNat).map Fin.val = rs := by
  induction rs with
  | nil => rfl
  | cons r rest ih =>
    simp only [List.map_cons]
    rw [byteOfNat_val r (h r (List.mem_cons_self _ _)),
      ih (fun x hx => h x (List.mem_cons_of_mem _ hx))]

theorem extent_zero (B : List Byte) : extent 0 B = B.length := rfl

theorem extent_pos (s : Nat) (B : List Byte) (h : 0 < s) : extent s B = s := by
  unfold extent
  rw [if_pos (by omega)]

theorem mtfRanks_length : ∀ (B t : List Byte), (mtfRanks t B).length = B.length := by
  intro B
  induction B with
  | nil => intro t; rfl
  | cons b rest ih => intro t; simp [mtfRanks, ih]

theorem mtfDecode_length : ∀ (R t : List Byte), (mtfDecode t R).length = R.length := by
  intro R
  induction R with
  | nil => intro t; rfl
  | cons r rest ih => intro t; simp [mtfDecode, ih]

/-- C1. On an MTFT built by `NewMTFT(0)`, `Forward` returns on every byte buffer `B` and
`Inverse` of its output is `B` again, element for element, both when `Inverse` runs on the
instance that ran `Forward` and when it runs on a separate fresh instance. -/
theorem MTFT_roundtrip (B : List Byte) (fuel : Nat) (hfuel : 63 ≤ fuel) :
    ∃ m m1 out m2 m3, NewMTFT 0 = some m ∧ m.Forward fuel B = .ok (m1, out) ∧
      m1.Inverse out = .ok (m2, B) ∧ m.Inverse out = .ok (m3, B) := by
  obtain ⟨m, hm, hR, hsz, _⟩ := NewMTFT_ok 0
  obtain ⟨m1, ord1, L1, hF, hR1, hs1, _⟩ :=
    Forward_ok m _ hR.toChain fuel hfuel B (by rw [hsz]; omega)
  rw [hsz, extent_zero, List.take_length, List.drop_length, List.append_nil] at hF
  have hdec : mtfDecode identityList ((mtfRanks identityList B).map byteOfNat) = B :=
    mtfDecode_ranks B identityList Full_identity
  have hlen : ((mtfRanks identityList B).map byteOfNat).length ≤
      ((mtfRanks identityList B).map byteOfNat).length := Nat.le_refl _
  obtain ⟨i1, _, hI1⟩ := Inverse_ok m1 hR1.buckets_len
    ((mtfRanks identityList B).map byteOfNat) (by rw [hs1, hsz]; omega)
  obtain ⟨i2, _, hI2⟩ := Inverse_ok m hR.buckets_len
    ((mtfRanks identityList B).map byteOfNat) (by rw [hsz]; omega)
  rw [hs1, hsz, extent_zero, List.take_length, List.drop_length, List.append_nil, hdec] at hI1
  rw [hsz, extent_zero, List.take_length, List.drop_length, List.append_nil, hdec] at hI2
  exact ⟨m, m1, _, _, _, hm, hF, hI1, hI2⟩

theorem MTFT_roundtrip_witness :
    63 ≤ 63 ∧ ∃ m m1 out m2 m3, NewMTFT 0 = some m ∧
      m.Forward 63 [65, 65, 66, 65, 0, 255, 255] = .ok (m1, out) ∧
      m1.Inverse out = .ok (m2, [65, 65, 66, 65, 0, 255, 255]) ∧
      m.Inverse out = .ok (m3, [65, 65, 66, 65, 0, 255, 255]) :=
  ⟨Nat.le_refl _, MTFT_roundtrip [65, 65, 66, 65, 0, 255, 255] 63 (Nat.le_refl _)⟩

theorem bitsMSB_split (v m : Nat) :
    ∀ k, bitsMSB v (k + m) = bitsMSB (v >>> m) k ++ bitsMSB v m := by
  intro k
  induction k with
  | zero => simp [bitsMSB]
  | succ k ih =>
    rw [show k + 1 + m = (k + m) + 1 by omega, bitsMSB, bitsMSB, ih, Nat.testBit_shiftRight,
      Nat.add_comm m k]
    rfl

theorem bitsMSB_one (q : Nat) : bitsMSB 1 (q + 1) = List.replicate q false ++ [true] := by
  induction q with
  | zero => rfl
  | succ q ih =>
    rw [bitsMSB, ih, List.replicate_succ]
    have : Nat.testBit 1 (q + 1) = false :=
      Nat.testBit_lt_two_pow (Nat.one_lt_two_pow (by omega))
    rw [this]; rfl

theorem bitsMSB_mod (v n : Nat) : ∀ k, k ≤ n → bitsMSB (v % 2 ^ n) k = bitsMSB v k := by
  intro k
  induction k with
  | zero => intro _; rfl
  | succ k ih =>
    intro hk
    rw [bitsMSB, bitsMSB, ih (by omega), Nat.testBit_mod_two_pow]
    simp [show k < n by omega]

theorem bitsMSB_length (v : Nat) : ∀ n, (bitsMSB v n).length = n := by
  intro n
  induction n with
  | zero => rfl
  | succ n ih => simp [bitsMSB, ih]

theorem foldl_bitsMSB (r : Nat) : ∀ (n acc : Nat),
    (bitsMSB r n).foldl (fun acc b => 2 * acc + b.toNat) acc = acc * 2 ^ n + r % 2 ^ n := by
  intro n
  induction n with
  | zero => intro acc; simp [bitsMSB, Nat.mod_one]
  | succ n ih =>
    intro acc
    rw [bitsMSB, List.foldl_cons, ih]
    have h1 : r % 2 ^ (n + 1) = r % 2 ^ n + 2 ^ n * (r / 2 ^ n % 2) := Nat.mod_pow_succ
    have h2 : (r.testBit n).toNat = r / 2 ^ n % 2 := by
      rw [Nat.testBit_to_div_mod]
      rcases Nat.mod_two_eq_zero_or_one (r / 2 ^ n) with h | h <;> simp [h]
    rw [h1, h2, Nat.pow_succ]
    ring

theorem valueOfBits_bitsMSB (r n : Nat) (h : r < 2 ^ n) : valueOfBits (bitsMSB r n) = r := by
  unfold valueOfBits
  rw [foldl_bitsMSB, Nat.mod_eq_of_lt h]
  simp

theorem toInt64_add (x y : Int) : toInt64 (toInt64 x + y) = toInt64 (x + y) := by
  unfold toInt64
  omega

theorem toInt64_of_lt (x : Nat) (h : x < 9223372036854775808) : toInt64 (x : Int) = x := by
  unfold toInt64
  omega

/-- The unary loop on the in-memory source: `k` zero bits and a one bit are consumed within
`k + 1` rounds and add `k + 1` to the count, in 64-bit arithmetic. -/
theorem unaryLoop_list (rest : List Bool) :
    ∀ (k fuel : Nat) (q : Int), k < fuel →
      unaryLoop listInput fuel q 0 (List.replicate k false ++ true :: rest) =
        (some (.ok (toInt64 (q + k + 1))), rest) := by
  intro k
  induction k with
  | zero =>
    intro fuel q hf
    obtain ⟨f, rfl⟩ : ∃ f, fuel = f + 1 := ⟨fuel - 1, by omega⟩
    rw [unaryLoop.eq_def]
    simp only [if_true, List.replicate_zero, List.nil_append, listInput]
    rw [unaryLoop.eq_def]
    simp
  | succ k ih =>
    intro fuel q hf
    obtain ⟨f, rfl⟩ : ∃ f, fuel = f + 1 := ⟨fuel - 1, by omega⟩
    rw [unaryLoop.eq_def]
    simp only [if_true, List.replicate_succ, List.cons_append, listInput]
    have := ih f (toInt64 (q + 1)) (by omega)
    simp only [listInput] at this
    simp only [Bool.toNat_false, Nat.cast_zero]
    rw [this]
    congr 3
    rw [Int.add_assoc (toInt64 (q + 1)), toInt64_add]
    congr 1
    push_cast
    ring

theorem byteOfInt_toInt8 (x : Int) : byteOfInt (toInt8 x) = byteOfInt x := by
  apply Fin.ext
  simp only [byteOfInt, toInt8]
  omega

theorem toInt64_small (r : Nat) (h : r < 128) : toInt64 (r : Int) = (r : Int) := by
  unfold toInt64
  omega

theorem lor_natCast (a b : Nat) : Int.lor (a : Int) (b : Int) = ((a ||| b : Nat) : Int) := rfl

theorem readBits_list (r lb : Nat) (rest : List Bool) (hr : r < 2 ^ lb) :
    listInput.ReadBits (bitsMSB r lb ++ rest) lb = (.ok r, rest) := by
  have hl := bitsMSB_length r lb
  simp only [listInput, List.length_append, hl, Nat.le_add_right, if_true]
  rw [List.take_left' hl, List.drop_left' hl, valueOfBits_bitsMSB r lb hr]

theorem byteOfInt_wrap (x : Int) : byteOfInt (toInt8 (toInt64 x)) = byteOfInt x := by
  apply Fin.ext
  simp only [byteOfInt, toInt8, toInt64]
  omega

/-- The unary prefix and the remainder as `DecodeByte` reads them from the in-memory
source, for every count `q`: `q` zero bits, a one bit and the `logBase` bits of `r`, then
the sign bit when the decoder is signed and the 64-bit magnitude is not zero. -/
theorem decode_stream64 (signed : Bool) (lb q r fuel : Nat) (rest : List Bool)
    (hr : r < 2 ^ lb) (hf : q ≤ fuel) :
    RiceGolombDecoder.DecodeByte listInput fuel
        ⟨signed, lb, List.replicate q false ++ true :: (bitsMSB r lb ++ rest)⟩ =
      (if decodedMagnitude lb q r ≠ 0 ∧ signed = true then
        match rest with
        | [] => (some (byteOfInt (decodedMagnitude lb q r), some .endOfStream), ⟨signed, lb, []⟩)
        | s :: rest1 =>
          (some (if s = true then byteOfInt (-(decodedMagnitude lb q r))
            else byteOfInt (decodedMagnitude lb q r), none), ⟨signed, lb, rest1⟩)
      else (some (byteOfInt (decodedMagnitude lb q r), none), ⟨signed, lb, rest⟩)) := by
  unfold RiceGolombDecoder.DecodeByte
  cases q with
  | zero =>
    have h1 : listInput.ReadBit (List.replicate 0 false ++ true :: (bitsMSB r lb ++ rest)) =
        (.ok 1, bitsMSB r lb ++ rest) := rfl
    have h2 : unaryLoop listInput fuel 0 1 (bitsMSB r lb ++ rest) =
        (some (.ok 0), bitsMSB r lb ++ rest) := by
      rw [unaryLoop.eq_def]; simp
    have hM : Int.lor (toInt64 ((0 : Int) * 2 ^ lb)) (toInt64 (r : Int)) =
        decodedMagnitude lb 0 r := rfl
    simp only [h1, h2, readBits_list r lb rest hr, hM, byteOfInt_wrap]
    by_cases hc : decodedMagnitude lb 0 r ≠ 0 ∧ signed = true
    · rw [if_pos hc, if_pos hc]
      cases rest with
      | nil => rfl
      | cons s rest1 => cases s <;> simp [listInput]
    · rw [if_neg hc, if_neg hc]
  | succ k =>
    have h1 : listInput.ReadBit (List.replicate (k + 1) false ++
        true :: (bitsMSB r lb ++ rest)) =
        (.ok 0, List.replicate k false ++ true :: (bitsMSB r lb ++ rest)) := rfl
    have h2 := unaryLoop_list (bitsMSB r lb ++ rest) k fuel 0 (by omega)
    have h3 : (0 : Int) + (k : Int) + 1 = ((k + 1 : Nat) : Int) := by push_cast; ring
    rw [h3] at h2
    have hM : Int.lor (toInt64 (toInt64 ((k + 1 : Nat) : Int) * 2 ^ lb)) (toInt64 (r : Int)) =
        decodedMagnitude lb (k + 1) r := rfl
    simp only [h1, h2, readBits_list r lb rest hr, hM, byteOfInt_wrap]
    by_cases hc : decodedMagnitude lb (k + 1) r ≠ 0 ∧ signed = true
    · rw [if_pos hc, if_pos hc]
      cases rest with
      | nil => rfl
      | cons s rest1 => cases s <;> simp [listInput]
    · rw [if_neg hc, if_neg hc]

/-- Below `2 ^ (63 - logBase)` zero bits nothing wraps: the 64-bit magnitude is the number
`(q << logBase) | r`. -/
theorem decodedMagnitude_small (lb q r : Nat) (h7 : lb ≤ 7) (hr : r < 2 ^ lb)
    (hq : q < 2 ^ (63 - lb)) : decodedMagnitude lb q r = ((q <<< lb ||| r : Nat) : Int) := by
  have hr7 : r < 128 := by
    have : (2 : Nat) ^ lb ≤ 2 ^ 7 := Nat.pow_le_pow_right (by omega) h7
    omega
  have hpow : (2 : Nat) ^ (63 - lb) * 2 ^ lb = 9223372036854775808 := by
    rw [← Nat.pow_add, Nat.sub_add_cancel (by omega)]
  have hlb : 1 ≤ (2 : Nat) ^ lb := Nat.two_pow_pos lb
  have hmul : q * 2 ^ lb < 9223372036854775808 := by
    rw [← hpow]
    exact Nat.mul_lt_mul_of_lt_of_le hq (Nat.le_refl _) hlb
  have hq63 : q < 9223372036854775808 := by
    have := Nat.le_mul_of_pos_right q hlb
    omega
  unfold decodedMagnitude
  rw [toInt64_of_lt q hq63, toInt64_small r hr7]
  have : ((q : Int) * 2 ^ lb) = ((q * 2 ^ lb : Nat) : Int) := by push_cast; rfl
  rw [this, toInt64_of_lt _ hmul, lor_natCast, Nat.shiftLeft_eq]

/-- The unary prefix and the remainder as `DecodeByte` reads them from the in-memory
source: `q` zero bits, a one bit and the `logBase` bits of `r`, then the sign bit when the
decoder is signed and the magnitude is not zero. -/
theorem decode_stream (signed : Bool) (lb q r fuel : Nat) (rest : List Bool)
    (h7 : lb ≤ 7) (hr : r < 2 ^ lb) (hf : q ≤ fuel) (hq : q < 2 ^ (63 - lb)) :
    RiceGolombDecoder.DecodeByte listInput fuel
        ⟨signed, lb, List.replicate q false ++ true :: (bitsMSB r lb ++ rest)⟩ =
      (if (q <<< lb ||| r) ≠ 0 ∧ signed = true then
        match rest with
        | [] => (some (byteOfNat (q <<< lb ||| r), some .endOfStream), ⟨signed, lb, []⟩)
        | s :: rest1 =>
          (some (if s = true then byteOfInt (-((q <<< lb ||| r : Nat) : Int))
            else byteOfNat (q <<< lb ||| r), none), ⟨signed, lb, rest1⟩)
      else (some (byteOfNat (q <<< lb ||| r), none), ⟨signed, lb, rest⟩)) := by
  have hne : (((q <<< lb ||| r : Nat) : Int) ≠ 0) ↔ (q <<< lb ||| r) ≠ 0 := by
    simp
  rw [decode_stream64 signed lb q r fuel rest hr hf, decodedMagnitude_small lb q r h7 hr hq]
  simp only [byteOfInt_natCast, hne]

set_option maxRecDepth 1000000 in
set_option maxHeartbeats 4000000 in
theorem emit_facts : ∀ lb, lb < 8 → ∀ m, m < 256 → lb = 0 ∨ (
    emitU lb m >>> lb = 1 ∧ emitU lb m % 2 ^ lb = m &&& (2 ^ lb - 1) ∧
    u64 (u64 (1 + (m >>> lb)) + lb) = (m >>> lb) + 1 + lb ∧
    m &&& (2 ^ lb - 1) < 2 ^ lb ∧
    u64 ((m >>> lb) + 1 + lb + 1) = (m >>> lb) + 1 + lb + 1 ∧
    ((m >>> lb) <<< lb ||| (m &&& (2 ^ lb - 1))) = m ∧ m >>> lb ≤ 127 ∧
    ∀ sb, sb < 2 → u64 (u64 (emitU lb m <<< 1) ||| sb) >>> 1 = emitU lb m ∧
      (u64 (u64 (emitU lb m <<< 1) ||| sb)).testBit 0 = decide (sb = 1)) := by
  decide

set_option maxRecDepth 1000000 in
theorem zero_facts : ∀ lb, lb < 8 →
    bitsMSB (u64 (2 ^ lb)) (u64 (lb + 1)) = true :: List.replicate lb false ∧
    bitsMSB 0 lb = List.replicate lb false ∧ u64 (1 <<< lb) = 2 ^ lb := by
  decide

set_option maxRecDepth 1000000 in
set_option maxHeartbeats 4000000 in
theorem magnitude_facts : ∀ v : Byte, v = 0 ∨ (
    magnitude false v = v ∧ (magnitude true v).val ≠ 0 ∧
    (v.val >>> 7) &&& 1 < 2 ∧ decide ((v.val >>> 7) &&& 1 = 1) = decide (128 ≤ v.val) ∧
    (if 128 ≤ v.val then byteOfInt (-(((magnitude true v).val : Nat) : Int))
      else byteOfNat (magnitude true v).val) = v) := by
  decide

/-- On the in-memory sink, `EncodeByte` never fails and appends the codeword of the byte. -/
theorem encode_codeword (signed : Bool) (lb : Nat) (h1 : 1 ≤ lb) (h7 : lb ≤ 7) (v : Byte)
    (s : List Bool) :
    RiceGolombEncoder.EncodeByte listOutput ⟨signed, lb, 2 ^ lb, s⟩ v =
      (none, ⟨signed, lb, 2 ^ lb, s ++ codeword signed lb v⟩) := by
  have hu : ∀ x, u64 (u64 x) = u64 x := by
    intro x; unfold u64; exact Nat.mod_mod _ _
  unfold RiceGolombEncoder.EncodeByte codeword
  by_cases hv : v = 0
  · simp only [hv, if_true, listOutput, hu]
    rw [(zero_facts lb (by omega)).1]
  · simp only [hv, if_false]
    rcases emit_facts lb (by omega) (magnitude signed v).val (magnitude signed v).isLt with
      h | ⟨f1, f2, f3, f4, f5, _, _, f8⟩
    · omega
    have hE : u64 (2 ^ lb ||| ((magnitude signed v).val &&& u64 (2 ^ lb + 2 ^ 64 - 1))) =
        emitU lb (magnitude signed v).val := rfl
    have hbits : bitsMSB (emitU lb (magnitude signed v).val)
        ((magnitude signed v).val >>> lb + 1 + lb) =
        List.replicate ((magnitude signed v).val >>> lb) false ++ [true] ++
          bitsMSB ((magnitude signed v).val &&& (2 ^ lb - 1)) lb := by
      rw [bitsMSB_split, f1, bitsMSB_one, ← bitsMSB_mod _ lb lb (Nat.le_refl _), f2]
    cases signed with
    | false =>
      simp only [Bool.false_eq_true, if_false, listOutput, hE, f3, hu]
      have : u64 (emitU lb (magnitude false v).val) = emitU lb (magnitude false v).val := by
        unfold emitU; exact hu _
      rw [this, hbits]
      simp
    | true =>
      rcases magnitude_facts v with h | ⟨_, _, g3, g4, _⟩
      · exact absurd h hv
      obtain ⟨k1, k2⟩ := f8 _ g3
      simp only [if_true, listOutput, hE, f3, f5, hu]
      rw [bitsMSB_split _ 1, k1, hbits]
      have : bitsMSB (u64 (u64 (emitU lb (magnitude true v).val <<< 1) |||
          (v.val >>> 7 &&& 1))) 1 = [decide (128 ≤ v.val)] := by
        simp only [bitsMSB, k2, g4]
      rw [this]

/-- On the in-memory source, `DecodeByte` reads the codeword of a byte, and no more, and
returns the byte. -/
theorem decode_codeword (signed : Bool) (lb : Nat) (h1 : 1 ≤ lb) (h7 : lb ≤ 7) (v : Byte)
    (rest : List Bool) (fuel : Nat) (hfuel : 127 ≤ fuel) :
    RiceGolombDecoder.DecodeByte listInput fuel ⟨signed, lb, codeword signed lb v ++ rest⟩ =
      (some (v, none), ⟨signed, lb, rest⟩) := by
  unfold codeword
  by_cases hv : v = 0
  · subst hv
    simp only [if_true]
    have h := decode_stream signed lb 0 0 fuel rest h7 (Nat.two_pow_pos lb) (by omega)
      (Nat.two_pow_pos _)
    rw [(zero_facts lb (by omega)).2.1] at h
    simp only [List.replicate_zero, List.nil_append] at h
    rw [List.cons_append, h]
    simp [byteOfNat]
  · simp only [hv, if_false]
    rcases emit_facts lb (by omega) (magnitude signed v).val (magnitude signed v).isLt with
      h | ⟨_, _, _, f4, _, f6, f7, _⟩
    · omega
    rcases magnitude_facts v with h | ⟨g1, g2, _, _, g5⟩
    · exact absurd h hv
    have h56 : (2 : Nat) ^ 56 ≤ 2 ^ (63 - lb) := Nat.pow_le_pow_right (by omega) (by omega)
    have h := decode_stream signed lb ((magnitude signed v).val >>> lb)
      ((magnitude signed v).val &&& (2 ^ lb - 1)) fuel
      ((if signed = true then [decide (128 ≤ v.val)] else []) ++ rest) h7 f4 (by omega)
      (by omega)
    rw [f6] at h
    have hassoc : List.replicate ((magnitude signed v).val >>> lb) false ++ [true] ++
        bitsMSB ((magnitude signed v).val &&& (2 ^ lb - 1)) lb ++
        (if signed = true then [decide (128 ≤ v.val)] else []) ++ rest =
        List.replicate ((magnitude signed v).val >>> lb) false ++
          true :: (bitsMSB ((magnitude signed v).val &&& (2 ^ lb - 1)) lb ++
            ((if signed = true then [decide (128 ≤ v.val)] else []) ++ rest)) := by
      simp
    rw [hassoc, h]
    cases signed with
    | false =>
      simp only [Bool.false_eq_true, and_false, if_false, List.nil_append, g1]
      congr 3
      exact Fin.ext (byteOfNat_val _ v.isLt)
    | true =>
      simp only [if_true, and_true, g2, ne_eq, not_false_eq_true, List.singleton_append,
        decide_eq_true_eq]
      rw [g5]

theorem encodeAll_list (signed : Bool) (lb : Nat) (h1 : 1 ≤ lb) (h7 : lb ≤ 7) :
    ∀ (B : List Byte) (s : List Bool),
      encodeAll listOutput ⟨signed, lb, 2 ^ lb, s⟩ B =
        (none, ⟨signed, lb, 2 ^ lb, s ++ codewords signed lb B⟩) := by
  intro B
  induction B with
  | nil => intro s; simp [encodeAll, codewords]
  | cons b rest ih =>
    intro s
    rw [encodeAll, encode_codeword signed lb h1 h7 b s]
    simp only
    rw [ih, codewords, List.append_assoc]

theorem decodeAll_list (signed : Bool) (lb : Nat) (h1 : 1 ≤ lb) (h7 : lb ≤ 7) (fuel : Nat)
    (hfuel : 127 ≤ fuel) :
    ∀ (B : List Byte) (rest : List Bool),
      decodeAll listInput fuel B.length ⟨signed, lb, codewords signed lb B ++ rest⟩ =
        (some B, ⟨signed, lb, rest⟩) := by
  intro B
  induction B with
  | nil => intro rest; simp [decodeAll, codewords]
  | cons b tl ih =>
    intro rest
    rw [List.length_cons, decodeAll, codewords, List.append_assoc,
      decode_codeword signed lb h1 h7 b _ fuel hfuel]
    simp only
    rw [ih]

/-- C3. For every `logBase` in [1,7], both values of `signed` and every byte buffer `B`:
`EncodeByte` on each byte of `B` in order, against an empty bit channel that accepts any bit
count, never fails, and `DecodeByte` called `len(B)` times on the bits produced returns the
bytes of `B` in order and leaves no bit unread. -/
theorem RiceGolomb_roundtrip (signed : Bool) (lb : Nat) (h1 : 1 ≤ lb) (h7 : lb ≤ 7)
    (B : List Byte) (fuel : Nat) (hfuel : 127 ≤ fuel) :
    ∃ enc enc1 dec dec1,
      NewRiceGolombEncoder (some ([] : List Bool)) signed lb = .ok enc ∧
      encodeAll listOutput enc B = (none, enc1) ∧
      NewRiceGolombDecoder (some enc1.bitstream) signed lb = .ok dec ∧
      decodeAll listInput fuel B.length dec = (some B, dec1) ∧ dec1.bitstream = [] := by
  have hb := (zero_facts lb (by omega)).2.2
  refine ⟨⟨signed, lb, 2 ^ lb, []⟩, ⟨signed, lb, 2 ^ lb, [] ++ codewords signed lb B⟩,
    ⟨signed, lb, [] ++ codewords signed lb B⟩, ⟨signed, lb, []⟩, ?_, ?_, ?_, ?_, rfl⟩
  · simp only [NewRiceGolombEncoder, hb]
    rw [if_neg (by omega)]
  · exact encodeAll_list signed lb h1 h7 B []
  · simp only [NewRiceGolombDecoder]
    rw [if_neg (by omega)]
  · have := decodeAll_list signed lb h1 h7 fuel hfuel B []
    simpa using this

theorem RiceGolomb_roundtrip_witness :
    1 ≤ 1 ∧ 1 ≤ 7 ∧ 127 ≤ 127 ∧ ∃ enc enc1 dec dec1,
      NewRiceGolombEncoder (some ([] : List Bool)) true 1 = .ok enc ∧
      encodeAll listOutput enc [0, 128, 255, 1, 127] = (none, enc1) ∧
      NewRiceGolombDecoder (some enc1.bitstream) true 1 = .ok dec ∧
      decodeAll listInput 127 ([0, 128, 255, 1, 127] : List Byte).length dec =
        (some [0, 128, 255, 1, 127], dec1) ∧ dec1.bitstream = [] :=
  ⟨by decide, by decide, by decide,
    RiceGolomb_roundtrip true 1 (by decide) (by decide) [0, 128, 255, 1, 127] 127 (by decide)⟩

/-- C4. For every `logBase` in [1,7] and every non-zero byte with magnitude `m`, the bits
`EncodeByte` writes are `m >> logBase` zero bits, a one bit and the `logBase` bits of
`m & (2^logBase - 1)`, followed in signed mode by the high bit of the byte: in all
`q + 1 + logBase` bits, one more in signed mode. -/
theorem EncodeByte_nonzero_bits (signed : Bool) (lb : Nat) (h1 : 1 ≤ lb) (h7 : lb ≤ 7)
    (v : Byte) (hv : v ≠ 0) (s : List Bool) :
    ∃ enc enc1, NewRiceGolombEncoder (some s) signed lb = .ok enc ∧
      RiceGolombEncoder.EncodeByte listOutput enc v = (none, enc1) ∧
      enc1.bitstream = s ++ (List.replicate ((magnitude signed v).val >>> lb) false ++ [true] ++
        bitsMSB ((magnitude signed v).val &&& (2 ^ lb - 1)) lb ++
        (if signed = true then [decide (128 ≤ v.val)] else [])) ∧
      enc1.bitstream.length = s.length + ((magnitude signed v).val >>> lb) + 1 + lb +
        (if signed = true then 1 else 0) := by
  have hb := (zero_facts lb (by omega)).2.2
  refine ⟨⟨signed, lb, 2 ^ lb, s⟩, ⟨signed, lb, 2 ^ lb, s ++ codeword signed lb v⟩, ?_,
    encode_codeword signed lb h1 h7 v s, ?_, ?_⟩
  · simp only [NewRiceGolombEncoder, hb]
    rw [if_neg (by omega)]
  · simp only [codeword, hv, if_false]
  · simp only [codeword, hv, if_false, List.length_append, List.length_replicate,
      bitsMSB_length, List.length_singleton]
    cases signed <;> simp <;> omega

set_option maxRecDepth 100000 in
theorem EncodeByte_nonzero_bits_witness :
    1 ≤ 3 ∧ 3 ≤ 7 ∧ (10 : Byte) ≠ 0 ∧ ∃ enc enc1,
      NewRiceGolombEncoder (some ([] : List Bool)) false 3 = .ok enc ∧
      RiceGolombEncoder.EncodeByte listOutput enc 10 = (none, enc1) ∧
      enc1.bitstream = [false, true, false, true, false] := by
  refine ⟨by decide, by decide, by decide, ?_⟩
  obtain ⟨enc, enc1, h1, h2, h3, _⟩ :=
    EncodeByte_nonzero_bits false 3 (by decide) (by decide) 10 (by decide) []
  exact ⟨enc, enc1, h1, h2, by rw [h3]; decide⟩

/-- C5. For every `logBase` in [1,7] and both values of `signed`, `EncodeByte(0)` writes a
one bit followed by `logBase` zero bits, `logBase + 1` bits in all, and no sign bit. -/
theorem EncodeByte_zero_bits (signed : Bool) (lb : Nat) (h1 : 1 ≤ lb) (h7 : lb ≤ 7)
    (s : List Bool) :
    ∃ enc enc1, NewRiceGolombEncoder (some s) signed lb = .ok enc ∧
      RiceGolombEncoder.EncodeByte listOutput enc 0 = (none, enc1) ∧
      enc1.bitstream = s ++ true :: List.replicate lb false ∧
      enc1.bitstream.length = s.length + (lb + 1) := by
  have hb := (zero_facts lb (by omega)).2.2
  refine ⟨⟨signed, lb, 2 ^ lb, s⟩, ⟨signed, lb, 2 ^ lb, s ++ codeword signed lb 0⟩, ?_,
    encode_codeword signed lb h1 h7 0 s, ?_, ?_⟩
  · simp only [NewRiceGolombEncoder, hb]
    rw [if_neg (by omega)]
  · simp only [codeword, if_true]
  · simp only [codeword, if_true, List.length_append, List.length_cons,
      List.length_replicate]

theorem EncodeByte_zero_bits_witness :
    1 ≤ 3 ∧ 3 ≤ 7 ∧ ∃ enc enc1,
      NewRiceGolombEncoder (some ([] : List Bool)) true 3 = .ok enc ∧
      RiceGolombEncoder.EncodeByte listOutput enc 0 = (none, enc1) ∧
      enc1.bitstream = [] ++ true :: List.replicate 3 false ∧
      enc1.bitstream.length = ([] : List Bool).length + (3 + 1) :=
  ⟨by decide, by decide, EncodeByte_zero_bits true 3 (by decide) (by decide) []⟩

set_option maxRecDepth 100000 in
theorem decodedMagnitude_wraps : decodedMagnitude 7 (2 ^ 57) 0 = 0 := by
  decide

/-- A signed decoder with `logBase` 7 on a stream of `2 ^ 57` zero bits, a one bit, seven
zero bits and a sign bit: the number `(q << logBase) | r` is `2 ^ 64`, not 0, but the 64-bit
`int` that `DecodeByte` holds is 0, so it returns 0 and leaves the sign bit unread. -/
theorem DecodeByte_reads_codeword_counterexample :
    (2 ^ 57 <<< 7 ||| 0 : Nat) ≠ 0 ∧
    RiceGolombDecoder.DecodeByte listInput (2 ^ 57)
        ⟨true, 7, List.replicate (2 ^ 57) false ++ true :: (bitsMSB 0 7 ++ [true])⟩ =
      (some (0, none), ⟨true, 7, [true]⟩) ∧
    ¬ (∀ s rest1, [true] = s :: rest1 →
      RiceGolombDecoder.DecodeByte listInput (2 ^ 57)
          ⟨true, 7, List.replicate (2 ^ 57) false ++ true :: (bitsMSB 0 7 ++ [true])⟩ =
        (some (if s = true then byteOfInt (-((2 ^ 57 <<< 7 ||| 0 : Nat) : Int))
          else byteOfNat (2 ^ 57 <<< 7 ||| 0), none), ⟨true, 7, rest1⟩)) := by
  have hd := decode_stream64 true 7 (2 ^ 57) 0 (2 ^ 57) [true] (by decide) (Nat.le_refl _)
  rw [decodedMagnitude_wraps, if_neg (by simp)] at hd
  have hz : byteOfInt 0 = (0 : Byte) := rfl
  rw [hz] at hd
  refine ⟨by decide, hd, ?_⟩
  intro h
  have h2 := h true [] rfl
  rw [hd] at h2
  simp only [Prod.mk.injEq, RiceGolombDecoder.mk.injEq] at h2
  exact absurd h2.2.2.2 (by simp)

/-- C6. On a readable stream that starts with `q` zero bits, a one bit and the `logBase`
bits of `r`, `DecodeByte` computes the magnitude `(q << logBase) | r` in 64-bit `int`
arithmetic, which is the number `(q << logBase) | r` when `q < 2 ^ (63 - logBase)`; an
unsigned decoder, or a zero magnitude, reads nothing more and returns the magnitude as a
byte; a signed decoder with a non-zero magnitude reads one more bit and returns the
magnitude when that bit is 0 and its two's-complement negation as a byte when it is 1. -/
theorem DecodeByte_reads_codeword (signed : Bool) (lb q r fuel : Nat) (rest : List Bool)
    (h1 : 1 ≤ lb) (h7 : lb ≤ 7) (hr : r < 2 ^ lb) (hf : q ≤ fuel) :
    ∃ dec, NewRiceGolombDecoder
        (some (List.replicate q false ++ true :: (bitsMSB r lb ++ rest))) signed lb = .ok dec ∧
      ((signed = false ∨ decodedMagnitude lb q r = 0) →
        RiceGolombDecoder.DecodeByte listInput fuel dec =
          (some (byteOfInt (decodedMagnitude lb q r), none), ⟨signed, lb, rest⟩)) ∧
      (signed = true → decodedMagnitude lb q r ≠ 0 → ∀ s rest1, rest = s :: rest1 →
        RiceGolombDecoder.DecodeByte listInput fuel dec =
          (some (if s = true then byteOfInt (-(decodedMagnitude lb q r))
            else byteOfInt (decodedMagnitude lb q r), none), ⟨signed, lb, rest1⟩)) ∧
      (q < 2 ^ (63 - lb) →
        decodedMagnitude lb q r = ((q <<< lb ||| r : Nat) : Int) ∧
        ((signed = false ∨ (q <<< lb ||| r) = 0) →
          RiceGolombDecoder.DecodeByte listInput fuel dec =
            (some (byteOfNat (q <<< lb ||| r), none), ⟨signed, lb, rest⟩)) ∧
        (signed = true → (q <<< lb ||| r) ≠ 0 → ∀ s rest1, rest = s :: rest1 →
          RiceGolombDecoder.DecodeByte listInput fuel dec =
            (some (if s = true then byteOfInt (-((q <<< lb ||| r : Nat) : Int))
              else byteOfNat (q <<< lb ||| r), none), ⟨signed, lb, rest1⟩))) := by
  refine ⟨⟨signed, lb, List.replicate q false ++ true :: (bitsMSB r lb ++ rest)⟩, ?_, ?_, ?_,
    ?_⟩
  · simp only [NewRiceGolombDecoder]
    rw [if_neg (by omega)]
  · intro h
    rw [decode_stream64 signed lb q r fuel rest hr hf, if_neg]
    intro hc
    rcases h with h | h
    · rw [h] at hc; simp at hc
    · exact hc.1 h
  · intro hs hm s rest1 hrest
    subst hrest
    rw [decode_stream64 signed lb q r fuel (s :: rest1) hr hf, if_pos ⟨hm, hs⟩]
  · intro hq
    refine ⟨decodedMagnitude_small lb q r h7 hr hq, ?_, ?_⟩
    · intro h
      rw [decode_stream signed lb q r fuel rest h7 hr hf hq, if_neg]
      intro hc
      rcases h with h | h
      · rw [h] at hc; simp at hc
      · exact hc.1 h
    · intro hs hm s rest1 hrest
      subst hrest
      rw [decode_stream signed lb q r fuel (s :: rest1) h7 hr hf hq, if_pos ⟨hm, hs⟩]

set_option maxRecDepth 100000 in
theorem DecodeByte_reads_codeword_witness :
    1 ≤ 3 ∧ 3 ≤ 7 ∧ 2 < 2 ^ 3 ∧ 1 ≤ 1 ∧
    RiceGolombDecoder.DecodeByte listInput 1 ⟨false, 3, [false, true, false, true, false]⟩ =
      (some (10, none), ⟨false, 3, []⟩) ∧
    RiceGolombDecoder.DecodeByte listInput 1
        ⟨true, 3, [false, true, false, true, false, true]⟩ =
      (some (246, none), ⟨true, 3, []⟩) := by
  refine ⟨by decide, by decide, by decide, by decide, ?_, ?_⟩
  · obtain ⟨dec, hd, h, _⟩ :=
      DecodeByte_reads_codeword false 3 1 2 1 [] (by decide) (by decide) (by decide) (by decide)
    have hdec : dec = ⟨false, 3, [false, true, false, true, false]⟩ := by
      have : NewRiceGolombDecoder (some (List.replicate 1 false ++ true :: (bitsMSB 2 3 ++ [])))
          false 3 = .ok ⟨false, 3, [false, true, false, true, false]⟩ := rfl
      rw [this] at hd
      exact (Except.ok.inj hd).symm
    rw [← hdec, h (Or.inl rfl)]
    rfl
  · obtain ⟨dec, hd, _, h, _⟩ :=
      DecodeByte_reads_codeword true 3 1 2 1 [true] (by decide) (by decide) (by decide)
        (by decide)
    have hdec : dec = ⟨true, 3, [false, true, false, true, false, true]⟩ := by
      have : NewRiceGolombDecoder
          (some (List.replicate 1 false ++ true :: (bitsMSB 2 3 ++ [true]))) true 3 =
          .ok ⟨true, 3, [false, true, false, true, false, true]⟩ := rfl
      rw [this] at hd
      exact (Except.ok.inj hd).symm
    rw [← hdec, h rfl (by decide) true [] rfl]
    rfl

/-- C7. `NewRiceGolombEncoder` and `NewRiceGolombDecoder` return an error exactly when the
bit stream is nil or `logBase` is outside [1,7]; otherwise they return a codec that holds
the given stream untouched, the given `signed` and `logBase` and, for the encoder,
`base = 2^logBase`. -/
theorem constructors_validate (σ : Type) (bs : Option σ) (sgn : Bool) (lb : Nat) :
    ((∃ msg, NewRiceGolombEncoder bs sgn lb = .error msg) ↔ (bs = none ∨ lb < 1 ∨ 7 < lb)) ∧
    ((∃ msg, NewRiceGolombDecoder bs sgn lb = .error msg) ↔ (bs = none ∨ lb < 1 ∨ 7 < lb)) ∧
    (∀ s, bs = some s → 1 ≤ lb → lb ≤ 7 →
      NewRiceGolombEncoder bs sgn lb = .ok ⟨sgn, lb, 2 ^ lb, s⟩ ∧
      NewRiceGolombDecoder bs sgn lb = .ok ⟨sgn, lb, s⟩) := by
  refine ⟨?_, ?_, ?_⟩
  · cases bs with
    | none => simp [NewRiceGolombEncoder]
    | some s =>
      simp only [NewRiceGolombEncoder]
      by_cases h : lb ≤ 0 ∨ lb ≥ 8
      · rw [if_pos h]; simp; omega
      · rw [if_neg h]; simp; omega
  · cases bs with
    | none => simp [NewRiceGolombDecoder]
    | some s =>
      simp only [NewRiceGolombDecoder]
      by_cases h : lb ≤ 0 ∨ lb ≥ 8
      · rw [if_pos h]; simp; omega
      · rw [if_neg h]; simp; omega
  · intro s hs h1 h7
    subst hs
    have hb := (zero_facts lb (by omega)).2.2
    have hn : ¬(lb ≤ 0 ∨ lb ≥ 8) := by omega
    simp only [NewRiceGolombEncoder, NewRiceGolombDecoder, hb, if_neg hn, and_self]

theorem AllOk_nil {ε : Type} : AllOk ([] : List (ReadCall × Except ε Int)) := by
  intro x hx; simp at hx

theorem AllOk_cons {ε : Type} (c : ReadCall) (v : Int) (l : List (ReadCall × Except ε Int))
    (h : AllOk l) : AllOk ((c, .ok v) :: l) := by
  intro x hx
  rcases List.mem_cons.mp hx with h1 | h1
  · exact ⟨v, by rw [h1]⟩
  · exact h x h1

/-- The unary loop on a recording channel: it returns what it returns on the channel
itself, it only appends to the record, and it returns an error exactly when the last read
it issued failed with that error, every read before it having succeeded. -/
theorem unaryLoop_logged {σ ε : Type} (bs : InputBitStream σ ε) :
    ∀ (fuel : Nat) (q bit : Int) (s : σ) (log : List (ReadCall × Except ε Int)),
      (unaryLoop (loggedInput bs) fuel q bit (s, log)).1 = (unaryLoop bs fuel q bit s).1 ∧
      (unaryLoop (loggedInput bs) fuel q bit (s, log)).2.1 = (unaryLoop bs fuel q bit s).2 ∧
      ∃ ext, (unaryLoop (loggedInput bs) fuel q bit (s, log)).2.2 = log ++ ext ∧
        ((∃ err pre c, (unaryLoop bs fuel q bit s).1 = some (.error err) ∧
            ext = pre ++ [(c, .error err)] ∧ AllOk pre) ∨
          ((∀ err, (unaryLoop bs fuel q bit s).1 ≠ some (.error err)) ∧ AllOk ext)) := by
  intro fuel
  induction fuel with
  | zero =>
    intro q bit s log
    rw [unaryLoop.eq_def, unaryLoop.eq_def bs]
    by_cases hb : bit = 0
    · simp only [hb, if_true]
      exact ⟨trivial, trivial, [], by simp, Or.inr ⟨by simp, AllOk_nil⟩⟩
    · simp only [hb, if_false]
      exact ⟨trivial, trivial, [], by simp, Or.inr ⟨by simp, AllOk_nil⟩⟩
  | succ f ih =>
    intro q bit s log
    rw [unaryLoop.eq_def, unaryLoop.eq_def bs]
    by_cases hb : bit = 0
    · simp only [hb, if_true, loggedInput]
      rcases hr : bs.ReadBit s with ⟨res, s1⟩
      cases res with
      | error err =>
        simp only
        exact ⟨trivial, trivial, [(ReadCall.readBit, .error err)], rfl,
          Or.inl ⟨err, [], ReadCall.readBit, rfl, rfl, AllOk_nil⟩⟩
      | ok b =>
        simp only
        obtain ⟨h1, h2, ext, h3, h4⟩ :=
          ih (toInt64 (q + 1)) b s1 (log ++ [(ReadCall.readBit, .ok b)])
        simp only [loggedInput] at h1 h2 h3
        refine ⟨h1, h2, (ReadCall.readBit, .ok b) :: ext, ?_, ?_⟩
        · rw [h3]; simp
        · rcases h4 with ⟨err, pre, c, e1, e2, e3⟩ | ⟨e1, e2⟩
          · exact Or.inl ⟨err, (ReadCall.readBit, .ok b) :: pre, c, e1, by rw [e2]; rfl,
              AllOk_cons _ _ _ e3⟩
          · exact Or.inr ⟨e1, AllOk_cons _ _ _ e2⟩
    · simp only [hb, if_false]
      exact ⟨trivial, trivial, [], by simp, Or.inr ⟨by simp, AllOk_nil⟩⟩

theorem logged_ReadBit {σ ε : Type} (bs : InputBitStream σ ε) (s : σ)
    (log : List (ReadCall × Except ε Int)) :
    (loggedInput bs).ReadBit (s, log) =
      ((bs.ReadBit s).1, ((bs.ReadBit s).2, log ++ [(ReadCall.readBit, (bs.ReadBit s).1)])) :=
  rfl

theorem logged_ReadBits {σ ε : Type} (bs : InputBitStream σ ε) (s : σ)
    (log : List (ReadCall × Except ε Int)) (n : Nat) :
    (loggedInput bs).ReadBits (s, log) n =
      ((bs.ReadBits s n).1, ((bs.ReadBits s n).2,
        log ++ [(ReadCall.readBits n, (bs.ReadBits s n).1.map (fun v => (v : Int)))])) :=
  rfl

theorem AllOk_append_ok {ε : Type} (l : List (ReadCall × Except ε Int)) (c : ReadCall)
    (v : Int) (h : AllOk l) : AllOk (l ++ [(c, .ok v)]) := by
  intro x hx
  rcases List.mem_append.mp hx with h1 | h1
  · exact h x h1
  · simp at h1; exact ⟨v, by rw [h1]⟩

/-- C8. `DecodeByte` returns an error exactly when one of the reads it issues on the bit
channel fails: the error returned is the error of that read, every read issued before it
succeeded, and it is the last read issued. The record of a recording channel shows the
reads; the result is the one `DecodeByte` returns on the channel itself. -/
theorem DecodeByte_error_propagation {σ ε : Type} (bs : InputBitStream σ ε) (signed : Bool)
    (lb fuel : Nat) (s : σ) :
    (RiceGolombDecoder.DecodeByte (loggedInput bs) fuel ⟨signed, lb, (s, [])⟩).1 =
      (RiceGolombDecoder.DecodeByte bs fuel ⟨signed, lb, s⟩).1 ∧
    ∃ pre, AllOk pre ∧
      ((∃ b, (RiceGolombDecoder.DecodeByte bs fuel ⟨signed, lb, s⟩).1 = some (b, none) ∧
          (RiceGolombDecoder.DecodeByte (loggedInput bs) fuel
            ⟨signed, lb, (s, [])⟩).2.bitstream.2 = pre) ∨
        (∃ b c err,
          (RiceGolombDecoder.DecodeByte bs fuel ⟨signed, lb, s⟩).1 = some (b, some err) ∧
          (RiceGolombDecoder.DecodeByte (loggedInput bs) fuel
            ⟨signed, lb, (s, [])⟩).2.bitstream.2 = pre ++ [(c, .error err)]) ∨
        ((RiceGolombDecoder.DecodeByte bs fuel ⟨signed, lb, s⟩).1 = none ∧
          (RiceGolombDecoder.DecodeByte (loggedInput bs) fuel
            ⟨signed, lb, (s, [])⟩).2.bitstream.2 = pre)) := by
  unfold RiceGolombDecoder.DecodeByte
  simp only [logged_ReadBit, logged_ReadBits, List.nil_append]
  rcases hr : bs.ReadBit s with ⟨res, s1⟩
  cases res with
  | error err =>
    exact ⟨by trivial, [], AllOk_nil, Or.inr (Or.inl ⟨0, ReadCall.readBit, err, by trivial, by trivial⟩)⟩
  | ok bit =>
    simp only
    obtain ⟨h1, h2, ext, h3, h4⟩ :=
      unaryLoop_logged bs fuel 0 bit s1 [(ReadCall.readBit, .ok bit)]
    rcases hU : unaryLoop (loggedInput bs) fuel 0 bit (s1, [(ReadCall.readBit, .ok bit)]) with
      ⟨ures, us, ulog⟩
    rcases hV : unaryLoop bs fuel 0 bit s1 with ⟨vres, vs⟩
    simp only [hU, hV] at h1 h2 h3 h4
    subst h1 h2 h3
    cases ures with
    | none =>
      rcases h4 with ⟨err, pre, c, e1, _⟩ | ⟨_, e2⟩
      · simp at e1
      · exact ⟨by trivial, _, AllOk_cons _ _ _ e2, Or.inr (Or.inr ⟨by trivial, by trivial⟩)⟩
    | some ur =>
      cases ur with
      | error err =>
        rcases h4 with ⟨err1, pre, c, e1, e2, e3⟩ | ⟨e1, _⟩
        · have : err = err1 := by simpa using e1
          subst this
          refine ⟨by trivial, (ReadCall.readBit, .ok bit) :: pre, AllOk_cons _ _ _ e3,
            Or.inr (Or.inl ⟨0, c, err, by trivial, ?_⟩)⟩
          simp only [e2]; rfl
        · exact absurd rfl (e1 err)
      | ok q =>
        have hpre : AllOk ((ReadCall.readBit, (.ok bit : Except ε Int)) :: ext) := by
          rcases h4 with ⟨err1, pre, c, e1, _⟩ | ⟨_, e2⟩
          · simp at e1
          · exact AllOk_cons _ _ _ e2
        simp only [logged_ReadBits]
        rcases hb : bs.ReadBits us lb with ⟨rres, s3⟩
        cases rres with
        | error err2 =>
          refine ⟨by trivial, (ReadCall.readBit, .ok bit) :: ext, hpre,
            Or.inr (Or.inl ⟨0, ReadCall.readBits lb, err2, by trivial,
              by trivial⟩)⟩
        | ok r =>
          simp only [Except.map]
          by_cases hc : Int.lor (toInt64 (q * 2 ^ lb)) (toInt64 (r : Int)) ≠ 0 ∧ signed = true
          · simp only [hc, ne_eq, not_false_eq_true, and_self, if_true, logged_ReadBit]
            rcases hs : bs.ReadBit s3 with ⟨sres, s4⟩
            cases sres with
            | error err =>
              refine ⟨by trivial,
                ((ReadCall.readBit, .ok bit) :: ext) ++ [(ReadCall.readBits lb, .ok (r : Int))],
                AllOk_append_ok _ _ _ hpre,
                Or.inr (Or.inl ⟨_, ReadCall.readBit, err, by trivial,
                  by trivial⟩)⟩
            | ok sb =>
              simp only
              by_cases h1 : sb = 1
              · simp only [h1, if_true]
                refine ⟨by trivial,
                  (((ReadCall.readBit, .ok bit) :: ext) ++
                    [(ReadCall.readBits lb, .ok (r : Int))]) ++ [(ReadCall.readBit, .ok 1)],
                  AllOk_append_ok _ _ _ (AllOk_append_ok _ _ _ hpre),
                  Or.inl ⟨_, by trivial, by trivial⟩⟩
              · simp only [h1, if_false]
                refine ⟨by trivial,
                  (((ReadCall.readBit, .ok bit) :: ext) ++
                    [(ReadCall.readBits lb, .ok (r : Int))]) ++ [(ReadCall.readBit, .ok sb)],
                  AllOk_append_ok _ _ _ (AllOk_append_ok _ _ _ hpre),
                  Or.inl ⟨_, by trivial, by trivial⟩⟩
          · simp only [hc, if_false]
            refine ⟨by trivial,
              ((ReadCall.readBit, .ok bit) :: ext) ++ [(ReadCall.readBits lb, .ok (r : Int))],
              AllOk_append_ok _ _ _ hpre,
              Or.inl ⟨_, by trivial, by trivial⟩⟩

/-- C9. For every byte, `EncodeByte` issues exactly one `WriteBits` call on the bit
channel, returns the error of that call, nil or not, and leaves `signed`, `logBase` and
`base` as they were. -/
theorem EncodeByte_single_write {σ ε : Type} (bs : OutputBitStream σ ε) (signed : Bool)
    (lb base : Nat) (s : σ) (v : Byte) :
    ∃ value n,
      (RiceGolombEncoder.EncodeByte (loggedOutput bs) ⟨signed, lb, base, (s, [])⟩ v).2.bitstream.2
        = [(value, n, (bs.WriteBits s value n).1.2)] ∧
      (RiceGolombEncoder.EncodeByte (loggedOutput bs) ⟨signed, lb, base, (s, [])⟩ v).1 =
        (bs.WriteBits s value n).1.2 ∧
      (RiceGolombEncoder.EncodeByte bs ⟨signed, lb, base, s⟩ v) =
        ((bs.WriteBits s value n).1.2, ⟨signed, lb, base, (bs.WriteBits s value n).2⟩) ∧
      (RiceGolombEncoder.EncodeByte (loggedOutput bs) ⟨signed, lb, base, (s, [])⟩ v).2.signed
        = signed ∧
      (RiceGolombEncoder.EncodeByte (loggedOutput bs) ⟨signed, lb, base, (s, [])⟩ v).2.logBase
        = lb ∧
      (RiceGolombEncoder.EncodeByte (loggedOutput bs) ⟨signed, lb, base, (s, [])⟩ v).2.base
        = base := by
  unfold RiceGolombEncoder.EncodeByte
  by_cases hv : v = 0
  · simp only [hv, if_true, loggedOutput]
    exact ⟨_, _, by trivial, by trivial, by trivial, by trivial, by trivial, by trivial⟩
  · cases signed with
    | false =>
      simp only [hv, if_false, loggedOutput, Bool.false_eq_true]
      exact ⟨_, _, by trivial, by trivial, by trivial, by trivial, by trivial, by trivial⟩
    | true =>
      simp only [hv, if_false, if_true, loggedOutput]
      exact ⟨_, _, by trivial, by trivial, by trivial, by trivial, by trivial, by trivial⟩

/-- The bit count `n` of `EncodeByte` as an expression of the mode, `logBase` and the byte. -/
theorem requestedBits_eq {σ ε : Type} (bs : OutputBitStream σ ε) (signed : Bool)
    (lb base : Nat) (s : σ) (v : Byte) :
    requestedBits bs ⟨signed, lb, base, s⟩ v =
      [if v = 0 then u64 (lb + 1)
        else if signed = true then u64 (u64 (u64 (1 + ((magnitude true v).val >>> lb)) + lb) + 1)
        else u64 (u64 (1 + (v.val >>> lb)) + lb)] := by
  unfold requestedBits RiceGolombEncoder.EncodeByte
  by_cases hv : v = 0
  · simp only [hv, if_true, loggedOutput]
    rfl
  · cases signed with
    | false =>
      simp only [hv, if_false, loggedOutput, Bool.false_eq_true, magnitude]
      rfl
    | true =>
      simp only [hv, if_false, if_true, loggedOutput]
      rfl

set_option maxRecDepth 1000000 in
set_option maxHeartbeats 4000000 in
theorem bitCount_facts : ∀ lb, lb < 8 → lb = 0 ∨ (
    ((∀ v : Byte, (if v = 0 then u64 (lb + 1) else u64 (u64 (1 + (v.val >>> lb)) + lb)) ≤ 64)
      ↔ 3 ≤ lb) ∧
    ((∀ v : Byte, (if v = 0 then u64 (lb + 1)
        else u64 (u64 (u64 (1 + ((magnitude true v).val >>> lb)) + lb) + 1)) ≤ 64) ↔ 2 ≤ lb)) := by
  decide

set_option maxRecDepth 1000000 in
set_option maxHeartbeats 4000000 in
/-- C17. In signed mode the magnitude byte of `EncodeByte` is the absolute value of the
byte read as an `int8`, for every byte whose `int8` value is not -128; for the byte 0x80,
whose `int8` value is -128, it is the byte 128; in unsigned mode it is the byte itself. -/
theorem magnitude_abs :
    (∀ v : Byte, int8OfByte v ≠ -128 →
      ((magnitude true v).val : Int) = |int8OfByte v| ∧ (magnitude true v).val ≤ 127) ∧
    int8OfByte 128 = -128 ∧ magnitude true 128 = 128 ∧
    ((magnitude true 128).val : Int) = |int8OfByte 128| ∧
    (∀ v : Byte, magnitude false v = v) := by
  decide

/-- C18. The bit count of the one `WriteBits` call of `EncodeByte` is at most 64 for every
byte exactly when `logBase` is at least 3 in unsigned mode and at least 2 in signed mode;
unsigned, `logBase` 1 asks for 129 bits and `logBase` 2 for 66 bits on the byte 255;
signed, `logBase` 1 asks for 67 bits on the byte 0x80. -/
theorem EncodeByte_bit_count {σ ε : Type} (bs : OutputBitStream σ ε) (s : σ) :
    (∀ lb base, 1 ≤ lb → lb ≤ 7 →
      ((∀ v, ∀ n ∈ requestedBits bs ⟨false, lb, base, s⟩ v, n ≤ 64) ↔ 3 ≤ lb)) ∧
    (∀ lb base, 1 ≤ lb → lb ≤ 7 →
      ((∀ v, ∀ n ∈ requestedBits bs ⟨true, lb, base, s⟩ v, n ≤ 64) ↔ 2 ≤ lb)) ∧
    (∀ base, requestedBits bs ⟨false, 1, base, s⟩ 255 = [129]) ∧
    (∀ base, requestedBits bs ⟨false, 2, base, s⟩ 255 = [66]) ∧
    (∀ base, requestedBits bs ⟨true, 1, base, s⟩ 128 = [67]) := by
  refine ⟨?_, ?_, ?_, ?_, ?_⟩
  · intro lb base h1 h7
    rcases bitCount_facts lb (by omega) with h | ⟨hu, _⟩
    · omega
    rw [← hu]
    simp only [requestedBits_eq, List.mem_singleton, forall_eq, Bool.false_eq_true, if_false]
  · intro lb base h1 h7
    rcases bitCount_facts lb (by omega) with h | ⟨_, hs⟩
    · omega
    rw [← hs]
    simp only [requestedBits_eq, List.mem_singleton, forall_eq, if_true]
  · intro base
    rw [requestedBits_eq]
    decide
  · intro base
    rw [requestedBits_eq]
    decide
  · intro base
    rw [requestedBits_eq]
    decide

theorem Chain_setBuckets (m : MTFT) (ord : Nat → Nat) (idx : List Byte) (hc : Chain m ord)
    (hl : idx.length = 256) : Chain { m with buckets := idx } ord :=
  ⟨hc.inj, hc.next_ok, hc.prev_ok, hc.head0, hc.heads_len, hc.lengths_len, hl⟩

theorem identityList_nodup : identityList.Nodup := by
  unfold identityList
  refine List.Nodup.map_on ?_ (List.nodup_range 256)
  intro a ha b hb hab
  rw [List.mem_range] at ha hb
  exact byteOfNat_inj a b ha hb hab

/-- The reference transform undoes the reference inverse on any duplicate-free list of
256 bytes. -/
theorem mtfRanks_decode :
    ∀ (R t : List Byte), t.Nodup → t.length = 256 →
      mtfRanks t (mtfDecode t R) = R.map Fin.val := by
  intro R
  induction R with
  | nil => intro t _ _; rfl
  | cons r rest ih =>
    intro t hn hl
    have hr : r.val < t.length := by rw [hl]; exact r.isLt
    have hget : t.getD r.val 0 = t[r.val] := by
      rw [List.getD_eq_getElem?_getD, List.getElem?_eq_getElem hr]; rfl
    have hidx : t.indexOf t[r.val] = r.val := List.indexOf_getElem hn r.val hr
    have herase : t.eraseIdx r.val = t.erase t[r.val] := by
      rw [← List.eraseIdx_indexOf_eq_erase, hidx]
    simp only [mtfDecode, mtfRanks, List.map_cons, hget, hidx, herase]
    rw [ih]
    · refine List.nodup_cons.mpr ⟨?_, hn.erase _⟩
      exact fun h => (List.Nodup.mem_erase_iff hn).mp h |>.1 rfl
    · rw [List.length_cons, List.length_erase_of_mem (List.getElem_mem _), hl]

theorem map_val_inj (a b : List Byte) (h : a.map Fin.val = b.map Fin.val) : a = b :=
  List.map_injective_iff.mpr Fin.val_injective h

theorem byteOfNat_map_val (R : List Byte) : (R.map Fin.val).map byteOfNat = R := by
  induction R with
  | nil => rfl
  | cons r rest ih =>
    simp only [List.map_cons, ih]
    congr 1
    exact Fin.ext (byteOfNat_val r.val r.isLt)

/-- C19. On an MTFT built by `NewMTFT(0)`, `Inverse` returns on every byte buffer `R` a
buffer of the same length, and `Forward` of that buffer is `R` again, element for element,
on the instance that ran `Inverse` and on a fresh one; with the round trip in the other
direction, `Forward` and `Inverse` are mutually inverse on byte buffers of each length. -/
theorem Forward_Inverse_bijection (R B : List Byte) (fuel : Nat) (hfuel : 63 ≤ fuel) :
    ∃ m m1 dec m2 m3 m4 out m5, NewMTFT 0 = some m ∧
      m.Inverse R = .ok (m1, dec) ∧ dec.length = R.length ∧
      m1.Forward fuel dec = .ok (m2, R) ∧ m.Forward fuel dec = .ok (m3, R) ∧
      m.Forward fuel B = .ok (m4, out) ∧ out.length = B.length ∧
      m.Inverse out = .ok (m5, B) := by
  obtain ⟨m, hm, hR, hsz, _⟩ := NewMTFT_ok 0
  obtain ⟨i1, hi1, hI⟩ := Inverse_ok m hR.buckets_len R (by rw [hsz]; omega)
  rw [hsz, extent_zero, List.take_length, List.drop_length, List.append_nil] at hI
  have hdl : (mtfDecode identityList R).length = R.length := mtfDecode_length R identityList
  have henc : (mtfRanks identityList (mtfDecode identityList R)).map byteOfNat = R := by
    rw [mtfRanks_decode R identityList identityList_nodup (by simp [identityList]),
      byteOfNat_map_val]
  have hc1 : Chain { m with buckets := i1 } (fun k => k) :=
    Chain_setBuckets m _ i1 hR.toChain hi1
  obtain ⟨m2, _, _, hF1, _, _, _⟩ :=
    Forward_ok { m with buckets := i1 } _ hc1 fuel hfuel (mtfDecode identityList R)
      (by show m.size ≤ _; rw [hsz]; omega)
  obtain ⟨m3, _, _, hF2, _, _, _⟩ :=
    Forward_ok m _ hR.toChain fuel hfuel (mtfDecode identityList R) (by rw [hsz]; omega)
  have hs1 : ({ m with buckets := i1 } : MTFT).size = 0 := hsz
  rw [hs1, extent_zero, List.take_length, List.drop_length, List.append_nil, henc] at hF1
  rw [hsz, extent_zero, List.take_length, List.drop_length, List.append_nil, henc] at hF2
  obtain ⟨m4, _, _, hF, _, _, _⟩ :=
    Forward_ok m _ hR.toChain fuel hfuel B (by rw [hsz]; omega)
  rw [hsz, extent_zero, List.take_length, List.drop_length, List.append_nil] at hF
  obtain ⟨i2, _, hI2⟩ := Inverse_ok m hR.buckets_len
    ((mtfRanks identityList B).map byteOfNat) (by rw [hsz]; omega)
  rw [hsz, extent_zero, List.take_length, List.drop_length, List.append_nil,
    mtfDecode_ranks B identityList Full_identity] at hI2
  exact ⟨m, _, _, m2, m3, m4, _, _, hm, hI, hdl, hF1, hF2, hF,
    by rw [List.length_map, mtfRanks_length], hI2⟩

theorem Forward_Inverse_bijection_witness :
    63 ≤ 63 ∧ ∃ m m1 dec m2 m3 m4 out m5, NewMTFT 0 = some m ∧
      m.Inverse [65, 0, 66, 1, 3] = .ok (m1, dec) ∧
      dec.length = ([65, 0, 66, 1, 3] : List Byte).length ∧
      m1.Forward 63 dec = .ok (m2, [65, 0, 66, 1, 3]) ∧
      m.Forward 63 dec = .ok (m3, [65, 0, 66, 1, 3]) ∧
      m.Forward 63 [7, 7, 200] = .ok (m4, out) ∧
      out.length = ([7, 7, 200] : List Byte).length ∧
      m.Inverse out = .ok (m5, [7, 7, 200]) :=
  ⟨Nat.le_refl _, Forward_Inverse_bijection [65, 0, 66, 1, 3] [7, 7, 200] 63 (Nat.le_refl _)⟩

theorem getLast_cons_getD (c : Byte) (mid : List Byte) (p : Byte) :
    ((c :: mid).getLast?).getD p = (mid.getLast?).getD c := by
  cases mid with
  | nil => rfl
  | cons d rest =>
    rw [List.getLast?_cons_cons]
    obtain ⟨x, hx⟩ : ∃ x, (d :: rest).getLast? = some x :=
      ⟨_, List.getLast?_eq_getLast _ (by simp)⟩
    rw [hx]
    rfl

/-- The first rounds of the loop of `moveToFront` over the middle part of a buffer replace
it with the reference ranks, leave the other parts alone, and reach a rank structure whose
front value is `previous`, the last symbol read. -/
theorem run_ok (fuel : Nat) (hfuel : 63 ≤ fuel) :
    ∀ (mid pre post : List Byte) (m : MTFT) (ord L : Nat → Nat) (previous : Byte),
      Rep m ord L → previous = (m.nodes (ord 0)).value →
      ∃ m1 ord1 L1 p1,
        moveToFront.run fuel mid.length pre.length m (pre ++ mid ++ post) previous =
          .ok (m1, pre ++ (mtfRanks (table m ord) mid).map byteOfNat ++ post, p1) ∧
        Rep m1 ord1 L1 ∧ p1 = (m1.nodes (ord1 0)).value ∧
        p1 = (mid.getLast?).getD previous ∧ m1.size = m.size := by
  intro mid
  induction mid with
  | nil =>
    intro pre post m ord L previous hR hp
    exact ⟨m, ord, L, previous, by simp [moveToFront.run, mtfRanks], hR, hp, rfl, rfl⟩
  | cons c mid ih =>
    intro pre post m ord L previous hR hprev
    have hget : (pre ++ c :: mid ++ post)[pre.length]? = some c := by
      rw [List.append_assoc]; exact get_mid pre c (mid ++ post)
    obtain ⟨m1, ord1, L1, e1, hlt, hR1, ht1, hs1⟩ :=
      step_ok m ord L hR fuel hfuel (pre ++ c :: mid ++ post) pre.length c previous hget hprev
    have hset : (pre ++ c :: mid ++ post).set pre.length
        (byteOfNat ((table m ord).indexOf c)) =
        (pre ++ [byteOfNat ((table m ord).indexOf c)]) ++ mid ++ post := by
      rw [List.append_assoc, List.cons_append, set_mid]; simp
    have hprev1 : c = (m1.nodes (ord1 0)).value := by
      have := table_get m1 ord1 0
      rw [ht1] at this
      simpa using this
    obtain ⟨m2, ord2, L2, p2, e2, hR2, hp2, hl2, hs2⟩ :=
      ih (pre ++ [byteOfNat ((table m ord).indexOf c)]) post m1 ord1 L1 c hR1 hprev1
    refine ⟨m2, ord2, L2, p2, ?_, hR2, hp2, ?_, by rw [hs2, hs1]⟩
    · rw [List.length_cons, moveToFront.run, e1]
      simp only
      rw [hset]
      have : (pre ++ [byteOfNat ((table m ord).indexOf c)]).length = pre.length + 1 := by simp
      rw [← this, e2, ht1]
      simp [mtfRanks]
    · rw [hl2, getLast_cons_getD]

/-- The loop of `moveToFront` is its first `a` rounds followed by the loop over the rest. -/
theorem loop_run (fuel : Nat) :
    ∀ (a b ii : Nat) (m : MTFT) (v : List Byte) (p : Byte) (m1 : MTFT) (v1 : List Byte)
      (p1 : Byte), moveToFront.run fuel a ii m v p = .ok (m1, v1, p1) →
      moveToFront.loop fuel (a + b) ii m v p = moveToFront.loop fuel b (ii + a) m1 v1 p1 := by
  intro a
  induction a with
  | zero =>
    intro b ii m v p m1 v1 p1 h
    simp only [moveToFront.run, Except.ok.injEq, Prod.mk.injEq] at h
    obtain ⟨h1, h2, h3⟩ := h
    subst h1 h2 h3
    simp
  | succ a ih =>
    intro b ii m v p m1 v1 p1 h
    have hab : a + 1 + b = (a + b) + 1 := by omega
    rw [hab, moveToFront.loop]
    rw [moveToFront.run] at h
    cases hs : moveToFront.step fuel m v p ii with
    | error e => rw [hs] at h; simp at h
    | ok r =>
      obtain ⟨m', v', p'⟩ := r
      rw [hs] at h
      simp only at h ⊢
      rw [ih b (ii + 1) m' v' p' m1 v1 p1 h]
      congr 1
      omega

/-- A round of the loop of `moveToFront` at the index just past the buffer stops on the
out-of-range read `values[ii]`, and leaves the receiver and the buffer as they were. -/
theorem loop_past_end (fuel b : Nat) (m : MTFT) (v : List Byte) (p : Byte) :
    moveToFront.loop fuel (b + 1) v.length m v p = .error (.indexOutOfRange, m, v) := by
  have hnone : v[v.length]? = none := List.getElem?_eq_none (Nat.le_refl _)
  rw [moveToFront.loop, moveToFront.step, hnone]

theorem step_past_end (fuel : Nat) (m : MTFT) (v : List Byte) (p : Byte) :
    moveToFront.step fuel m v p v.length = .error (.indexOutOfRange, m, v) := by
  have hnone : v[v.length]? = none := List.getElem?_eq_none (Nat.le_refl _)
  rw [moveToFront.step, hnone]

/-- On a chained list, `Forward` reaches round `k` of its loop for every `k` up to the
length of the buffer, with the first `k` elements replaced by their reference ranks, a
valid rank structure, and `previous` the front value: 0 at first, then the last symbol. -/
theorem ForwardState_ok (m : MTFT) (ord : Nat → Nat) (hc : Chain m ord) (fuel : Nat)
    (hfuel : 63 ≤ fuel) (input : List Byte) (k : Nat) (hk : k ≤ input.length) :
    ∃ m0 mk ordk Lk pk, m.balanceLists true = .ok m0 ∧ m0.size = m.size ∧
      m.ForwardState fuel input k =
        .ok (mk, (mtfRanks identityList (input.take k)).map byteOfNat ++ input.drop k, pk) ∧
      moveToFront.run fuel k 0 m0 input 0 =
        .ok (mk, (mtfRanks identityList (input.take k)).map byteOfNat ++ input.drop k, pk) ∧
      m0.heads[0]? = some (some (ord 0)) ∧ (m0.nodes (ord 0)).value = 0 ∧
      Rep mk ordk Lk ∧ pk = (mk.nodes (ordk 0)).value ∧
      pk = ((input.take k).getLast?).getD 0 ∧ mk.size = m.size := by
  obtain ⟨m0, e0, hR0, hs0, hv0⟩ :=
    balanceLists_ok true m ord hc (fun h => by simp at h) (fun h => by simp at h)
  have htab : table m0 ord = identityList :=
    table_identity m0 ord (fun k hk => by rw [hv0 k hk]; simp [balValue])
  have hv00 : (m0.nodes (ord 0)).value = 0 := by
    rw [hv0 0 (by omega)]; rfl
  obtain ⟨mk, ordk, Lk, pk, e1, hRk, hpk, hlk, hsk⟩ :=
    run_ok fuel hfuel (input.take k) [] (input.drop k) m0 ord canonL 0 hR0 hv00.symm
  have hlen : (input.take k).length = k := by
    rw [List.length_take]; omega
  have hcat : [] ++ input.take k ++ input.drop k = input := by simp
  rw [hlen, hcat, htab] at e1
  simp only [List.length_nil, List.nil_append] at e1
  refine ⟨m0, mk, ordk, Lk, pk, e0, hs0, ?_, e1, hR0.head0, hv00, hRk, hpk, hlk,
    by rw [hsk, hs0]⟩
  unfold MTFT.ForwardState
  rw [e0]
  simp only
  rw [hR0.head0]
  simp only
  rw [hv00, e1]

/-- The run of `Forward` is its state after `k` symbols followed by the rest of the loop. -/
theorem Forward_split (m : MTFT) (ord : Nat → Nat) (hc : Chain m ord) (fuel : Nat)
    (hfuel : 63 ≤ fuel) (input : List Byte) (k b : Nat) (hk : k ≤ input.length)
    (hkb : k + b = extent m.size input) :
    ∃ mk vk pk, m.ForwardState fuel input k = .ok (mk, vk, pk) ∧
      m.Forward fuel input = moveToFront.loop fuel b k mk vk pk := by
  obtain ⟨m0, mk, ordk, Lk, pk, e0, hs0, eS, eR, hh0, hv00, hRk, hpk, hlk, hsk⟩ :=
    ForwardState_ok m ord hc fuel hfuel input k hk
  refine ⟨mk, _, pk, eS, ?_⟩
  unfold MTFT.Forward
  rw [e0]
  simp only
  unfold MTFT.moveToFront
  rw [hh0]
  simp only
  have : (if m0.size ≠ 0 then m0.size else input.length) = k + b := by
    rw [hs0]; exact hkb.symm
  rw [this, hv00, loop_run fuel k b 0 m0 input 0 _ _ _ eR, Nat.zero_add]

/-- One more round of the loop of `moveToFront` is one `step` from the state reached. -/
theorem run_succ (fuel : Nat) :
    ∀ (a ii : Nat) (m : MTFT) (v : List Byte) (p : Byte) (m1 : MTFT) (v1 : List Byte)
      (p1 : Byte), moveToFront.run fuel a ii m v p = .ok (m1, v1, p1) →
      moveToFront.run fuel (a + 1) ii m v p = moveToFront.step fuel m1 v1 p1 (ii + a) := by
  intro a
  induction a with
  | zero =>
    intro ii m v p m1 v1 p1 h
    simp only [moveToFront.run, Except.ok.injEq, Prod.mk.injEq] at h
    obtain ⟨h1, h2, h3⟩ := h
    subst h1 h2 h3
    rw [moveToFront.run]
    show _ = moveToFront.step fuel m v p ii
    generalize moveToFront.step fuel m v p ii = r
    cases r with
    | error e => rfl
    | ok r =>
      obtain ⟨m', v', p'⟩ := r
      simp [moveToFront.run]
  | succ a ih =>
    intro ii m v p m1 v1 p1 h
    rw [moveToFront.run] at h ⊢
    cases hs : moveToFront.step fuel m v p ii with
    | error e => rw [hs] at h; simp at h
    | ok r =>
      obtain ⟨m', v', p'⟩ := r
      rw [hs] at h
      simp only at h ⊢
      rw [ih (ii + 1) m' v' p' m1 v1 p1 h]
      congr 1
      omega

theorem ForwardState_succ (fuel : Nat) (m : MTFT) (input : List Byte) (k : Nat) (mk : MTFT)
    (vk : List Byte) (pk : Byte) (h : m.ForwardState fuel input k = .ok (mk, vk, pk)) :
    m.ForwardState fuel input (k + 1) = moveToFront.step fuel mk vk pk k := by
  unfold MTFT.ForwardState at h ⊢
  cases hb : m.balanceLists true with
  | error e =>
    rw [hb] at h
    simp at h
  | ok m0 =>
    rw [hb] at h
    simp only at h ⊢
    cases hh : m0.heads[0]? with
    | none => rw [hh] at h; simp at h
    | some o =>
      cases o with
      | none => rw [hh] at h; simp at h
      | some h0 =>
        rw [hh] at h
        simp only at h ⊢
        rw [run_succ fuel k 0 m0 input _ mk vk pk h, Nat.zero_add]

theorem mtfRanks_take : ∀ (B t : List Byte) (n : Nat),
    (mtfRanks t B).take n = mtfRanks t (B.take n) := by
  intro B
  induction B with
  | nil => intro t n; simp [mtfRanks]
  | cons b rest ih =>
    intro t n
    cases n with
    | zero => simp [mtfRanks]
    | succ n => simp [mtfRanks, ih]

/-- The element at index `i` of the ranks of a buffer is settled by the first `i + 1`
symbols. -/
theorem ranks_get (B : List Byte) (n i : Nat) (hi : i < n) :
    ((mtfRanks identityList B).map byteOfNat)[i]? =
      ((mtfRanks identityList (B.take n)).map byteOfNat)[i]? := by
  rw [← mtfRanks_take, List.map_take, List.getElem?_take_of_lt hi]

theorem take_getLast (input : List Byte) (i : Nat) (hi : i < input.length) (h1 : 1 ≤ i) :
    (input.take i).getLast? = input[i - 1]? := by
  rw [List.getLast?_eq_getElem?, List.length_take, Nat.min_eq_left (by omega),
    List.getElem?_take_of_lt (by omega)]

/-- Round `i` of the loop of `moveToFront` inside `Forward`: the state before it, the
`step` it makes and the state after it. -/
theorem Forward_round (m : MTFT) (ord : Nat → Nat) (hc : Chain m ord) (fuel : Nat)
    (hfuel : 63 ≤ fuel) (input : List Byte) (i : Nat) (hi : i < input.length) :
    ∃ c mi ordi Li pi vi mi1 ordi1 Li1 vi1,
      input[i]? = some c ∧
      m.ForwardState fuel input i = .ok (mi, vi, pi) ∧ Rep mi ordi Li ∧
      pi = (mi.nodes (ordi 0)).value ∧ vi[i]? = some c ∧
      (i = 0 → pi = 0) ∧ (1 ≤ i → input[i - 1]? = some pi) ∧
      moveToFront.step fuel mi vi pi i = .ok (mi1, vi1, c) ∧
      m.ForwardState fuel input (i + 1) = .ok (mi1, vi1, c) ∧ Rep mi1 ordi1 Li1 ∧
      vi1 = vi.set i (byteOfNat ((table mi ordi).indexOf c)) ∧
      (table mi ordi).indexOf c < 256 ∧
      vi1[i]? = ((mtfRanks identityList input).map byteOfNat)[i]? ∧
      mi.size = m.size ∧ mi1.size = m.size ∧
      table mi1 ordi1 = c :: (table mi ordi).erase c := by
  obtain ⟨m0, mi, ordi, Li, pi, _, _, eS, _, _, _, hRi, hpi, hli, hsi⟩ :=
    ForwardState_ok m ord hc fuel hfuel input i (by omega)
  obtain ⟨_, mj, _, _, pj, _, _, eS1, _, _, _, _, _, _, _⟩ :=
    ForwardState_ok m ord hc fuel hfuel input (i + 1) (by omega)
  have hc : input[i]? = some input[i] := List.getElem?_eq_getElem hi
  have hlen : ((mtfRanks identityList (input.take i)).map byteOfNat).length = i := by
    rw [List.length_map, mtfRanks_length, List.length_take]; omega
  have hvi : ((mtfRanks identityList (input.take i)).map byteOfNat ++ input.drop i)[i]? =
      some input[i] := by
    rw [List.getElem?_append_right (by omega), hlen, Nat.sub_self, List.getElem?_drop]
    exact hc
  obtain ⟨mi1, ordi1, Li1, e1, hlt, hR1, ht1, hs1⟩ :=
    step_ok mi ordi Li hRi fuel hfuel _ i input[i] pi hvi hpi
  have eS2 := ForwardState_succ fuel m input i mi _ pi eS
  rw [e1] at eS2
  have heq := eS1.symm.trans eS2
  simp only [Except.ok.injEq, Prod.mk.injEq] at heq
  obtain ⟨_, hv, _⟩ := heq
  refine ⟨input[i], mi, ordi, Li, pi, _, mi1, ordi1, Li1, _, hc, eS, hRi, hpi, hvi, ?_, ?_,
    e1, eS2, hR1, rfl, hlt, ?_, hsi, by rw [hs1, hsi], ht1⟩
  · intro h0
    subst h0
    rw [hli]
    rfl
  · intro h1
    rw [← take_getLast input i hi h1, hli]
    obtain ⟨x, hx⟩ : ∃ x, (input.take i).getLast? = some x := by
      rw [take_getLast input i hi h1]
      exact ⟨_, List.getElem?_eq_getElem (by omega)⟩
    rw [hx]
    rfl
  · rw [← hv, ranks_get input (i + 1) i (by omega)]
    have hlen1 : i < ((mtfRanks identityList (input.take (i + 1))).map byteOfNat).length := by
      rw [List.length_map, mtfRanks_length, List.length_take]; omega
    rw [List.getElem?_append_left hlen1]

/-- A symbol that is not at the front of the list has a rank that is not 0. -/
theorem rank_ne_zero (m : MTFT) (ord L : Nat → Nat) (hR : Rep m ord L) (c : Byte)
    (hc : c ≠ (m.nodes (ord 0)).value) :
    (table m ord).indexOf c < 256 ∧ byteOfNat ((table m ord).indexOf c) ≠ 0 := by
  obtain ⟨j, hj, hjc⟩ := exists_pos m ord hR.val_inj c
  have hidx := table_indexOf m ord hR.val_inj j hj
  rw [hjc] at hidx
  have hj0 : j ≠ 0 := by
    intro h
    subst h
    exact hc hjc.symm
  rw [hidx]
  refine ⟨hj, ?_⟩
  intro h
  have := congrArg Fin.val h
  rw [byteOfNat_val j hj] at this
  exact hj0 this

/-- A `step` on a symbol that is not at the front changes the receiver. -/
theorem step_changes (m m1 : MTFT) (ord L ord1 L1 : Nat → Nat) (hR : Rep m ord L)
    (hR1 : Rep m1 ord1 L1) (c : Byte) (hc : c ≠ (m.nodes (ord 0)).value)
    (ht : table m1 ord1 = c :: (table m ord).erase c) : m1 ≠ m := by
  intro h
  subst h
  have h0 : ord1 0 = ord 0 := by
    have a := hR1.head0
    rw [hR.head0] at a
    simpa using a.symm
  have hv := table_get m1 ord1 0
  rw [ht] at hv
  simp only [List.getElem?_cons_zero, Nat.lt_add_one, Nat.ofNat_pos, if_true,
    Option.some.injEq] at hv
  rw [h0] at hv
  exact hc hv

/-- C11. Inside `Forward`, round `i` of the loop of `moveToFront` starts with `previous`
equal to 0 when `i = 0` and to `input[i-1]` otherwise. When `input[i]` equals `previous`
the round leaves the whole `MTFT` (lengths, heads, buckets, node links and values) as it
was and the output holds 0 at index `i`; when it differs, the `MTFT` changes and the
output at index `i` is not 0. So a run of `k` equal bytes gives zeros at all its indexes
but the first, and at index 0 the fast path is taken exactly when `input[0] = 0`. -/
theorem Forward_fast_path (s fuel : Nat) (hfuel : 63 ≤ fuel) (input : List Byte)
    (hs : s ≤ input.length) :
    ∃ m m2 out, NewMTFT s = some m ∧ m.Forward fuel input = .ok (m2, out) ∧
      (∀ i, i < extent s input → ∃ mi vi pi mi1 vi1 pi1,
        m.ForwardState fuel input i = .ok (mi, vi, pi) ∧
        moveToFront.step fuel mi vi pi i = .ok (mi1, vi1, pi1) ∧
        m.ForwardState fuel input (i + 1) = .ok (mi1, vi1, pi1) ∧
        vi[i]? = input[i]? ∧ out[i]? = vi1[i]? ∧
        (i = 0 → pi = 0) ∧ (1 ≤ i → input[i - 1]? = some pi) ∧
        (input[i]? = some pi → mi1 = mi ∧ out[i]? = some 0) ∧
        (input[i]? ≠ some pi → mi1 ≠ mi ∧ out[i]? ≠ some 0)) ∧
      (∀ a k v, a + k ≤ extent s input → (∀ j, j < k → input[a + j]? = some v) →
        ∀ j, 1 ≤ j → j < k → out[a + j]? = some 0) := by
  obtain ⟨m, hm, hR, hsz, _⟩ := NewMTFT_ok s
  obtain ⟨m2, _, _, hF, _, _, _⟩ :=
    Forward_ok m _ hR.toChain fuel hfuel input (by rw [hsz]; exact hs)
  rw [hsz] at hF
  have hext : extent s input ≤ input.length := by
    unfold extent; split <;> omega
  have hlen : ((mtfRanks identityList (input.take (extent s input))).map byteOfNat).length =
      extent s input := by
    rw [List.length_map, mtfRanks_length, List.length_take]; omega
  have hout : ∀ i, i < extent s input →
      ((mtfRanks identityList (input.take (extent s input))).map byteOfNat ++
        input.drop (extent s input))[i]? =
      ((mtfRanks identityList input).map byteOfNat)[i]? := by
    intro i hi
    rw [List.getElem?_append_left (by omega), ← ranks_get input (extent s input) i hi]
  have hround : ∀ i, i < extent s input → ∃ mi vi pi mi1 vi1 pi1,
      m.ForwardState fuel input i = .ok (mi, vi, pi) ∧
      moveToFront.step fuel mi vi pi i = .ok (mi1, vi1, pi1) ∧
      m.ForwardState fuel input (i + 1) = .ok (mi1, vi1, pi1) ∧
      vi[i]? = input[i]? ∧
      ((mtfRanks identityList (input.take (extent s input))).map byteOfNat ++
        input.drop (extent s input))[i]? = vi1[i]? ∧
      (i = 0 → pi = 0) ∧ (1 ≤ i → input[i - 1]? = some pi) ∧
      (input[i]? = some pi → mi1 = mi ∧
        ((mtfRanks identityList (input.take (extent s input))).map byteOfNat ++
          input.drop (extent s input))[i]? = some 0) ∧
      (input[i]? ≠ some pi → mi1 ≠ mi ∧
        ((mtfRanks identityList (input.take (extent s input))).map byteOfNat ++
          input.drop (extent s input))[i]? ≠ some 0) := by
    intro i hi
    obtain ⟨c, mi, ordi, Li, pi, vi, mi1, ordi1, Li1, vi1, hc, eS, hRi, hpi, hvi, hp0, hp1,
      e1, eS1, hR1, hv1, hlt, hget, _, _, ht1⟩ :=
      Forward_round m _ hR.toChain fuel hfuel input i (by omega)
    have hil : i < vi.length := by
      rcases Nat.lt_or_ge i vi.length with h | h
      · exact h
      · rw [List.getElem?_eq_none h] at hvi; simp at hvi
    have hset : vi1[i]? = some (byteOfNat ((table mi ordi).indexOf c)) := by
      rw [hv1, List.getElem?_set_self hil]
    refine ⟨mi, vi, pi, mi1, vi1, c, eS, e1, eS1, by rw [hvi, hc], by rw [hout i hi, hget],
      hp0, hp1, ?_, ?_⟩
    · intro hcp
      rw [hc] at hcp
      have hcp : c = pi := Option.some.inj hcp
      have e2 : moveToFront.step fuel mi vi pi i = .ok (mi, vi.set i 0, pi) := by
        unfold moveToFront.step
        simp only [hvi, hcp, if_true]
      rw [e1] at e2
      simp only [Except.ok.injEq, Prod.mk.injEq] at e2
      obtain ⟨hm1, hv2, _⟩ := e2
      refine ⟨hm1, ?_⟩
      rw [hout i hi, ← hget, hv2, List.getElem?_set_self hil]
    · intro hcp
      rw [hc] at hcp
      have hne : c ≠ (mi.nodes (ordi 0)).value := by
        intro h
        apply hcp
        rw [hpi, h]
      refine ⟨step_changes mi mi1 ordi Li ordi1 Li1 hRi hR1 c hne ht1, ?_⟩
      rw [hout i hi, ← hget, hset]
      intro h
      exact (rank_ne_zero mi ordi Li hRi c hne).2 (Option.some.inj h)
  refine ⟨m, m2, _, hm, hF, ?_, ?_⟩
  · exact hround
  · intro a k v hak hrun j hj1 hjk
    obtain ⟨mi, vi, pi, mi1, vi1, pi1, _, _, _, _, _, _, hp1, hfast, _⟩ :=
      hround (a + j) (by omega)
    have hprev := hp1 (by omega)
    have e1 : a + j - 1 = a + (j - 1) := by omega
    rw [e1, hrun (j - 1) (by omega)] at hprev
    have hcur := hrun j hjk
    rw [hprev] at hcur
    exact (hfast hcur).2

theorem Forward_fast_path_witness :
    63 ≤ 63 ∧ 0 ≤ ([65, 65, 65, 66, 66] : List Byte).length ∧
    ∃ m m2 out, NewMTFT 0 = some m ∧ m.Forward 63 [65, 65, 65, 66, 66] = .ok (m2, out) ∧
      out[1]? = some 0 ∧ out[2]? = some 0 ∧ out[4]? = some 0 := by
  refine ⟨Nat.le_refl _, Nat.zero_le _, ?_⟩
  obtain ⟨m, m2, out, hm, hF, _, hrun⟩ :=
    Forward_fast_path 0 63 (Nat.le_refl _) [65, 65, 65, 66, 66] (Nat.zero_le _)
  refine ⟨m, m2, out, hm, hF, ?_, ?_, ?_⟩
  · exact hrun 0 3 65 (by decide) (by decide) 1 (by decide) (by decide)
  · exact hrun 0 3 65 (by decide) (by decide) 2 (by decide) (by decide)
  · exact hrun 3 2 66 (by decide) (by decide) 1 (by decide) (by decide)

/-- The first `a + b` rounds of the loop of `moveToFront` are the first `a` rounds followed
by `b` more. -/
theorem run_run (fuel : Nat) :
    ∀ (a b ii : Nat) (m : MTFT) (v : List Byte) (p : Byte) (m1 : MTFT) (v1 : List Byte)
      (p1 : Byte), moveToFront.run fuel a ii m v p = .ok (m1, v1, p1) →
      moveToFront.run fuel (a + b) ii m v p = moveToFront.run fuel b (ii + a) m1 v1 p1 := by
  intro a
  induction a with
  | zero =>
    intro b ii m v p m1 v1 p1 h
    simp only [moveToFront.run, Except.ok.injEq, Prod.mk.injEq] at h
    obtain ⟨h1, h2, h3⟩ := h
    subst h1 h2 h3
    simp
  | succ a ih =>
    intro b ii m v p m1 v1 p1 h
    have hab : a + 1 + b = (a + b) + 1 := by omega
    rw [hab, moveToFront.run]
    rw [moveToFront.run] at h
    cases hs : moveToFront.step fuel m v p ii with
    | error e => rw [hs] at h; simp at h
    | ok r =>
      obtain ⟨m', v', p'⟩ := r
      rw [hs] at h
      simp only at h ⊢
      rw [ih b (ii + 1) m' v' p' m1 v1 p1 h]
      congr 1
      omega

theorem run_past_end (fuel b : Nat) (m : MTFT) (v : List Byte) (p : Byte) :
    moveToFront.run fuel (b + 1) v.length m v p = .error (.indexOutOfRange, m, v) := by
  rw [moveToFront.run, step_past_end]

theorem ranks_full_length (input : List Byte) :
    ((mtfRanks identityList input).map byteOfNat).length = input.length := by
  rw [List.length_map, mtfRanks_length]

/-- With a size beyond the length of the buffer, `Forward` replaces the whole buffer with
its ranks and then stops on the out-of-range read at index `len(input)`. -/
theorem Forward_fail (m : MTFT) (ord : Nat → Nat) (hc : Chain m ord) (fuel : Nat)
    (hfuel : 63 ≤ fuel) (input : List Byte) (hsz : input.length < m.size) :
    ∃ mk ordk Lk pk, Rep mk ordk Lk ∧ mk.size = m.size ∧
      m.ForwardState fuel input input.length =
        .ok (mk, (mtfRanks identityList input).map byteOfNat, pk) ∧
      moveToFront.step fuel mk ((mtfRanks identityList input).map byteOfNat) pk input.length
        = .error (.indexOutOfRange, mk, (mtfRanks identityList input).map byteOfNat) ∧
      m.Forward fuel input =
        .error (.indexOutOfRange, mk, (mtfRanks identityList input).map byteOfNat) ∧
      ∀ k, input.length < k → m.ForwardState fuel input k =
        .error (.indexOutOfRange, mk, (mtfRanks identityList input).map byteOfNat) := by
  obtain ⟨m0, mk, ordk, Lk, pk, e0, hs0, eS, eR, hh0, hv00, hRk, hpk, hlk, hsk⟩ :=
    ForwardState_ok m ord hc fuel hfuel input input.length (Nat.le_refl _)
  rw [List.take_length, List.drop_length, List.append_nil] at eS eR
  have hext : input.length + (m.size - input.length) = extent m.size input := by
    unfold extent
    rw [if_pos (by omega)]
    omega
  obtain ⟨mk', vk', pk', eS', eF⟩ :=
    Forward_split m ord hc fuel hfuel input input.length (m.size - input.length)
      (Nat.le_refl _) hext
  rw [eS] at eS'
  simp only [Except.ok.injEq, Prod.mk.injEq] at eS'
  obtain ⟨h1, h2, h3⟩ := eS'
  subst h1 h2 h3
  have hstep := step_past_end fuel mk ((mtfRanks identityList input).map byteOfNat) pk
  rw [ranks_full_length] at hstep
  refine ⟨mk, ordk, Lk, pk, hRk, hsk, eS, hstep, ?_, ?_⟩
  · rw [eF]
    obtain ⟨b, hb⟩ : ∃ b, m.size - input.length = b + 1 := ⟨m.size - input.length - 1, by omega⟩
    rw [hb]
    have := loop_past_end fuel b mk ((mtfRanks identityList input).map byteOfNat) pk
    rw [ranks_full_length] at this
    exact this
  · intro k hk
    obtain ⟨b, hb⟩ : ∃ b, k = input.length + (b + 1) := ⟨k - input.length - 1, by omega⟩
    subst hb
    unfold MTFT.ForwardState
    rw [e0]
    simp only
    rw [hh0]
    simp only
    rw [hv00, run_run fuel input.length (b + 1) 0 m0 input 0 _ _ _ eR, Nat.zero_add]
    have := run_past_end fuel b mk ((mtfRanks identityList input).map byteOfNat) pk
    rw [ranks_full_length] at this
    exact this

/-- The loop of `Inverse` is its first `a` rounds followed by the loop over the rest. -/
theorem Inverse_loop_split :
    ∀ (a b i : Nat) (idx inp idx1 inp1 : List Byte),
      Inverse.loop a i idx inp = .ok (idx1, inp1) →
      Inverse.loop (a + b) i idx inp = Inverse.loop b (i + a) idx1 inp1 := by
  intro a
  induction a with
  | zero =>
    intro b i idx inp idx1 inp1 h
    simp only [Inverse.loop, Except.ok.injEq, Prod.mk.injEq] at h
    obtain ⟨h1, h2⟩ := h
    subst h1 h2
    simp
  | succ a ih =>
    intro b i idx inp idx1 inp1 h
    have hab : a + 1 + b = (a + b) + 1 := by omega
    rw [hab, Inverse.loop]
    rw [Inverse.loop] at h
    cases hg : inp[i]? with
    | none => rw [hg] at h; simp at h
    | some r =>
      rw [hg] at h
      simp only at h ⊢
      cases hv : idx[r.val]? with
      | none => rw [hv] at h; simp at h
      | some value =>
        rw [hv] at h
        simp only at h ⊢
        rw [ih b (i + 1) _ _ idx1 inp1 h]
        congr 1
        omega

theorem Inverse_loop_past_end (b : Nat) (idx inp : List Byte) :
    Inverse.loop (b + 1) inp.length idx inp = .error (.indexOutOfRange, idx, inp) := by
  have hnone : inp[inp.length]? = none := List.getElem?_eq_none (Nat.le_refl _)
  rw [Inverse.loop, hnone]

/-- With a size beyond the length of the buffer, `Inverse` replaces the whole buffer with
the decoded symbols and then stops on the out-of-range read at index `len(input)`. -/
theorem Inverse_fail (m : MTFT) (hb : m.buckets.length = 256) (input : List Byte)
    (hsz : input.length < m.size) :
    ∃ indexes1, indexes1.length = 256 ∧
      Inverse.loop input.length 0 ((List.range m.buckets.length).map byteOfNat) input =
        .ok (indexes1, mtfDecode identityList input) ∧
      Inverse.loop 1 input.length indexes1 (mtfDecode identityList input) =
        .error (.indexOutOfRange, indexes1, mtfDecode identityList input) ∧
      m.Inverse input =
        .error (.indexOutOfRange, { m with buckets := indexes1 },
          mtfDecode identityList input) := by
  have hid : ((List.range m.buckets.length).map byteOfNat) = identityList := by
    rw [hb]; rfl
  have hidl : identityList.length = 256 := by simp [identityList]
  obtain ⟨idx1, hl1, e1⟩ := Inverse_loop_ok input [] [] identityList hidl
  simp only [List.length_nil, List.nil_append, List.append_nil] at e1
  have hpast : ∀ b, Inverse.loop (b + 1) input.length idx1 (mtfDecode identityList input) =
      .error (.indexOutOfRange, idx1, mtfDecode identityList input) := by
    intro b
    have := Inverse_loop_past_end b idx1 (mtfDecode identityList input)
    rw [mtfDecode_length] at this
    exact this
  refine ⟨idx1, hl1, by rw [hid]; exact e1, hpast 0, ?_⟩
  unfold MTFT.Inverse
  simp only [hid]
  have hext : (if m.size ≠ 0 then m.size else input.length) =
      input.length + ((m.size - input.length - 1) + 1) := by
    rw [if_pos (by omega)]
    omega
  rw [hext, Inverse_loop_split input.length _ 0 identityList input _ _ e1, Nat.zero_add,
    hpast]

/-- C20. With a size that does not exceed the length of the buffer (0 included), `Forward`
and `Inverse` return: no buffer index and no index into the 256-entry table is out of
range. With a size beyond the length of the buffer, both stop on an out-of-range access:
the rounds at the indexes below `len(input)` succeed and overwrite the whole buffer, and
the round at index `len(input)` fails on its read of the buffer. -/
theorem transforms_in_range (s fuel : Nat) (hfuel : 63 ≤ fuel) (input : List Byte) :
    ∃ m, NewMTFT s = some m ∧
      (s ≤ input.length →
        (∃ m1 out, m.Forward fuel input = .ok (m1, out)) ∧
        (∃ m2 inv, m.Inverse input = .ok (m2, inv))) ∧
      (input.length < s →
        (∃ mk vk pk, m.ForwardState fuel input input.length = .ok (mk, vk, pk) ∧
          vk = (mtfRanks identityList input).map byteOfNat ∧
          moveToFront.step fuel mk vk pk input.length = .error (.indexOutOfRange, mk, vk) ∧
          m.Forward fuel input = .error (.indexOutOfRange, mk, vk)) ∧
        (∃ idx dec, Inverse.loop input.length 0 identityList input = .ok (idx, dec) ∧
          dec = mtfDecode identityList input ∧
          Inverse.loop 1 input.length idx dec = .error (.indexOutOfRange, idx, dec) ∧
          m.Inverse input = .error (.indexOutOfRange, { m with buckets := idx }, dec))) ∧
      ((s = 0 ∨ s ≤ input.length) ↔
        ((∃ r, m.Forward fuel input = .ok r) ∧ (∃ r, m.Inverse input = .ok r))) := by
  obtain ⟨m, hm, hR, hsz, _⟩ := NewMTFT_ok s
  have hid : ((List.range m.buckets.length).map byteOfNat) = identityList := by
    rw [hR.buckets_len]; rfl
  have hok : s ≤ input.length →
      (∃ m1 out, m.Forward fuel input = .ok (m1, out)) ∧
      (∃ m2 inv, m.Inverse input = .ok (m2, inv)) := by
    intro hs
    obtain ⟨m1, _, _, hF, _, _, _⟩ :=
      Forward_ok m _ hR.toChain fuel hfuel input (by rw [hsz]; exact hs)
    obtain ⟨i1, _, hI⟩ := Inverse_ok m hR.buckets_len input (by rw [hsz]; exact hs)
    exact ⟨⟨m1, _, hF⟩, ⟨_, _, hI⟩⟩
  have hfail : input.length < s →
      (∃ mk vk pk, m.ForwardState fuel input input.length = .ok (mk, vk, pk) ∧
        vk = (mtfRanks identityList input).map byteOfNat ∧
        moveToFront.step fuel mk vk pk input.length = .error (.indexOutOfRange, mk, vk) ∧
        m.Forward fuel input = .error (.indexOutOfRange, mk, vk)) ∧
      (∃ idx dec, Inverse.loop input.length 0 identityList input = .ok (idx, dec) ∧
        dec = mtfDecode identityList input ∧
        Inverse.loop 1 input.length idx dec = .error (.indexOutOfRange, idx, dec) ∧
        m.Inverse input = .error (.indexOutOfRange, { m with buckets := idx }, dec)) := by
    intro hs
    obtain ⟨mk, _, _, pk, _, _, eS, hstep, hF, _⟩ :=
      Forward_fail m _ hR.toChain fuel hfuel input (by rw [hsz]; exact hs)
    obtain ⟨idx1, _, eL, hpast, hI⟩ :=
      Inverse_fail m hR.buckets_len input (by rw [hsz]; exact hs)
    rw [hid] at eL
    exact ⟨⟨mk, _, pk, eS, rfl, hstep, hF⟩, ⟨idx1, _, eL, rfl, hpast, hI⟩⟩
  refine ⟨m, hm, hok, hfail, ?_⟩
  constructor
  · intro h
    have hs : s ≤ input.length := by omega
    obtain ⟨⟨m1, out, hF⟩, ⟨m2, inv, hI⟩⟩ := hok hs
    exact ⟨⟨_, hF⟩, ⟨_, hI⟩⟩
  · intro h
    rcases Nat.lt_or_ge input.length s with hlt | hge
    · obtain ⟨⟨mk, vk, pk, _, _, _, hF⟩, _⟩ := hfail hlt
      obtain ⟨⟨r, hr⟩, _⟩ := h
      rw [hF] at hr
      simp at hr
    · exact Or.inr hge

set_option maxRecDepth 100000 in
theorem transforms_in_range_witness :
    63 ≤ 63 ∧ ∃ m, NewMTFT 3 = some m ∧
      (∃ mk, m.Forward 63 [7, 7] = .error (.indexOutOfRange, mk, [7, 0])) ∧
      (∃ idx, m.Inverse [7, 7] = .error (.indexOutOfRange, { m with buckets := idx }, [7, 6])) ∧
      (∃ r, m.Forward 63 [7, 7, 7] = .ok r) := by
  refine ⟨Nat.le_refl _, ?_⟩
  obtain ⟨m, hm, _, h1, _⟩ := transforms_in_range 3 63 (Nat.le_refl _) [7, 7]
  obtain ⟨m', hm', h0, _, _⟩ := transforms_in_range 3 63 (Nat.le_refl _) [7, 7, 7]
  rw [hm] at hm'
  cases hm'
  obtain ⟨⟨mk, vk, pk, _, hv, _, hF⟩, ⟨idx, dec, _, hd, _, hI⟩⟩ := h1 (by decide)
  obtain ⟨⟨m1, out, hF3⟩, _⟩ := h0 (by decide)
  have hr : (mtfRanks identityList [7, 7]).map byteOfNat = [7, 0] := by decide
  have hdec : mtfDecode identityList [7, 7] = [7, 6] := by decide
  rw [hr] at hv
  rw [hdec] at hd
  subst hv hd
  exact ⟨m, hm, ⟨mk, hF⟩, ⟨idx, hI⟩, ⟨_, hF3⟩⟩

theorem chainFrom_eq (m : MTFT) (ord : Nat → Nat) (hc : Chain m ord) :
    ∀ n k, k ≤ 256 →
      chainFrom m.nodes n (if k < 256 then some (ord k) else none) =
        (List.range (min n (256 - k))).map (fun t => ord (k + t)) := by
  intro n
  induction n with
  | zero => intro k _; simp [chainFrom]
  | succ n ih =>
    intro k hk
    by_cases hlt : k < 256
    · rw [if_pos hlt, chainFrom, hc.next_ok k hlt, ih (k + 1) (by omega)]
      have hmin : min (n + 1) (256 - k) = min n (256 - (k + 1)) + 1 := by omega
      rw [hmin, List.range_succ_eq_map, List.map_cons, List.map_map]
      simp only [Nat.add_zero, List.cons.injEq, true_and]
      apply List.map_congr_left
      intro t _
      simp only [Function.comp, Nat.succ_eq_add_one]
      congr 1
      omega
    · rw [if_neg hlt, chainFrom]
      have : min (n + 1) (256 - k) = 0 := by omega
      rw [this]
      rfl

theorem chain_eq (m : MTFT) (ord : Nat → Nat) (hc : Chain m ord) :
    m.chain = (List.range 256).map ord := by
  unfold MTFT.chain
  rw [hc.head0]
  have := chainFrom_eq m ord hc 257 0 (by omega)
  simp only [Nat.lt_add_one, Nat.ofNat_pos, if_true, Nat.zero_add] at this
  simpa using this

theorem off_le (m : MTFT) (ord L : Nat → Nat) (hR : Rep m ord L) (i : Nat) (hi : i ≤ 16) :
    off L i ≤ 256 := by
  have := off_mono L i 16 hi
  rw [hR.L_sum] at this
  exact this

theorem bucket_eq (m : MTFT) (ord L : Nat → Nat) (hR : Rep m ord L) (i : Nat) (hi : i < 16) :
    m.bucket i = (List.range (L i)).map (fun t => ord (off L i + t)) := by
  unfold MTFT.bucket
  rw [hR.lengths_ok i hi, hR.heads_ok i hi]
  have h1 : off L (i + 1) ≤ 256 := off_le m ord L hR (i + 1) (by omega)
  have h2 : off L (i + 1) = off L i + L i := rfl
  have h3 := hR.L_pos i hi
  have := chainFrom_eq m ord hR.toChain (L i) (off L i) (by omega)
  rw [if_pos (by omega), Nat.min_eq_left (by omega)] at this
  simpa using this

theorem mem_bucket (m : MTFT) (ord L : Nat → Nat) (hR : Rep m ord L) (i : Nat) (hi : i < 16)
    (a : Nat) : a ∈ m.bucket i ↔ ∃ k, off L i ≤ k ∧ k < off L (i + 1) ∧ a = ord k := by
  rw [bucket_eq m ord L hR i hi, List.mem_map]
  have h2 : off L (i + 1) = off L i + L i := rfl
  constructor
  · rintro ⟨t, ht, rfl⟩
    rw [List.mem_range] at ht
    exact ⟨off L i + t, by omega, by omega, rfl⟩
  · rintro ⟨k, h1, h3, rfl⟩
    refine ⟨k - off L i, ?_, ?_⟩
    · rw [List.mem_range]; omega
    · congr 1; omega

theorem lengths_eq (m : MTFT) (ord L : Nat → Nat) (hR : Rep m ord L) :
    m.lengths = (List.range 16).map (fun i => (L i : Int)) := by
  apply List.ext_getElem?
  intro i
  by_cases hi : i < 16
  · rw [hR.lengths_ok i hi, List.getElem?_map, List.getElem?_range hi]
    rfl
  · rw [List.getElem?_eq_none (by rw [hR.lengths_len]; omega),
      List.getElem?_eq_none (by simp; omega)]

theorem sum_range_off (L : Nat → Nat) :
    ∀ i, ((List.range i).map (fun i => (L i : Int))).sum = (off L i : Int) := by
  intro i
  induction i with
  | zero => rfl
  | succ i ih =>
    rw [List.range_succ, List.map_append, List.sum_append, ih]
    simp [off]

theorem lengths_take_sum (m : MTFT) (ord L : Nat → Nat) (hR : Rep m ord L) (i : Nat)
    (hi : i ≤ 16) : (m.lengths.take i).sum = (off L i : Int) := by
  rw [lengths_eq m ord L hR, ← List.map_take, List.take_range, Nat.min_eq_left hi,
    sum_range_off]

theorem segment_unique (L : Nat → Nat) (i i1 k : Nat)
    (h1 : off L i ≤ k) (h2 : k < off L (i + 1)) (h3 : off L i1 ≤ k) (h4 : k < off L (i1 + 1)) :
    i = i1 := by
  rcases Nat.lt_trichotomy i i1 with h | h | h
  · have := off_mono L (i + 1) i1 (by omega); omega
  · exact h
  · have := off_mono L (i1 + 1) i (by omega); omega

/-- The representation invariant gives the invariant on the fields of the `MTFT`. -/
theorem Rep.invariant (m : MTFT) (ord L : Nat → Nat) (hR : Rep m ord L) : Invariant m := by
  have hch := chain_eq m ord hR.toChain
  have htab : m.chain.map (fun a => (m.nodes a).value) = table m ord := by
    rw [hch, List.map_map]; rfl
  refine ⟨hR.lengths_len, ?_, ?_, ?_, ?_, ?_, ?_⟩
  · have := lengths_take_sum m ord L hR 16 (Nat.le_refl _)
    rw [List.take_of_length_le (by rw [hR.lengths_len]), hR.L_sum] at this
    exact this
  · rw [hch]; simp
  · rw [hch]
    refine List.Nodup.map_on ?_ (List.nodup_range 256)
    intro a ha b hb hab
    rw [List.mem_range] at ha hb
    exact hR.inj a b ha hb hab
  · rw [htab]
    have hn : (table m ord).Nodup := by
      unfold table
      refine List.Nodup.map_on ?_ (List.nodup_range 256)
      intro a ha b hb hab
      rw [List.mem_range] at ha hb
      exact hR.val_inj a b ha hb hab
    rw [List.perm_ext_iff_of_nodup hn identityList_nodup]
    intro b
    constructor
    · intro _; exact Full_identity.2 b
    · intro _
      obtain ⟨j, hj, hjc⟩ := exists_pos m ord hR.val_inj b
      unfold table
      rw [List.mem_map]
      exact ⟨j, by rw [List.mem_range]; exact hj, hjc⟩
  · intro i hi
    have h1 : off L (i + 1) ≤ 256 := off_le m ord L hR (i + 1) (by omega)
    have h2 : off L (i + 1) = off L i + L i := rfl
    refine ⟨L i, hR.lengths_ok i hi, hR.L_pos i hi, ?_, ?_⟩
    · rw [bucket_eq m ord L hR i hi]; simp
    · rw [bucket_eq m ord L hR i hi, lengths_take_sum m ord L hR i (by omega), hch,
        Int.toNat_ofNat]
      apply List.ext_getElem?
      intro t
      rw [List.getElem?_map, List.getElem?_take]
      by_cases ht : t < L i
      · rw [if_pos ht, List.getElem?_drop, List.getElem?_map, List.getElem?_range ht,
          List.getElem?_range (by omega)]
        rfl
      · rw [if_neg ht, List.getElem?_eq_none (by simp; omega)]
        rfl
  · intro v i hi
    obtain ⟨j, hj, hjc⟩ := exists_pos m ord hR.val_inj v
    obtain ⟨i1, hi1, hb1, hlo1, hhi1⟩ := hR.buckets_ok j hj
    rw [hjc] at hb1
    constructor
    · intro hb
      rw [hb1] at hb
      have := congrArg Fin.val (Option.some.inj hb)
      rw [byteOfNat_val i1 (by omega), byteOfNat_val i (by omega)] at this
      subst this
      exact ⟨ord j, (mem_bucket m ord L hR _ hi (ord j)).mpr ⟨j, hlo1, hhi1, rfl⟩, hjc⟩
    · rintro ⟨a, ha, hav⟩
      obtain ⟨k, hk1, hk2, rfl⟩ := (mem_bucket m ord L hR i hi a).mp ha
      have h1 : off L (i + 1) ≤ 256 := off_le m ord L hR (i + 1) (by omega)
      have hkj : k = j := hR.val_inj k j (by omega) hj (by rw [hav, hjc])
      subst hkj
      have := segment_unique L i i1 k hk1 hk2 hlo1 hhi1
      subst this
      exact hb1

/-- Past the end of the buffer `Forward` has no state: the round at index `len(input)`
stops on its read of the buffer. -/
theorem ForwardState_past (m : MTFT) (ord : Nat → Nat) (hc : Chain m ord) (fuel : Nat)
    (hfuel : 63 ≤ fuel) (input : List Byte) (k : Nat) (hk : input.length < k) :
    ∃ e, m.ForwardState fuel input k = .error e := by
  obtain ⟨m0, mk, ordk, Lk, pk, e0, hs0, eS, eR, hh0, hv00, hRk, hpk, hlk, hsk⟩ :=
    ForwardState_ok m ord hc fuel hfuel input input.length (Nat.le_refl _)
  rw [List.take_length, List.drop_length, List.append_nil] at eR
  obtain ⟨b, hb⟩ : ∃ b, k = input.length + (b + 1) := ⟨k - input.length - 1, by omega⟩
  subst hb
  refine ⟨(.indexOutOfRange, mk, (mtfRanks identityList input).map byteOfNat), ?_⟩
  unfold MTFT.ForwardState
  rw [e0]
  simp only
  rw [hh0]
  simp only
  rw [hv00, run_run fuel input.length (b + 1) 0 m0 input 0 _ _ _ eR, Nat.zero_add]
  have := run_past_end fuel b mk ((mtfRanks identityList input).map byteOfNat) pk
  rw [ranks_full_length] at this
  exact this

/-- Every reachable state satisfies the representation invariant. -/
theorem Reach.rep (m : MTFT) (h : Reach m) : ∃ ord L, Rep m ord L := by
  induction h with
  | new s m hm =>
    obtain ⟨m1, hm1, hR, _, _⟩ := NewMTFT_ok s
    rw [hm] at hm1
    cases hm1
    exact ⟨_, _, hR⟩
  | forward fuel m input m1 out _ hfuel hF ih =>
    obtain ⟨ord, L, hR⟩ := ih
    by_cases hs : m.size ≤ input.length
    · obtain ⟨m2, ord2, L2, hF2, hR2, _, _⟩ := Forward_ok m ord hR.toChain fuel hfuel input hs
      rw [hF] at hF2
      cases hF2
      exact ⟨ord2, L2, hR2⟩
    · obtain ⟨mk, ordk, Lk, pk, hRk, _, _, _, hF2, _⟩ :=
        Forward_fail m ord hR.toChain fuel hfuel input (by omega)
      rw [hF] at hF2
      cases hF2
  | symbol fuel m input k mk vk pk _ hfuel hS ih =>
    obtain ⟨ord, L, hR⟩ := ih
    by_cases hk : k ≤ input.length
    · obtain ⟨m0, mk2, ordk, Lk, pk2, _, _, eS, _, _, _, hRk, _, _, _⟩ :=
        ForwardState_ok m ord hR.toChain fuel hfuel input k hk
      rw [hS] at eS
      cases eS
      exact ⟨ordk, Lk, hRk⟩
    · obtain ⟨e, he⟩ := ForwardState_past m ord hR.toChain fuel hfuel input k (by omega)
      rw [hS] at he
      cases he
  | stopped fuel m input e m1 out _ hfuel hF ih =>
    obtain ⟨ord, L, hR⟩ := ih
    by_cases hs : m.size ≤ input.length
    · obtain ⟨m2, ord2, L2, hF2, hR2, _, _⟩ := Forward_ok m ord hR.toChain fuel hfuel input hs
      rw [hF] at hF2
      cases hF2
    · obtain ⟨mk, ordk, Lk, pk, hRk, _, _, _, hF2, _⟩ :=
        Forward_fail m ord hR.toChain fuel hfuel input (by omega)
      rw [hF] at hF2
      cases hF2
      exact ⟨ordk, Lk, hRk⟩

/-- C12. In every state reached from `NewMTFT` by calls of `Forward`, and after every
symbol inside `moveToFront`, the 16 lengths sum to 256, the chain of `next` links from
`heads[0]` ends after exactly 256 distinct nodes whose values are a permutation of
0..255, bucket `i` (the `lengths[i]` nodes from `heads[i]` on) is the segment of that
chain that starts where the earlier buckets end, and `buckets[v]` is `i` exactly when
bucket `i` holds the node with value `v`. -/
theorem reachable_invariant (m : MTFT) (h : Reach m) : Invariant m := by
  obtain ⟨ord, L, hR⟩ := Reach.rep m h
  exact Rep.invariant m ord L hR

theorem reachable_invariant_witness :
    ∃ m m1 out mk vk pk, NewMTFT 0 = some m ∧ m.Forward 63 [65, 66, 65] = .ok (m1, out) ∧
      m1.ForwardState 63 [1, 2, 3] 2 = .ok (mk, vk, pk) ∧ Reach mk ∧ Invariant mk := by
  obtain ⟨m, hm, hR, hsz, _⟩ := NewMTFT_ok 0
  obtain ⟨m1, ord1, L1, hF, hR1, _, _⟩ :=
    Forward_ok m _ hR.toChain 63 (Nat.le_refl _) [65, 66, 65] (by rw [hsz]; exact Nat.zero_le _)
  obtain ⟨_, mk, _, _, pk, _, _, eS, _⟩ :=
    ForwardState_ok m1 ord1 hR1.toChain 63 (Nat.le_refl _) [1, 2, 3] 2 (by decide)
  have hreach : Reach mk :=
    Reach.symbol 63 m1 [1, 2, 3] 2 mk _ pk
      (Reach.forward 63 m [65, 66, 65] m1 _ (Reach.new 0 m hm) (Nat.le_refl _) hF)
      (Nat.le_refl _) eS
  exact ⟨m, m1, _, mk, _, pk, hm, hF, eS, hreach, reachable_invariant mk hreach⟩

/-- C14. Inside `Forward` on a reachable `MTFT`, after every number `k` of symbols,
`lengths[0]` is between 1 and 64 and every other length is between 1 and 17; so for every
symbol other than `previous` the search of `moveToFront` returns with fuel 63, that is
after fewer than `RESET_THRESHOLD = 64` steps `p = p.next`. -/
theorem lengths_bounded (m : MTFT) (h : Reach m) (fuel : Nat) (hfuel : 63 ≤ fuel)
    (input : List Byte) (k : Nat) (hk : k ≤ input.length) :
    ∃ mk vk pk, m.ForwardState fuel input k = .ok (mk, vk, pk) ∧
      (∃ l0 : Int, mk.lengths[0]? = some l0 ∧ 1 ≤ l0 ∧ l0 ≤ 64) ∧
      (∀ i, 1 ≤ i → i < 16 → ∃ l : Int, mk.lengths[i]? = some l ∧ 1 ≤ l ∧ l ≤ 17) ∧
      RESET_THRESHOLD = 64 ∧
      (∀ c, c ≠ pk → ∃ r, moveToFront.find 63 mk c = .ok r ∧
        moveToFront.find fuel mk c = .ok r) := by
  obtain ⟨ord, L, hR⟩ := Reach.rep m h
  obtain ⟨m0, mk, ordk, Lk, pk, _, _, eS, _, _, _, hRk, hpk, _, _⟩ :=
    ForwardState_ok m ord hR.toChain fuel hfuel input k hk
  refine ⟨mk, _, pk, eS, ?_, ?_, rfl, ?_⟩
  · have h1 := hRk.L_pos 0 (by omega)
    have h2 := hRk.L_zero
    exact ⟨_, hRk.lengths_ok 0 (by omega), by omega, by omega⟩
  · intro i hi1 hi
    have h1 := hRk.L_pos i hi
    have h2 := hRk.L_le i hi1 hi
    exact ⟨_, hRk.lengths_ok i hi, by omega, by omega⟩
  · intro c hc
    rw [hpk] at hc
    obtain ⟨i, j, _, _, hj, hv, hlo, hhi, hf⟩ :=
      find_ok mk ordk Lk hRk 63 (Nat.le_refl _) c hc
    obtain ⟨i2, j2, _, _, hj2, hv2, hlo2, hhi2, hf2⟩ :=
      find_ok mk ordk Lk hRk fuel hfuel c hc
    have hjj : j = j2 := hRk.val_inj j j2 hj hj2 (by rw [hv, hv2])
    subst hjj
    have hii : i = i2 := segment_unique Lk i i2 j hlo hhi hlo2 hhi2
    subst hii
    exact ⟨_, hf, hf2⟩

theorem Used.chain (m : MTFT) (h : Used m) : ∃ ord, Chain m ord := by
  induction h with
  | new s m hm =>
    obtain ⟨m1, hm1, hR, _, _⟩ := NewMTFT_ok s
    rw [hm] at hm1
    cases hm1
    exact ⟨_, hR.toChain⟩
  | forward fuel m input m1 out _ hfuel hF ih =>
    obtain ⟨ord, hc⟩ := ih
    by_cases hs : m.size ≤ input.length
    · obtain ⟨m2, ord2, L2, hF2, hR2, _, _⟩ := Forward_ok m ord hc fuel hfuel input hs
      rw [hF] at hF2
      cases hF2
      exact ⟨ord2, hR2.toChain⟩
    · obtain ⟨mk, ordk, Lk, pk, hRk, _, _, _, hF2, _⟩ :=
        Forward_fail m ord hc fuel hfuel input (by omega)
      rw [hF] at hF2
      cases hF2
  | inverse m input m1 out _ hI ih =>
    obtain ⟨ord, hc⟩ := ih
    by_cases hs : m.size ≤ input.length
    · obtain ⟨idx, hl, hI2⟩ := Inverse_ok m hc.buckets_len input hs
      rw [hI] at hI2
      cases hI2
      exact ⟨ord, Chain_setBuckets m ord idx hc hl⟩
    · obtain ⟨idx, hl, _, _, hI2⟩ := Inverse_fail m hc.buckets_len input (by omega)
      rw [hI] at hI2
      cases hI2
  | forwardStopped fuel m input e m1 out _ hfuel hF ih =>
    obtain ⟨ord, hc⟩ := ih
    by_cases hs : m.size ≤ input.length
    · obtain ⟨m2, ord2, L2, hF2, hR2, _, _⟩ := Forward_ok m ord hc fuel hfuel input hs
      rw [hF] at hF2
      cases hF2
    · obtain ⟨mk, ordk, Lk, pk, hRk, _, _, _, hF2, _⟩ :=
        Forward_fail m ord hc fuel hfuel input (by omega)
      rw [hF] at hF2
      cases hF2
      exact ⟨ordk, hRk.toChain⟩
  | inverseStopped m input e m1 out _ hI ih =>
    obtain ⟨ord, hc⟩ := ih
    by_cases hs : m.size ≤ input.length
    · obtain ⟨idx, hl, hI2⟩ := Inverse_ok m hc.buckets_len input hs
      rw [hI] at hI2
      cases hI2
    · obtain ⟨idx, hl, _, _, hI2⟩ := Inverse_fail m hc.buckets_len input (by omega)
      rw [hI] at hI2
      cases hI2
      exact ⟨ord, Chain_setBuckets m ord idx hc hl⟩

/-- The outcome of `Forward` on a chained list, by the size and the buffer alone. -/
theorem Forward_outcome (m : MTFT) (ord : Nat → Nat) (hc : Chain m ord) (fuel : Nat)
    (hfuel : 63 ≤ fuel) (B : List Byte) :
    (m.size ≤ B.length → ∃ m1, m.Forward fuel B =
      .ok (m1, (mtfRanks identityList (B.take (extent m.size B))).map byteOfNat ++
        B.drop (extent m.size B))) ∧
    (B.length < m.size → ∃ m1, m.Forward fuel B =
      .error (.indexOutOfRange, m1, (mtfRanks identityList B).map byteOfNat)) := by
  constructor
  · intro hs
    obtain ⟨m1, _, _, hF, _, _, _⟩ := Forward_ok m ord hc fuel hfuel B hs
    exact ⟨m1, hF⟩
  · intro hs
    obtain ⟨mk, _, _, _, _, _, _, _, hF, _⟩ := Forward_fail m ord hc fuel hfuel B hs
    exact ⟨mk, hF⟩

/-- C15. On an `MTFT` that has run any sequence of `Forward` and `Inverse` calls, `Forward`
of a buffer gives the same bytes as `Forward` of that buffer on a fresh `MTFT` of the same
size: the same output when the size fits the buffer, and the same out-of-range stop with
the same buffer contents when it does not. -/
theorem Forward_history_independent (m : MTFT) (h : Used m) (fuel : Nat) (hfuel : 63 ≤ fuel)
    (B : List Byte) :
    ∃ m0, NewMTFT m.size = some m0 ∧
      (m.size ≤ B.length → ∃ m1 m2 out, m.Forward fuel B = .ok (m1, out) ∧
        m0.Forward fuel B = .ok (m2, out)) ∧
      (B.length < m.size → ∃ m1 m2 out,
        m.Forward fuel B = .error (.indexOutOfRange, m1, out) ∧
        m0.Forward fuel B = .error (.indexOutOfRange, m2, out)) := by
  obtain ⟨ord, hc⟩ := Used.chain m h
  obtain ⟨m0, hm0, hR0, hsz0, _⟩ := NewMTFT_ok m.size
  obtain ⟨a1, a2⟩ := Forward_outcome m ord hc fuel hfuel B
  obtain ⟨b1, b2⟩ := Forward_outcome m0 _ hR0.toChain fuel hfuel B
  rw [hsz0] at b1 b2
  refine ⟨m0, hm0, ?_, ?_⟩
  · intro hs
    obtain ⟨m1, h1⟩ := a1 hs
    obtain ⟨m2, h2⟩ := b1 hs
    exact ⟨m1, m2, _, h1, h2⟩
  · intro hs
    obtain ⟨m1, h1⟩ := a2 hs
    obtain ⟨m2, h2⟩ := b2 hs
    exact ⟨m1, m2, _, h1, h2⟩

theorem Forward_history_independent_witness :
    63 ≤ 63 ∧ ∃ m ma da mb db m0, NewMTFT 0 = some m ∧ m.Inverse [3, 1, 4] = .ok (ma, da) ∧
      ma.Forward 63 [9, 9, 2] = .ok (mb, db) ∧ Used mb ∧ NewMTFT mb.size = some m0 ∧
      ∃ m1 m2 out, mb.Forward 63 [5, 5, 0] = .ok (m1, out) ∧
        m0.Forward 63 [5, 5, 0] = .ok (m2, out) := by
  refine ⟨Nat.le_refl _, ?_⟩
  obtain ⟨m, hm, hR, hsz, _⟩ := NewMTFT_ok 0
  obtain ⟨idx, hl, hI⟩ := Inverse_ok m hR.buckets_len [3, 1, 4] (by rw [hsz]; exact Nat.zero_le _)
  have hca := Chain_setBuckets m _ idx hR.toChain hl
  obtain ⟨mb, ordb, Lb, hF, hRb, hsb, _⟩ :=
    Forward_ok _ _ hca 63 (Nat.le_refl _) [9, 9, 2] (by show m.size ≤ _; rw [hsz]; exact Nat.zero_le _)
  have hu : Used mb :=
    Used.forward 63 _ [9, 9, 2] mb _ (Used.inverse m [3, 1, 4] _ _ (Used.new 0 m hm) hI)
      (Nat.le_refl _) hF
  have hsb0 : mb.size = 0 := by rw [hsb]; exact hsz
  obtain ⟨m0, hm0, hok, _⟩ := Forward_history_independent mb hu 63 (Nat.le_refl _) [5, 5, 0]
  obtain ⟨m1, m2, out, h1, h2⟩ := hok (by rw [hsb0]; exact Nat.zero_le _)
  exact ⟨m, _, _, mb, _, m0, hm, hI, hF, hu, hm0, m1, m2, out, h1, h2⟩

theorem chain_get (m : MTFT) (ord : Nat → Nat) (hc : Chain m ord) (k : Nat) (hk : k < 256) :
    m.chain[k]? = some (ord k) := by
  rw [chain_eq m ord hc, List.getElem?_map, List.getElem?_range hk]
  rfl

theorem chain_table (m : MTFT) (ord : Nat → Nat) (hc : Chain m ord) :
    m.chain.map (fun a => (m.nodes a).value) = table m ord := by
  rw [chain_eq m ord hc, List.map_map]
  rfl

theorem mem_chain (m : MTFT) (ord : Nat → Nat) (hc : Chain m ord) (a : Nat) :
    a ∈ m.chain ↔ ∃ k, k < 256 ∧ a = ord k := by
  rw [chain_eq m ord hc, List.mem_map]
  constructor
  · rintro ⟨k, hk, rfl⟩
    exact ⟨k, List.mem_range.mp hk, rfl⟩
  · rintro ⟨k, hk, rfl⟩
    exact ⟨k, List.mem_range.mpr hk, rfl⟩

/-- A rank structure with the lengths of a rebalance has the canonical layout. -/
theorem Rep.canonical (m : MTFT) (ord : Nat → Nat) (hR : Rep m ord canonL) : Canonical m := by
  refine ⟨?_, ?_, ?_⟩
  · rw [lengths_eq m ord canonL hR]
    rfl
  · intro k hk
    rw [hR.heads_ok k hk, off_canonL]
    congr 1
    by_cases h0 : k = 0
    · rw [if_pos h0, if_pos h0, chain_get m ord hR.toChain 0 (by omega)]
    · rw [if_neg h0, if_neg h0, chain_get m ord hR.toChain _ (by omega)]
      congr 2
      omega
  · intro j hj
    refine ⟨ord j, chain_get m ord hR.toChain j hj, ?_⟩
    obtain ⟨i, hi, hb, hlo, hhi⟩ := hR.buckets_ok j hj
    rw [hb]
    congr 2
    rw [off_canonL] at hlo hhi
    by_cases h0 : j = 0
    · rw [if_pos h0]
      subst h0
      by_cases hi0 : i = 0
      · exact hi0
      · rw [if_neg hi0] at hlo
        omega
    · rw [if_neg h0]
      rw [if_neg (by omega)] at hhi
      by_cases hi0 : i = 0
      · subst hi0
        omega
      · rw [if_neg hi0] at hlo
        omega

theorem table_nodup_inj (m : MTFT) (ord : Nat → Nat) (hn : (table m ord).Nodup) :
    ∀ a b, a < 256 → b < 256 →
      (m.nodes (ord a)).value = (m.nodes (ord b)).value → a = b := by
  intro a b ha hb h
  have hl : (table m ord).length = 256 := by simp [table]
  apply List.getElem?_inj (by rw [hl]; exact ha) hn
  rw [table_get, table_get, if_pos ha, if_pos hb, h]

/-- In a rank structure the front value is filed under bucket 0. -/
theorem Rep.front_bucket (m : MTFT) (ord L : Nat → Nat) (hR : Rep m ord L) :
    m.buckets[((m.nodes (ord 0)).value).val]? = some 0 := by
  obtain ⟨i, hi, hb, hlo, hhi⟩ := hR.buckets_ok 0 (by omega)
  have : i = 0 := by
    by_contra h
    have h1 := off_mono L 1 i (by omega)
    have h2 : off L 1 = off L 0 + L 0 := rfl
    have h3 := hR.L_pos 0 (by omega)
    omega
  subst this
  exact hb

/-- The bookkeeping of `moveToFront` when the test of the lengths asks for a rebalance:
the result has the lengths of a rebalance. -/
theorem updateLists_rebalance (m m4 : MTFT) (ord L : Nat → Nat) (hR : Rep m ord L) (i j : Nat)
    (hi : i < 16) (hi0 : 1 ≤ i) (hj : j < 256)
    (hc4 : Chain m4 (moved ord j))
    (hval : ∀ a, (m4.nodes a).value = (m.nodes a).value)
    (hlen : m4.lengths = m.lengths)
    (hcond : (L 0 : Int) + 1 > RESET_THRESHOLD ∨ (L i : Int) - 1 = 0) :
    ∃ m1, moveToFront.updateLists m4 i (m.nodes (ord j)).value = .ok m1 ∧
      Rep m1 (moved ord j) canonL := by
  have hvi : ∀ a b, a < 256 → b < 256 →
      (m4.nodes (moved ord j a)).value = (m4.nodes (moved ord j b)).value → a = b := by
    intro a b ha hb h
    rw [hval, hval] at h
    exact moved_val_inj (fun a => (m.nodes a).value) ord j hj hR.val_inj a b ha hb h
  have e1 : m4.lengths[i]? = some (L i : Int) := by rw [hlen]; exact hR.lengths_ok i hi
  have e2 : (m4.lengths.set i ((L i : Int) - 1))[0]? = some (L 0 : Int) := by
    rw [List.getElem?_set_ne (by omega), hlen]; exact hR.lengths_ok 0 (by omega)
  have hcv : (m.nodes (ord j)).value.val < m4.buckets.length := by
    rw [hc4.buckets_len]; exact (m.nodes (ord j)).value.isLt
  have e3 : storeAt m4.buckets ((m.nodes (ord j)).value.val &&& 0xFF) (0 : Byte) =
      some (m4.buckets.set (m.nodes (ord j)).value.val 0) := by
    rw [byte_and_ff]; exact storeAt_eq _ _ _ hcv
  let m5 : MTFT :=
    { m4 with lengths := (m4.lengths.set i ((L i : Int) - 1)).set 0 ((L 0 : Int) + 1)
              buckets := m4.buckets.set (m.nodes (ord j)).value.val 0 }
  have hc5 : Chain m5 (moved ord j) :=
    ⟨hc4.inj, hc4.next_ok, hc4.prev_ok, hc4.head0, hc4.heads_len,
      by simp [m5, hc4.lengths_len], by simp [m5, hc4.buckets_len]⟩
  have hb5 : m5.buckets[((m5.nodes (moved ord j 0)).value).val]? = some 0 := by
    show (m4.buckets.set _ 0)[((m4.nodes (moved ord j 0)).value).val]? = some 0
    rw [hval, moved_zero]
    exact List.getElem?_set_self hcv
  obtain ⟨m6, e6, hR6, _, _⟩ :=
    balanceLists_ok false m5 (moved ord j) hc5 (fun _ => hvi) (fun _ => hb5)
  refine ⟨m6, ?_, hR6⟩
  unfold moveToFront.updateLists
  rw [if_pos (by omega)]
  simp only [e1, e2, e3, hcond, if_true]
  exact e6

/-- A round of the loop of `moveToFront` whose test of the lengths asks for a rebalance
ends in a rank structure with the lengths of a rebalance. -/
theorem step_rebalance (m : MTFT) (ord L : Nat → Nat) (hR : Rep m ord L) (fuel : Nat)
    (hfuel : 63 ≤ fuel) (values : List Byte) (ii : Nat) (c : Byte)
    (hii : values[ii]? = some c) (hc : c ≠ (m.nodes (ord 0)).value) :
    ∃ i j, i < 16 ∧ moveToFront.find fuel m c = .ok (i, ord j, (j : Int)) ∧
      (1 ≤ i → ((L 0 : Int) + 1 > RESET_THRESHOLD ∨ (L i : Int) - 1 = 0) →
        ∃ m1 v1, moveToFront.step fuel m values (m.nodes (ord 0)).value ii = .ok (m1, v1, c) ∧
          Rep m1 (moved ord j) canonL) := by
  obtain ⟨i, j, hi, hj1, hj, hjc, hlo, hhi, hfind⟩ := find_ok m ord L hR fuel hfuel c hc
  refine ⟨i, j, hi, hfind, ?_⟩
  intro hi0 hcond
  subst hjc
  obtain ⟨m4, e4, hs4, hl4, hb4, hh4, hn4, hp4, hv4⟩ := relink_ok m ord L hR i j hi hj1 hj hlo
  have hc4 : Chain m4 (moved ord j) :=
    relink_chain m m4 ord L hR i j hj1 hj hh4 hn4 hp4 (by rw [hl4, hR.lengths_len])
      (by rw [hb4, hR.buckets_len])
  obtain ⟨m1, e1, hR1⟩ := updateLists_rebalance m m4 ord L hR i j hi hi0 hj hc4 hv4 hl4 hcond
  refine ⟨m1, values.set ii (byteOfInt (j : Int)), ?_, hR1⟩
  unfold moveToFront.step
  simp only [hii, hc, if_false, hfind, e4, e1]

theorem lengths_bounded_witness :
    63 ≤ 63 ∧ 2 ≤ ([1, 2, 3] : List Byte).length ∧
    ∃ m mk vk pk, NewMTFT 0 = some m ∧ Reach m ∧
      m.ForwardState 63 [1, 2, 3] 2 = .ok (mk, vk, pk) ∧
      (∃ l0 : Int, mk.lengths[0]? = some l0 ∧ 1 ≤ l0 ∧ l0 ≤ 64) ∧
      (∀ i, 1 ≤ i → i < 16 → ∃ l : Int, mk.lengths[i]? = some l ∧ 1 ≤ l ∧ l ≤ 17) := by
  refine ⟨Nat.le_refl _, by decide, ?_⟩
  obtain ⟨m, hm, _, _, _⟩ := NewMTFT_ok 0
  obtain ⟨mk, vk, pk, eS, h0, hi, _, _⟩ :=
    lengths_bounded m (Reach.new 0 m hm) 63 (Nat.le_refl _) [1, 2, 3] 2 (by decide)
  exact ⟨m, mk, vk, pk, hm, Reach.new 0 m hm, eS, h0, hi⟩

/-- C13. Right after `NewMTFT`, after the `balanceLists(true)` of `Forward` on any used
`MTFT`, and after `balanceLists(false)` on a chained list of distinct values whose front
value is filed under bucket 0 (the state in which `moveToFront` calls it), the layout is
canonical: lengths 1, 17, ..., 17, `heads[k]` at position `1 + 17 (k - 1)`, the value at
position `j` filed under 0 for `j = 0` and under `1 + (j - 1) / 17` otherwise. The chain
of nodes is the same before and after a rebalance; without reset every node of it keeps
its value, with reset the value at position `j` becomes `j`. Inside `Forward`, a round whose
test of the lengths asks for a rebalance ends in the canonical layout. -/
theorem rebalance_canonical :
    (∀ s, ∃ m, NewMTFT s = some m ∧ Chain m (fun k => k) ∧ Canonical m ∧
      m.chain = List.range 256 ∧ m.chain.map (fun a => (m.nodes a).value) = identityList) ∧
    (∀ (m : MTFT), Used m →
      ∃ m1, m.balanceLists true = .ok m1 ∧ Canonical m1 ∧ m1.chain = m.chain ∧
        m1.chain.map (fun a => (m1.nodes a).value) = identityList) ∧
    (∀ (m : MTFT) (ord : Nat → Nat) (h0 : Nat), Chain m ord →
      (m.chain.map (fun a => (m.nodes a).value)).Nodup →
      m.heads[0]? = some (some h0) → m.buckets[((m.nodes h0).value).val]? = some 0 →
      ∃ m1, m.balanceLists false = .ok m1 ∧ Canonical m1 ∧ m1.chain = m.chain ∧
        ∀ a ∈ m.chain, (m1.nodes a).value = (m.nodes a).value) ∧
    (∀ (m : MTFT), Reach m → ∀ fuel, 63 ≤ fuel →
      ∀ (input : List Byte) (i : Nat) (mi : MTFT) (vi : List Byte) (pi c : Byte)
        (listIdx p : Nat) (idx l0 l : Int) (mi1 : MTFT) (vi1 : List Byte) (pi1 : Byte),
      m.ForwardState fuel input i = .ok (mi, vi, pi) → vi[i]? = some c → c ≠ pi →
      moveToFront.find fuel mi c = .ok (listIdx, p, idx) → listIdx ≠ 0 →
      mi.lengths[0]? = some l0 → mi.lengths[listIdx]? = some l →
      (l0 + 1 > RESET_THRESHOLD ∨ l - 1 = 0) →
      m.ForwardState fuel input (i + 1) = .ok (mi1, vi1, pi1) → Canonical mi1) := by
  refine ⟨?_, ?_, ?_, ?_⟩
  · intro s
    obtain ⟨m, hm, hR, _, hv⟩ := NewMTFT_ok s
    refine ⟨m, hm, hR.toChain, Rep.canonical m _ hR, ?_, ?_⟩
    · rw [chain_eq m _ hR.toChain]
      exact List.map_id _
    · rw [chain_table m _ hR.toChain]
      exact table_identity m _ hv
  · intro m hu
    obtain ⟨ord, hc⟩ := Used.chain m hu
    obtain ⟨m1, e1, hR1, _, hv1⟩ :=
      balanceLists_ok true m ord hc (fun h => by simp at h) (fun h => by simp at h)
    refine ⟨m1, e1, Rep.canonical m1 ord hR1, ?_, ?_⟩
    · rw [chain_eq m1 ord hR1.toChain, chain_eq m ord hc]
    · rw [chain_table m1 ord hR1.toChain]
      exact table_identity m1 ord (fun k hk => by rw [hv1 k hk]; simp [balValue])
  · intro m ord h0 hc hn hh hb
    rw [chain_table m ord hc] at hn
    have h00 : h0 = ord 0 := by
      have := hc.head0
      rw [hh] at this
      simpa using this
    subst h00
    obtain ⟨m1, e1, hR1, _, hv1⟩ :=
      balanceLists_ok false m ord hc (fun _ => table_nodup_inj m ord hn) (fun _ => hb)
    refine ⟨m1, e1, Rep.canonical m1 ord hR1, ?_, ?_⟩
    · rw [chain_eq m1 ord hR1.toChain, chain_eq m ord hc]
    · intro a ha
      obtain ⟨k, hk, rfl⟩ := (mem_chain m ord hc a).mp ha
      rw [hv1 k hk]
      simp [balValue]
  · intro m hm fuel hfuel input i mi vi pi c listIdx p idx l0 l mi1 vi1 pi1 eS hvi hcp hfind
      hl0 hlen0 hlenI hcond eS1
    obtain ⟨ord, L, hR⟩ := Reach.rep m hm
    have hi : i ≤ input.length := by
      by_contra h
      obtain ⟨e, he⟩ := ForwardState_past m ord hR.toChain fuel hfuel input i (by omega)
      rw [eS] at he
      cases he
    obtain ⟨_, mi2, ordi, Li, pi2, _, _, eS2, _, _, _, hRi, hpi, _, _⟩ :=
      ForwardState_ok m ord hR.toChain fuel hfuel input i hi
    rw [eS] at eS2
    simp only [Except.ok.injEq, Prod.mk.injEq] at eS2
    obtain ⟨h1, h2, h3⟩ := eS2
    subst h1 h3
    rw [hpi] at hcp
    obtain ⟨i2, j, hi2, hfind2, hreb⟩ :=
      step_rebalance mi ordi Li hRi fuel hfuel vi i c hvi hcp
    rw [hfind] at hfind2
    simp only [Except.ok.injEq, Prod.mk.injEq] at hfind2
    obtain ⟨h4, _, _⟩ := hfind2
    subst h4
    have e0 := hRi.lengths_ok 0 (by omega)
    have eI := hRi.lengths_ok listIdx hi2
    rw [hlen0] at e0
    rw [hlenI] at eI
    have e0 := Option.some.inj e0
    have eI := Option.some.inj eI
    subst e0 eI
    obtain ⟨m1, v1, hstep, hR1⟩ := hreb (by omega) hcond
    have eS3 := ForwardState_succ fuel m input i mi vi _ eS
    rw [← hpi] at hstep
    rw [hstep] at eS3
    rw [eS1] at eS3
    simp only [Except.ok.injEq, Prod.mk.injEq] at eS3
    obtain ⟨h5, _, _⟩ := eS3
    subst h5
    exact Rep.canonical mi1 _ hR1

/-- C16. On a reachable `MTFT` with size 0, `Forward` returns on every buffer, and so does
its `balanceLists(true)`. In every round the `step` returns; when the symbol is not
`previous`, the search returns a node of the bucket `buckets[symbol]` that carries the
symbol, which is not `heads[0]` and has a `previous` node; a `balanceLists(false)` on the
state between two rounds returns too. -/
theorem Forward_finds_symbol (m : MTFT) (h : Reach m) (hs : m.size = 0) (fuel : Nat)
    (hfuel : 63 ≤ fuel) (input : List Byte) :
    (∃ m0, m.balanceLists true = .ok m0) ∧
    (∃ m1 out, m.Forward fuel input = .ok (m1, out)) ∧
    ∀ i, i < input.length → ∃ mi vi pi c r,
      m.ForwardState fuel input i = .ok (mi, vi, pi) ∧ vi[i]? = some c ∧
      moveToFront.step fuel mi vi pi i = .ok r ∧
      (∃ r0, mi.balanceLists false = .ok r0) ∧
      (c ≠ pi → ∃ listIdx p idx,
        moveToFront.find fuel mi c = .ok (listIdx, p, idx) ∧
        listIdx < 16 ∧ mi.buckets[c.val]? = some (byteOfNat listIdx) ∧
        p ∈ mi.bucket listIdx ∧ p ∈ mi.chain ∧ (mi.nodes p).value = c ∧
        mi.heads[0]? ≠ some (some p) ∧ (mi.nodes p).previous ≠ none) := by
  obtain ⟨ord, L, hR⟩ := Reach.rep m h
  obtain ⟨m0, e0, _, _, _⟩ :=
    balanceLists_ok true m ord hR.toChain (fun h => by simp at h) (fun h => by simp at h)
  obtain ⟨m1, _, _, hF, _, _, _⟩ :=
    Forward_ok m ord hR.toChain fuel hfuel input (by rw [hs]; exact Nat.zero_le _)
  refine ⟨⟨m0, e0⟩, ⟨m1, _, hF⟩, ?_⟩
  intro i hi
  obtain ⟨c, mi, ordi, Li, pi, vi, mi1, ordi1, Li1, vi1, _, eS, hRi, hpi, hvi, _, _,
    e1, _, _, _, _, _, _, _, _⟩ :=
    Forward_round m ord hR.toChain fuel hfuel input i hi
  obtain ⟨r0, er0, _, _, _⟩ :=
    balanceLists_ok false mi ordi hRi.toChain (fun _ => hRi.val_inj)
      (fun _ => Rep.front_bucket mi ordi Li hRi)
  refine ⟨mi, vi, pi, c, _, eS, hvi, e1, ⟨r0, er0⟩, ?_⟩
  intro hcp
  rw [hpi] at hcp
  obtain ⟨ix, j, hix, hj1, hj, hjc, hlo, hhi, hfind⟩ := find_ok mi ordi Li hRi fuel hfuel c hcp
  have hmem : ordi j ∈ mi.bucket ix :=
    (mem_bucket mi ordi Li hRi ix hix (ordi j)).mpr ⟨j, hlo, hhi, rfl⟩
  refine ⟨ix, ordi j, j, hfind, hix, ?_, hmem, ?_, hjc, ?_, ?_⟩
  · exact ((Rep.invariant mi ordi Li hRi).bucket_of c ix hix).mpr ⟨ordi j, hmem, hjc⟩
  · exact (mem_chain mi ordi hRi.toChain (ordi j)).mpr ⟨j, hj, rfl⟩
  · rw [hRi.head0]
    intro hh
    have := hRi.inj 0 j (by omega) hj (by simpa using hh)
    omega
  · have := hRi.prev_ok (j - 1) (by omega)
    rw [show j - 1 + 1 = j by omega] at this
    rw [this]
    simp

theorem Forward_finds_symbol_witness :
    63 ≤ 63 ∧ ∃ m, NewMTFT 0 = some m ∧ Reach m ∧ m.size = 0 ∧
      (∃ m1 out, m.Forward 63 [7, 7, 200, 7] = .ok (m1, out)) ∧
      ∃ mi vi pi c r, m.ForwardState 63 [7, 7, 200, 7] 2 = .ok (mi, vi, pi) ∧
        vi[2]? = some c ∧ moveToFront.step 63 mi vi pi 2 = .ok r := by
  refine ⟨Nat.le_refl _, ?_⟩
  obtain ⟨m, hm, _, hsz, _⟩ := NewMTFT_ok 0
  obtain ⟨_, hF, hall⟩ :=
    Forward_finds_symbol m (Reach.new 0 m hm) hsz 63 (Nat.le_refl _) [7, 7, 200, 7]
  obtain ⟨mi, vi, pi, c, r, eS, hv, hstep, _, _⟩ := hall 2 (by decide)
  exact ⟨m, hm, Reach.new 0 m hm, hsz, hF, mi, vi, pi, c, r, eS, hv, hstep⟩

/-- The index that the search of `moveToFront` returns is the bucketed rank: the sum of the
lengths of the earlier buckets plus the position of the node inside its bucket; it is the
position of the symbol in the list of values, below 256. -/
theorem find_rank (m : MTFT) (ord L : Nat → Nat) (hR : Rep m ord L) (fuel : Nat)
    (hfuel : 63 ≤ fuel) (c : Byte) (hc0 : c ≠ (m.nodes (ord 0)).value) :
    ∃ (listIdx p : Nat) (idx : Int) (base pos : Nat),
      moveToFront.find fuel m c = .ok (listIdx, p, idx) ∧
      listIdx < 16 ∧ sumLengths m.lengths listIdx 0 0 = some (base : Int) ∧
      (m.bucket listIdx)[pos]? = some p ∧ idx = ((base + pos : Nat) : Int) ∧
      base + pos = (table m ord).indexOf c ∧ base + pos < 256 := by
  obtain ⟨i, j, hi, hj1, hj, hjc, hlo, hhi, hfind⟩ := find_ok m ord L hR fuel hfuel c hc0
  have hidx := table_indexOf m ord hR.val_inj j hj
  rw [hjc] at hidx
  have hoff : off L (i + 1) = off L i + L i := rfl
  refine ⟨i, ord j, (j : Int), off L i, j - off L i, hfind, hi, ?_, ?_, ?_, ?_, ?_⟩
  · have := sumLengths_eq m.lengths L hR.lengths_ok i 0 0 (by omega)
    rw [this]
    simp [off]
  · rw [bucket_eq m ord L hR i hi, List.getElem?_map, List.getElem?_range (by omega)]
    simp only [Option.map_some', Option.some.injEq]
    congr 1
    omega
  · congr 1
    omega
  · rw [hidx]
    omega
  · omega

/-- C2. On an MTFT with size 0, `Forward` returns on every byte buffer `B`, and its output
is the reference move-to-front transform of `B` started from the list 0, 1, ..., 255: each
output byte, read as a number, is the position of the input byte in the current list. In
every round that misses the fast path, the index `idx` that the search of `moveToFront`
computes, the sum of the lengths of the earlier buckets plus the position of the node
inside its bucket, is that position and lies in [0, 256), so that the conversion
`byte(idx)` does not truncate; in a round that takes the fast path the rank is 0. -/
theorem Forward_refines_reference (B : List Byte) (fuel : Nat) (hfuel : 63 ≤ fuel) :
    ∃ m m1 out, NewMTFT 0 = some m ∧ m.Forward fuel B = .ok (m1, out) ∧
      out.map Fin.val = mtfRanks identityList B ∧
      (∀ r ∈ mtfRanks identityList B, r < 256) ∧
      ∀ i, i < B.length → ∃ mi vi pi c,
        m.ForwardState fuel B i = .ok (mi, vi, pi) ∧ B[i]? = some c ∧ vi[i]? = some c ∧
        (c = pi → out[i]? = some 0 ∧ (mtfRanks identityList B)[i]? = some 0) ∧
        (c ≠ pi → ∃ (listIdx p : Nat) (idx : Int) (base pos : Nat),
          moveToFront.find fuel mi c = .ok (listIdx, p, idx) ∧
          sumLengths mi.lengths listIdx 0 0 = some (base : Int) ∧
          (mi.bucket listIdx)[pos]? = some p ∧ idx = ((base + pos : Nat) : Int) ∧
          0 ≤ idx ∧ idx < 256 ∧
          (mtfRanks identityList B)[i]? = some idx.toNat ∧
          out[i]? = some (byteOfInt idx) ∧ ((byteOfInt idx).val : Int) = idx) := by
  obtain ⟨m, hm, hR, hsz, _⟩ := NewMTFT_ok 0
  obtain ⟨m1, ord1, L1, hF, hR1, hs1, hr⟩ :=
    Forward_ok m _ hR.toChain fuel hfuel B (by rw [hsz]; omega)
  rw [hsz, extent_zero, List.take_length] at hr
  rw [hsz, extent_zero, List.take_length, List.drop_length, List.append_nil] at hF
  refine ⟨m, m1, _, hm, hF, map_val_byteOfNat _ hr, hr, ?_⟩
  intro i hi
  obtain ⟨c, mi, ordi, Li, pi, vi, mi1, ordi1, Li1, vi1, hc, eS, hRi, hpi, hvi, _, _,
    e1, _, _, hv1, hlt, hget, _, _, _⟩ :=
    Forward_round m _ hR.toChain fuel hfuel B i hi
  have hil : i < vi.length := by
    rcases Nat.lt_or_ge i vi.length with h | h
    · exact h
    · rw [List.getElem?_eq_none h] at hvi; simp at hvi
  have hout : ((mtfRanks identityList B).map byteOfNat)[i]? =
      some (byteOfNat ((table mi ordi).indexOf c)) := by
    rw [← hget, hv1, List.getElem?_set_self hil]
  have hrl : i < (mtfRanks identityList B).length := by
    rw [mtfRanks_length]; exact hi
  have hrk : (mtfRanks identityList B)[i]? = some ((table mi ordi).indexOf c) := by
    rw [List.getElem?_map, List.getElem?_eq_getElem hrl] at hout
    simp only [Option.map_some', Option.some.injEq] at hout
    have hlt2 : (mtfRanks identityList B)[i] < 256 := hr _ (List.getElem_mem _)
    have := byteOfNat_inj _ _ hlt2 hlt hout
    rw [List.getElem?_eq_getElem hrl, this]
  refine ⟨mi, vi, pi, c, eS, hc, hvi, ?_, ?_⟩
  · intro hcp
    have h0 : (table mi ordi).indexOf c = 0 := by
      rw [hcp, hpi]
      exact table_indexOf mi ordi hRi.val_inj 0 (by omega)
    rw [h0] at hout hrk
    exact ⟨hout, hrk⟩
  · intro hcp
    rw [hpi] at hcp
    obtain ⟨listIdx, p, idx, base, pos, hfind, _, hsum, hpos, hidx, hrank, hlt3⟩ :=
      find_rank mi ordi Li hRi fuel hfuel c hcp
    rw [← hrank] at hout hrk
    subst hidx
    refine ⟨listIdx, p, _, base, pos, hfind, hsum, hpos, rfl, by omega, by omega, ?_, ?_, ?_⟩
    · rw [Int.toNat_ofNat]; exact hrk
    · rw [byteOfInt_natCast]; exact hout
    · rw [byteOfInt_natCast, byteOfNat_val _ hlt3]

set_option maxRecDepth 100000 in
theorem Forward_refines_reference_witness :
    63 ≤ 63 ∧ ∃ m m1 out, NewMTFT 0 = some m ∧
      m.Forward 63 [65, 65, 66, 65] = .ok (m1, out) ∧ out.map Fin.val = [65, 0, 66, 1] := by
  refine ⟨Nat.le_refl _, ?_⟩
  obtain ⟨m, m1, out, h1, h2, h3, _⟩ :=
    Forward_refines_reference [65, 65, 66, 65] 63 (Nat.le_refl _)
  have hr : mtfRanks identityList [65, 65, 66, 65] = [65, 0, 66, 1] := by decide
  exact ⟨m, m1, out, h1, h2, by rw [h3, hr]⟩

/-- C10. With a size `s` that does not exceed the length of the buffer, `Forward` returns a
buffer of the same length; with `end` the size when it is not 0 and the length of the
buffer when it is, the first `end` elements are transformed: they are the reference ranks
of the first `end` elements of the input, which is also what the size-0 `Forward` makes of
them, and the other elements are those of the input. So does `Inverse`, whose first `end`
elements are the reference decoding of the first `end` elements of the input. With size 0
the whole buffer is transformed. -/
theorem sized_transform_frame (B : List Byte) (s fuel : Nat) (hfuel : 63 ≤ fuel)
    (hs : s ≤ B.length) :
    ∃ m m0 m1 out m2 out0 m3 inv m4 inv0, NewMTFT s = some m ∧ NewMTFT 0 = some m0 ∧
      m.Forward fuel B = .ok (m1, out) ∧
      m0.Forward fuel (B.take (extent s B)) = .ok (m2, out0) ∧
      out.length = B.length ∧ out.take (extent s B) = out0 ∧
      out.drop (extent s B) = B.drop (extent s B) ∧
      m.Inverse B = .ok (m3, inv) ∧ m0.Inverse (B.take (extent s B)) = .ok (m4, inv0) ∧
      inv.length = B.length ∧ inv.take (extent s B) = inv0 ∧
      inv.drop (extent s B) = B.drop (extent s B) ∧
      out.take (extent s B) = (mtfRanks identityList (B.take (extent s B))).map byteOfNat ∧
      inv.take (extent s B) = mtfDecode identityList (B.take (extent s B)) ∧
      (0 < s → extent s B = s) ∧
      (s = 0 → out = (mtfRanks identityList B).map byteOfNat ∧
        inv = mtfDecode identityList B) := by
  have he : extent s B ≤ B.length := by
    unfold extent; split <;> omega
  obtain ⟨m, hm, hR, hsz, _⟩ := NewMTFT_ok s
  obtain ⟨m0, hm0, hR0, hsz0, _⟩ := NewMTFT_ok 0
  obtain ⟨m1, _, _, hF, _, _, _⟩ := Forward_ok m _ hR.toChain fuel hfuel B (by rw [hsz]; exact hs)
  obtain ⟨m2, _, _, hF0, _, _, _⟩ :=
    Forward_ok m0 _ hR0.toChain fuel hfuel (B.take (extent s B)) (by rw [hsz0]; omega)
  obtain ⟨i1, _, hI⟩ := Inverse_ok m hR.buckets_len B (by rw [hsz]; exact hs)
  obtain ⟨i0, _, hI0⟩ :=
    Inverse_ok m0 hR0.buckets_len (B.take (extent s B)) (by rw [hsz0]; omega)
  rw [hsz] at hF hI
  rw [hsz0, extent_zero, List.take_length, List.drop_length, List.append_nil] at hF0 hI0
  have hlt : (B.take (extent s B)).length = extent s B := by rw [List.length_take]; omega
  have hl1 : ((mtfRanks identityList (B.take (extent s B))).map byteOfNat).length =
      extent s B := by
    rw [List.length_map, mtfRanks_length _ identityList, hlt]
  have hl2 : (mtfDecode identityList (B.take (extent s B))).length = extent s B := by
    rw [mtfDecode_length _ identityList, hlt]
  refine ⟨m, m0, m1, _, m2, _, _, _, _, _, hm, hm0, hF, hF0, ?_, ?_, ?_, hI, hI0, ?_, ?_, ?_,
    ?_, ?_, ?_, ?_⟩
  · rw [List.length_append, hl1, List.length_drop]; omega
  · rw [List.take_left' hl1]
  · rw [List.drop_left' hl1]
  · rw [List.length_append, hl2, List.length_drop]; omega
  · rw [List.take_left' hl2]
  · rw [List.drop_left' hl2]
  · rw [List.take_left' hl1]
  · rw [List.take_left' hl2]
  · intro h0
    exact extent_pos s B h0
  · intro h0
    subst h0
    rw [extent_zero, List.take_length, List.drop_length, List.append_nil, List.append_nil]
    exact ⟨rfl, rfl⟩

set_option maxRecDepth 100000 in
theorem sized_transform_frame_witness :
    63 ≤ 63 ∧ 2 ≤ ([65, 65, 66, 65] : List Byte).length ∧
    ∃ m m1 m3, NewMTFT 2 = some m ∧
      m.Forward 63 [65, 65, 66, 65] = .ok (m1, [65, 0, 66, 65]) ∧
      m.Inverse [65, 65, 66, 65] = .ok (m3, [65, 64, 66, 65]) := by
  refine ⟨Nat.le_refl _, by decide, ?_⟩
  obtain ⟨m, m0, m1, out, m2, out0, m3, inv, m4, inv0, hm, _, hF, _, _, _, hod, hI, _, _, _,
    hid, hot, hit, _, _⟩ :=
    sized_transform_frame [65, 65, 66, 65] 2 63 (Nat.le_refl _) (by decide)
  have he : extent 2 ([65, 65, 66, 65] : List Byte) = 2 := rfl
  rw [he] at hod hid hot hit
  have hr : (mtfRanks identityList (List.take 2 ([65, 65, 66, 65] : List Byte))).map byteOfNat
      = [65, 0] := by decide
  have hd : mtfDecode identityList (List.take 2 ([65, 65, 66, 65] : List Byte)) = [65, 64] := by
    decide
  have ho : out = [65, 0, 66, 65] := by
    rw [← List.take_append_drop 2 out, hot, hod, hr]
    rfl
  have hi : inv = [65, 64, 66, 65] := by
    rw [← List.take_append_drop 2 inv, hit, hid, hd]
    rfl
  subst ho hi
  exact ⟨m, m1, m3, hm, hF, hI⟩

end Kanzi
